import Mathlib

/-!
# Greedy remesher

A shallow embedding of `src/greedy_remesher.cpp` (`to_index` and
`greedy_remesher`) together with theorems about the quads it emits.

Conventions of the embedding.

* `uint32_t` values are naturals reduced modulo `2 ^ 32` where the source
  stores or computes them in 32 bits (`to_index`, the mask size, the
  components of the `glm::uvec3` cursor).
* `int` values (the components of `glm::ivec3`) are integers; a conversion
  to `int` and every `int` addition or subtraction is reduced to the
  two's-complement range `[-2 ^ 31, 2 ^ 31)` by `toI32`.
* `size_t` counters (`slice`, `x`, `y`, `width`, `height`, `k`, `l`, the
  result of `to_index`) are plain naturals: they never exceed a 32-bit
  dimension.
* The mask is a `List Bool`; `mask[i]` with `i` outside the vector has no
  defined behaviour in the source and is the result `none` here, which then
  propagates to the result of `greedy_remesher`.
* A `for` loop whose counter is only stepped by the loop header is a fold
  over `List.range`; the three loops whose exit depends on the mask
  (`x`, `width`, `height`) recurse on an iteration budget, and running out of
  budget is `none` as well.  The theorems below show that the budgets passed
  by the callers are never exhausted.
-/

namespace GreedyRemesher

/-! ## Vectors -/

/-- The `glm::uvec3` of the source: three unsigned 32-bit components. -/
structure UVec3 where
  x : Nat
  y : Nat
  z : Nat
  deriving DecidableEq, Repr

/-- The `glm::ivec3` of the source: three signed 32-bit components. -/
structure IVec3 where
  x : Int
  y : Int
  z : Int
  deriving DecidableEq, Repr

/-- Reduction of an integer to the range of a 32-bit two's-complement `int`. -/
def toI32 (n : Int) : Int := (n + 2 ^ 31) % 2 ^ 32 - 2 ^ 31

/-- Component selection `v[i]` on a `glm::uvec3`, for `i` in `0, 1, 2`. -/
def UVec3.get (v : UVec3) (i : Nat) : Nat :=
  match i with
  | 0 => v.x
  | 1 => v.y
  | _ => v.z

/-- Assignment `v[i] = a` on a `glm::uvec3`; the value is stored in 32 bits. -/
def UVec3.set (v : UVec3) (i : Nat) (a : Nat) : UVec3 :=
  match i with
  | 0 => { v with x := a % 2 ^ 32 }
  | 1 => { v with y := a % 2 ^ 32 }
  | _ => { v with z := a % 2 ^ 32 }

/-- Component selection `v[i]` on a `glm::ivec3`. -/
def IVec3.get (v : IVec3) (i : Nat) : Int :=
  match i with
  | 0 => v.x
  | 1 => v.y
  | _ => v.z

/-- Assignment `v[i] = a` on a `glm::ivec3` from an unsigned counter. -/
def IVec3.set (v : IVec3) (i : Nat) (a : Nat) : IVec3 :=
  match i with
  | 0 => { v with x := toI32 a }
  | 1 => { v with y := toI32 a }
  | _ => { v with z := toI32 a }

/-- The vector `glm::ivec3(0)`. -/
def IVec3.zero : IVec3 := ⟨0, 0, 0⟩

/-- The vector `glm::uvec3(0)`. -/
def UVec3.zero : UVec3 := ⟨0, 0, 0⟩

/-- The converting constructor `glm::ivec3(cursor)` from a `glm::uvec3`. -/
def IVec3.ofU (c : UVec3) : IVec3 := ⟨toI32 c.x, toI32 c.y, toI32 c.z⟩

/-- Component-wise `int` addition of two `glm::ivec3`. -/
def IVec3.add (p q : IVec3) : IVec3 :=
  ⟨toI32 (p.x + q.x), toI32 (p.y + q.y), toI32 (p.z + q.z)⟩

/-- Component-wise `int` subtraction of two `glm::ivec3`. -/
def IVec3.sub (p q : IVec3) : IVec3 :=
  ⟨toI32 (p.x - q.x), toI32 (p.y - q.y), toI32 (p.z - q.z)⟩

/-- The `quad_t` of the source: four lattice corners. -/
structure quad_t where
  a : IVec3
  b : IVec3
  c : IVec3
  d : IVec3
  deriving DecidableEq, Repr

/-! ## The mask -/

/-- The `std::vector<bool>` mask. -/
abbrev Mask := List Bool

/-- The function `to_index`: `v * sz_u + u` in 32-bit unsigned arithmetic.
Reducing the three `uint32_t` parameters first gives the same value. -/
def to_index (u v sz_u : Nat) : Nat := (v * sz_u + u) % 2 ^ 32

/-- The read `mask[i]`; `none` outside the vector. -/
def maskGet (mask : Mask) (i : Nat) : Option Bool := mask[i]?

/-- The write `mask[i] = b`; `none` outside the vector. -/
def maskSet (mask : Mask) (i : Nat) (b : Bool) : Option Mask :=
  if i < mask.length then some (mask.set i b) else none

/-- A rectangle found by the merge scan: anchor `(x, y)`, `w` cells along the
tangent and `h` cells along the bitangent. -/
structure Rect where
  x : Nat
  y : Nat
  w : Nat
  h : Nat
  deriving DecidableEq, Repr

/-! ## The merge scan (lines 75-146) -/

/-- The loop `while (x + width < dims[tan] && mask[to_index(x + width, y, dims[tan])]) width++`
(lines 88-93), started at `width`. -/
def growWidth (mask : Mask) (W x y : Nat) : Nat → Nat → Option Nat
  | 0, _ => none
  | fuel + 1, width =>
    if x + width < W then
      match maskGet mask (to_index (x + width) y W) with
      | none => none
      | some true => growWidth mask W x y fuel (width + 1)
      | some false => some width
    else some width

/-- The inner loop `for (k = x; k < x + width; k++)` of the height growth
(lines 100-106) over `n` remaining cells from column `k` of row `row`:
`some false` is the jump to `done_quad`, `some true` the normal exit. -/
def rowSet (mask : Mask) (W row : Nat) : Nat → Nat → Option Bool
  | 0, _ => some true
  | n + 1, k =>
    match maskGet mask (to_index k row W) with
    | none => none
    | some true => rowSet mask W row n (k + 1)
    | some false => some false

/-- The loop `for (; y + height < dims[biTan]; height++)` (lines 97-107),
started at `height`. -/
def growHeight (mask : Mask) (W H x y width : Nat) : Nat → Nat → Option Nat
  | 0, _ => none
  | fuel + 1, height =>
    if y + height < H then
      match rowSet mask W (y + height) width x with
      | none => none
      | some true => growHeight mask W H x y width fuel (height + 1)
      | some false => some height
    else some height

/-- The clearing loops of lines 132-142. -/
def clearRect (mask : Mask) (W x y width height : Nat) : Option Mask :=
  (List.range height).foldlM
    (fun m l => (List.range width).foldlM
      (fun m k => maskSet m (to_index (x + k) (y + l) W) false) m)
    mask

/-- The loop `for (size_t x = 0; x < dims[tan];)` of lines 77-145 for the row
`y`, started at column `x`.  The rectangles are returned in the order in which
the source pushes their quads. -/
def scanRow (W H y : Nat) : Nat → Nat → Mask → Option (List Rect × Mask)
  | 0, _, _ => none
  | fuel + 1, x, mask =>
    if x < W then
      match maskGet mask (to_index x y W) with
      | none => none
      | some false => scanRow W H y fuel (x + 1) mask
      | some true =>
        match growWidth mask W x y W 1 with
        | none => none
        | some width =>
          match growHeight mask W H x y width H 1 with
          | none => none
          | some height =>
            match clearRect mask W x y width height with
            | none => none
            | some mask1 =>
              match scanRow W H y fuel (x + width) mask1 with
              | none => none
              | some (rest, mask2) => some (⟨x, y, width, height⟩ :: rest, mask2)
    else some ([], mask)

/-- The loop `for (size_t y = 0; y < dims[biTan]; y++)` of lines 75-146: the
rectangles of one mask in emission order, and the mask left behind. -/
def mergeMask (W H : Nat) (mask : Mask) : Option (List Rect × Mask) :=
  (List.range H).foldlM
    (fun (acc : List Rect × Mask) y =>
      match scanRow W H y (W + 1) 0 acc.2 with
      | none => none
      | some (rs, m) => some (acc.1 ++ rs, m))
    ([], mask)

/-! ## Mask construction and the sweeps (lines 27-72) -/

/-- The tangent axis `(norm + 1) % 3`. -/
def tanAxis (norm : Nat) : Nat := (norm + 1) % 3

/-- The bitangent axis `(norm + 2) % 3`. -/
def biTanAxis (norm : Nat) : Nat := (norm + 2) % 3

/-- The vector `normalVector` of lines 37-38. -/
def normalVector (norm : Nat) : IVec3 := IVec3.zero.set norm 1

/-- The cursor of lines 49-55 at slice `slice` and in-plane position
`(u, v)`. -/
def cursorAt (norm slice u v : Nat) : UVec3 :=
  ((UVec3.zero.set norm slice).set (biTanAxis norm) v).set (tanAxis norm) u

/-- The value written to the mask at lines 63-70 for one cursor position. -/
def maskBit (map_fn : IVec3 → Bool) (norm slice u v : Nat) : Bool :=
  let curr := IVec3.ofU (cursorAt norm slice u v)
  let vec := normalVector norm
  let voxel_in_slice := map_fn curr
  let voxel_in_previous_slice := map_fn (curr.sub vec)
  voxel_in_slice != voxel_in_previous_slice

/-- The mask fill of lines 53-72 for one slice. -/
def fillMask (dims : UVec3) (map_fn : IVec3 → Bool) (norm slice : Nat) (mask : Mask) :
    Option Mask :=
  (List.range (dims.get (biTanAxis norm))).foldlM
    (fun m v => (List.range (dims.get (tanAxis norm))).foldlM
      (fun m u =>
        let cursor := cursorAt norm slice u v
        let i := to_index (cursor.get (tanAxis norm)) (cursor.get (biTanAxis norm))
          (dims.get (tanAxis norm))
        maskSet m i (maskBit map_fn norm slice u v))
      m)
    mask

/-- The quad pushed at lines 110-129 for the rectangle `r` of slice `slice`. -/
def mkQuad (norm slice : Nat) (r : Rect) : quad_t :=
  let b := ((IVec3.zero.set norm slice).set (tanAxis norm) r.x).set (biTanAxis norm) r.y
  let du := IVec3.zero.set (tanAxis norm) r.w
  let dv := IVec3.zero.set (biTanAxis norm) r.h
  ⟨b, b.add du, (b.add du).add dv, b.add dv⟩

/-- The body of the slice loop (lines 46-146): fill the mask, merge it, and
return the quads of this slice with the mask left behind. -/
def sliceQuads (dims : UVec3) (map_fn : IVec3 → Bool) (norm slice : Nat) (mask : Mask) :
    Option (List quad_t × Mask) :=
  match fillMask dims map_fn norm slice mask with
  | none => none
  | some filled =>
    match mergeMask (dims.get (tanAxis norm)) (dims.get (biTanAxis norm)) filled with
    | none => none
    | some (rects, left) => some (rects.map (mkQuad norm slice), left)

/-- The mask allocated at line 41: `dims[tan] * dims[biTan]` cells, the
product taken in 32 bits, all `false`. -/
def newMask (dims : UVec3) (norm : Nat) : Mask :=
  List.replicate ((dims.get (tanAxis norm) * dims.get (biTanAxis norm)) % 2 ^ 32) false

/-- The slices visited by `for (slice = 0; slice <= dims[norm]; slice++)`. -/
def sliceRange (dims : UVec3) (norm : Nat) : List Nat := List.range (dims.get norm + 1)

/-- The slice loop over the slices `slices` with the mask shared by them. -/
def sweepFrom (dims : UVec3) (map_fn : IVec3 → Bool) (norm : Nat) (slices : List Nat)
    (mask : Mask) : Option (List quad_t × Mask) :=
  slices.foldlM
    (fun (acc : List quad_t × Mask) slice =>
      match sliceQuads dims map_fn norm slice acc.2 with
      | none => none
      | some (qs, m) => some (acc.1 ++ qs, m))
    ([], mask)

/-- One iteration of the axis loop (lines 28-148): the quads that the sweep
along `norm` appends to the output. -/
def sweep (dims : UVec3) (map_fn : IVec3 → Bool) (norm : Nat) : Option (List quad_t) :=
  (sweepFrom dims map_fn norm (sliceRange dims norm) (newMask dims norm)).map Prod.fst

/-- The function `greedy_remesher`. -/
def greedy_remesher (dims : UVec3) (map_fn : IVec3 → Bool) : Option (List quad_t) :=
  (List.range 3).foldlM
    (fun quads norm =>
      match sweep dims map_fn norm with
      | none => none
      | some qs => some (quads ++ qs))
    []

/-! ## The same loops with every mask access checked

Each definition below is the loop of the same name above in which the accesses
`mask[to_index(u, v, dims[tan])]` go through `readAt` and `writeAt`, which fail
unless the access is `InBounds`. -/

/-- The access `mask[to_index(u, v, W)]` addresses a cell of the `W x H` grid:
`u < W`, `v < H`, the 32-bit index is the unwrapped `v * W + u`, and it is below
the mask size `W * H`. -/
def InBounds (W H u v : Nat) : Prop :=
  u < W ∧ v < H ∧ to_index u v W = v * W + u ∧ to_index u v W < W * H

instance decidableInBounds (W H u v : Nat) : Decidable (InBounds W H u v) :=
  inferInstanceAs
    (Decidable (u < W ∧ v < H ∧ to_index u v W = v * W + u ∧ to_index u v W < W * H))

/-- The read `mask[to_index(u, v, W)]`, failing unless it is `InBounds`. -/
def readAt (mask : Mask) (W H u v : Nat) : Option Bool :=
  if InBounds W H u v then maskGet mask (to_index u v W) else none

/-- The write `mask[to_index(u, v, W)] = b`, failing unless it is `InBounds`. -/
def writeAt (mask : Mask) (W H u v : Nat) (b : Bool) : Option Mask :=
  if InBounds W H u v then maskSet mask (to_index u v W) b else none

/-- Width growth (lines 88-93) with checked reads. -/
def growWidthChecked (mask : Mask) (W H x y : Nat) : Nat → Nat → Option Nat
  | 0, _ => none
  | fuel + 1, width =>
    if x + width < W then
      match readAt mask W H (x + width) y with
      | none => none
      | some true => growWidthChecked mask W H x y fuel (width + 1)
      | some false => some width
    else some width

/-- The inner loop of the height growth (lines 100-106) with checked reads. -/
def rowSetChecked (mask : Mask) (W H row : Nat) : Nat → Nat → Option Bool
  | 0, _ => some true
  | n + 1, k =>
    match readAt mask W H k row with
    | none => none
    | some true => rowSetChecked mask W H row n (k + 1)
    | some false => some false

/-- Height growth (lines 97-107) with checked reads. -/
def growHeightChecked (mask : Mask) (W H x y width : Nat) : Nat → Nat → Option Nat
  | 0, _ => none
  | fuel + 1, height =>
    if y + height < H then
      match rowSetChecked mask W H (y + height) width x with
      | none => none
      | some true => growHeightChecked mask W H x y width fuel (height + 1)
      | some false => some height
    else some height

/-- The clearing loops (lines 132-142) with checked writes. -/
def clearRectChecked (mask : Mask) (W H x y width height : Nat) : Option Mask :=
  (List.range height).foldlM
    (fun m l => (List.range width).foldlM
      (fun m k => writeAt m W H (x + k) (y + l) false) m)
    mask

/-- The scan of one row (lines 77-145) with checked accesses. -/
def scanRowChecked (W H y : Nat) : Nat → Nat → Mask → Option (List Rect × Mask)
  | 0, _, _ => none
  | fuel + 1, x, mask =>
    if x < W then
      match readAt mask W H x y with
      | none => none
      | some false => scanRowChecked W H y fuel (x + 1) mask
      | some true =>
        match growWidthChecked mask W H x y W 1 with
        | none => none
        | some width =>
          match growHeightChecked mask W H x y width H 1 with
          | none => none
          | some height =>
            match clearRectChecked mask W H x y width height with
            | none => none
            | some mask1 =>
              match scanRowChecked W H y fuel (x + width) mask1 with
              | none => none
              | some (rest, mask2) => some (⟨x, y, width, height⟩ :: rest, mask2)
    else some ([], mask)

/-- The merge scan (lines 75-146) with checked accesses. -/
def mergeMaskChecked (W H : Nat) (mask : Mask) : Option (List Rect × Mask) :=
  (List.range H).foldlM
    (fun (acc : List Rect × Mask) y =>
      match scanRowChecked W H y (W + 1) 0 acc.2 with
      | none => none
      | some (rs, m) => some (acc.1 ++ rs, m))
    ([], mask)

/-- The mask fill (lines 53-72) with checked writes. -/
def fillMaskChecked (dims : UVec3) (map_fn : IVec3 → Bool) (norm slice : Nat) (mask : Mask) :
    Option Mask :=
  (List.range (dims.get (biTanAxis norm))).foldlM
    (fun m v => (List.range (dims.get (tanAxis norm))).foldlM
      (fun m u =>
        let cursor := cursorAt norm slice u v
        writeAt m (dims.get (tanAxis norm)) (dims.get (biTanAxis norm))
          (cursor.get (tanAxis norm)) (cursor.get (biTanAxis norm))
          (maskBit map_fn norm slice u v))
      m)
    mask

/-- The body of the slice loop with checked accesses. -/
def sliceQuadsChecked (dims : UVec3) (map_fn : IVec3 → Bool) (norm slice : Nat)
    (mask : Mask) : Option (List quad_t × Mask) :=
  match fillMaskChecked dims map_fn norm slice mask with
  | none => none
  | some filled =>
    match mergeMaskChecked (dims.get (tanAxis norm)) (dims.get (biTanAxis norm)) filled with
    | none => none
    | some (rects, left) => some (rects.map (mkQuad norm slice), left)

/-- The slice loop with checked accesses. -/
def sweepFromChecked (dims : UVec3) (map_fn : IVec3 → Bool) (norm : Nat)
    (slices : List Nat) (mask : Mask) : Option (List quad_t × Mask) :=
  slices.foldlM
    (fun (acc : List quad_t × Mask) slice =>
      match sliceQuadsChecked dims map_fn norm slice acc.2 with
      | none => none
      | some (qs, m) => some (acc.1 ++ qs, m))
    ([], mask)

/-- One iteration of the axis loop with checked accesses. -/
def sweepChecked (dims : UVec3) (map_fn : IVec3 → Bool) (norm : Nat) :
    Option (List quad_t) :=
  (sweepFromChecked dims map_fn norm (sliceRange dims norm) (newMask dims norm)).map Prod.fst

/-- The function `greedy_remesher` with every mask access checked. -/
def greedy_remesher_checked (dims : UVec3) (map_fn : IVec3 → Bool) :
    Option (List quad_t) :=
  (List.range 3).foldlM
    (fun quads norm =>
      match sweepChecked dims map_fn norm with
      | none => none
      | some qs => some (quads ++ qs))
    []

/-! ## Vocabulary of the statements -/

/-- The cell `(u, v)` of a mask with row length `W`, read at the unwrapped
index `v * W + u`; `false` outside the vector. -/
def bit (mask : Mask) (W u v : Nat) : Bool := mask.getD (v * W + u) false

/-- The cell `(u, v)` lies in the footprint `[x, x + w) x [y, y + h)` of `r`. -/
def Rect.covers (r : Rect) (u v : Nat) : Bool :=
  decide (r.x ≤ u ∧ u < r.x + r.w ∧ r.y ≤ v ∧ v < r.y + r.h)

/-- The number of rectangles of `rects` whose footprint contains `(u, v)`. -/
def coverCount (rects : List Rect) (u v : Nat) : Nat := rects.countP (fun r => r.covers u v)

/-- The sum of `width * height` over `rects`. -/
def area (rects : List Rect) : Nat := (rects.map (fun r => r.w * r.h)).sum

/-- The value `1` for `true` and `0` for `false`. -/
def b2n (b : Bool) : Nat := if b then 1 else 0

/-- What a piece of the merge scan guarantees when it turns the mask `m` into
`m'` while emitting `rects`: the mask keeps its size, every cell of the grid
is either still set in `m'` or covered by exactly one emitted rectangle when
it was set in `m` (and neither when it was not), the rectangles are non-empty
and lie inside the grid, and the emitted area is the number of cells cleared. -/
structure ScanPost (W H : Nat) (m : Mask) (rects : List Rect) (m' : Mask) : Prop where
  len : m'.length = m.length
  cover : ∀ u v, u < W → v < H →
    coverCount rects u v + b2n (bit m' W u v) = b2n (bit m W u v)
  inside : ∀ r ∈ rects, r.x + r.w ≤ W ∧ r.y + r.h ≤ H ∧ 1 ≤ r.w ∧ 1 ≤ r.h
  count : area rects + m'.count true = m.count true

/-- Row-major order of anchors: `r1` is anchored before `r2`. -/
def Rect.before (r1 r2 : Rect) : Prop := r1.y < r2.y ∨ (r1.y = r2.y ∧ r1.x < r2.x)

/-- An emitted face: the rectangle `rect` found on slice `slice` of the sweep
along `norm`. -/
structure Face where
  norm : Nat
  slice : Nat
  rect : Rect

/-- The quad pushed for a face. -/
def Face.quad (t : Face) : quad_t := mkQuad t.norm t.slice t.rect

/-- Emission order of faces: axis, then slice, then row-major anchor. -/
def Face.before (t1 t2 : Face) : Prop :=
  t1.norm < t2.norm ∨ (t1.norm = t2.norm ∧
    (t1.slice < t2.slice ∨ (t1.slice = t2.slice ∧ t1.rect.before t2.rect)))

/-- The face belongs to slice `s` of the sweep along `norm` and its rectangle
contains the cell `(u, v)`. -/
def Face.covers (t : Face) (norm s u v : Nat) : Bool :=
  decide (t.norm = norm ∧ t.slice = s) && t.rect.covers u v

/-- The rectangle is non-empty and lies inside the mask of the sweep along
`norm`. -/
def Rect.inside (dims : UVec3) (norm : Nat) (r : Rect) : Prop :=
  r.x + r.w ≤ dims.get (tanAxis norm) ∧ r.y + r.h ≤ dims.get (biTanAxis norm) ∧
    1 ≤ r.w ∧ 1 ≤ r.h

/-- Every mask size `dims[tan] * dims[biTan]` is below `2 ^ 32`, so that the
32-bit product of line 41 and the 32-bit index of `to_index` do not wrap. -/
def MaskFits (dims : UVec3) : Prop :=
  dims.y * dims.z < 2 ^ 32 ∧ dims.z * dims.x < 2 ^ 32 ∧ dims.x * dims.y < 2 ^ 32

/-- Every dimension is below `2 ^ 31`, so that every lattice coordinate up to
the cap fits a signed 32-bit `int`. -/
def CoordsFit (dims : UVec3) : Prop :=
  dims.x < 2 ^ 31 ∧ dims.y < 2 ^ 31 ∧ dims.z < 2 ^ 31

/-- The lattice point with coordinate `s` along the axis `norm`, `u` along
its tangent axis and `v` along its bitangent axis. -/
def site (norm : Nat) (s u v : Int) : IVec3 :=
  match norm with
  | 0 => ⟨s, u, v⟩
  | 1 => ⟨v, s, u⟩
  | _ => ⟨u, v, s⟩

/-- The four corners of `q` have coordinate `s` along `norm`, and the
footprint of `q` in the (tangent, bitangent) plane, spanned by the opposite
corners `a` and `c`, contains the cell `(u, v)`. -/
def quadCovers (norm : Nat) (s u v : Int) (q : quad_t) : Bool :=
  decide (q.a.get norm = s ∧ q.b.get norm = s ∧ q.c.get norm = s ∧ q.d.get norm = s ∧
    q.a.get (tanAxis norm) ≤ u ∧ u < q.c.get (tanAxis norm) ∧
    q.a.get (biTanAxis norm) ≤ v ∧ v < q.c.get (biTanAxis norm))

/-- End-to-end face coverage: `greedy_remesher` returns a list in which, for
every axis, slice `0 ≤ s ≤ dims[norm]` and in-plane cell `(u, v)`, the number
of quads lying on that slice and covering that cell is `1` when the oracle
differs between the cell and its predecessor along the axis, and `0` when it
agrees. -/
def FaceCoverage (dims : UVec3) (map_fn : IVec3 → Bool) : Prop :=
  ∃ quads, greedy_remesher dims map_fn = some quads ∧
    ∀ norm s u v : Nat, norm < 3 → s ≤ dims.get norm →
      u < dims.get (tanAxis norm) → v < dims.get (biTanAxis norm) →
      quads.countP (quadCovers norm s u v) =
        if map_fn (site norm s u v) = map_fn (site norm ((s : Int) - 1) u v) then 0 else 1

/-- The coordinate `p` lies outside `[0, dims)` on some axis. -/
def OutsideVolume (dims : UVec3) (p : IVec3) : Prop :=
  p.x < 0 ∨ (dims.x : Int) ≤ p.x ∨ p.y < 0 ∨ (dims.y : Int) ≤ p.y ∨
    p.z < 0 ∨ (dims.z : Int) ≤ p.z

/-- The oracle that is `true` exactly at the 32-bit coordinate
`(INT_MIN, 0, 0)`, written for every integer triple through `toI32`. -/
def atIntMin (p : IVec3) : Bool :=
  decide (toI32 p.x = -2 ^ 31 ∧ toI32 p.y = 0 ∧ toI32 p.z = 0)

/-- The normal axis of a quad: the axis along which its four corners have
the same coordinate (the first such axis). -/
def quadAxis (q : quad_t) : Nat :=
  if q.a.x = q.b.x ∧ q.b.x = q.c.x ∧ q.c.x = q.d.x then 0
  else if q.a.y = q.b.y ∧ q.b.y = q.c.y ∧ q.c.y = q.d.y then 1
  else 2

/-- Lexicographic order of the keys (normal axis, slice, bitangent coordinate
of the base corner, tangent coordinate of the base corner) of two quads. -/
def quadKeyLt (q1 q2 : quad_t) : Prop :=
  quadAxis q1 < quadAxis q2 ∨ (quadAxis q1 = quadAxis q2 ∧
    (q1.a.get (quadAxis q1) < q2.a.get (quadAxis q1) ∨
      (q1.a.get (quadAxis q1) = q2.a.get (quadAxis q1) ∧
        (q1.a.get (biTanAxis (quadAxis q1)) < q2.a.get (biTanAxis (quadAxis q1)) ∨
          (q1.a.get (biTanAxis (quadAxis q1)) = q2.a.get (biTanAxis (quadAxis q1)) ∧
            q1.a.get (tanAxis (quadAxis q1)) < q2.a.get (tanAxis (quadAxis q1)))))))

/-- Output order: `greedy_remesher` returns a list along which the key of
`quadKeyLt` is strictly increasing (every earlier quad is below every later
one), the slice of every quad lies in `0 .. dims[norm]`, and no two quads of
the list have the same axis and the same base corner `a` (hence slice). -/
def OutputOrdered (dims : UVec3) (map_fn : IVec3 → Bool) : Prop :=
  ∃ quads, greedy_remesher dims map_fn = some quads ∧ quads.Pairwise quadKeyLt ∧
    (∀ q ∈ quads, 0 ≤ q.a.get (quadAxis q) ∧ q.a.get (quadAxis q) ≤ dims.get (quadAxis q)) ∧
    quads.Pairwise (fun q1 q2 => ¬ (quadAxis q1 = quadAxis q2 ∧ q1.a = q2.a))

/-- The greedy rule applied once to the grid `g` of `W x H` cells: `(r.x, r.y)`
is the row-major first `true` cell, `r.w` is the length of the maximal run of
`true` cells of row `r.y` starting at `r.x`, and `r.h` is the largest height
for which every cell of the columns `[r.x, r.x + r.w)` in the rows
`r.y .. r.y + r.h - 1` is `true`. -/
structure GreedyStep (W H : Nat) (g : Nat → Nat → Bool) (r : Rect) : Prop where
  first : ∀ u v, u < W → v < H → (v < r.y ∨ (v = r.y ∧ u < r.x)) → g u v = false
  wpos : 1 ≤ r.w
  hpos : 1 ≤ r.h
  inW : r.x + r.w ≤ W
  inH : r.y + r.h ≤ H
  full : ∀ l k, l < r.h → k < r.w → g (r.x + k) (r.y + l) = true
  wstop : r.x + r.w < W → g (r.x + r.w) r.y = false
  hstop : r.y + r.h < H → ∃ k, k < r.w ∧ g (r.x + k) (r.y + r.h) = false

/-- The grid `g` with the cells of `r` set to `false`. -/
def clearGrid (g : Nat → Nat → Bool) (r : Rect) : Nat → Nat → Bool :=
  fun u v => g u v && !(r.covers u v)

/-- The list `rects` is what the greedy rule produces from the grid `g`:
while some cell is `true`, apply the rule once, emit the rectangle and clear
its cells. -/
inductive GreedyRun (W H : Nat) : (Nat → Nat → Bool) → List Rect → Prop where
  | done (g : Nat → Nat → Bool) :
      (∀ u v, u < W → v < H → g u v = false) → GreedyRun W H g []
  | step (g : Nat → Nat → Bool) (r : Rect) (rest : List Rect) :
      GreedyStep W H g r → GreedyRun W H (clearGrid g r) rest → GreedyRun W H g (r :: rest)

/-- The footprint of `big` contains the footprint of `r`. -/
def Rect.contains (big r : Rect) : Prop :=
  big.x ≤ r.x ∧ r.x + r.w ≤ big.x + big.w ∧ big.y ≤ r.y ∧ r.y + r.h ≤ big.y + big.h

/-- The union of the footprints of `r1` and `r2` is a rectangle: they have the
same `y` and height and are horizontally adjacent, or the same `x` and width
and are vertically adjacent. -/
def Rect.mergeable (r1 r2 : Rect) : Prop :=
  (r1.y = r2.y ∧ r1.h = r2.h ∧ (r1.x + r1.w = r2.x ∨ r2.x + r2.w = r1.x)) ∨
    (r1.x = r2.x ∧ r1.w = r2.w ∧ (r1.y + r1.h = r2.y ∨ r2.y + r2.h = r1.y))

/-- Corner construction: every quad of the output is the quad of an emitted
face (axis `norm`, slice, rectangle with anchor `(x, y)`, width `w ≥ 1` and
height `h ≥ 1`) and its corners are `a`, `a + w e_tan`,
`a + w e_tan + h e_biTan` and `a + h e_biTan`, where `a` has `norm`-coordinate
equal to the slice and in-plane coordinates `(x, y)`; so the four corners share
the `norm`-coordinate. -/
def CornerConstruction (dims : UVec3) (map_fn : IVec3 → Bool) : Prop :=
  ∀ quads, greedy_remesher dims map_fn = some quads →
    ∃ faces : List Face, quads = faces.map Face.quad ∧
      ∀ t ∈ faces, t.norm < 3 ∧ 1 ≤ t.rect.w ∧ 1 ≤ t.rect.h ∧
        t.quad.a = site t.norm t.slice t.rect.x t.rect.y ∧
        t.quad.b = site t.norm t.slice ((t.rect.x : Int) + t.rect.w) t.rect.y ∧
        t.quad.c = site t.norm t.slice ((t.rect.x : Int) + t.rect.w)
          ((t.rect.y : Int) + t.rect.h) ∧
        t.quad.d = site t.norm t.slice t.rect.x ((t.rect.y : Int) + t.rect.h) ∧
        t.quad.a.get t.norm = t.slice ∧ t.quad.b.get t.norm = t.slice ∧
        t.quad.c.get t.norm = t.slice ∧ t.quad.d.get t.norm = t.slice

/-- The point `p` lies in the bounding box `[0, dims]` of the volume. -/
def InBox (dims : UVec3) (p : IVec3) : Prop :=
  0 ≤ p.x ∧ p.x ≤ dims.x ∧ 0 ≤ p.y ∧ p.y ≤ dims.y ∧ 0 ≤ p.z ∧ p.z ≤ dims.z

/-- Every returned list is the list of quads of emitted faces whose rectangles
satisfy `x + w ≤ dims[tan]`, `y + h ≤ dims[biTan]` and `slice ≤ dims[norm]`, and
every corner of every quad of the list lies in the bounding box. -/
def StaysInBox (dims : UVec3) (map_fn : IVec3 → Bool) : Prop :=
  ∀ quads, greedy_remesher dims map_fn = some quads →
    (∃ faces : List Face, quads = faces.map Face.quad ∧
      ∀ t ∈ faces, t.norm < 3 ∧ t.rect.x + t.rect.w ≤ dims.get (tanAxis t.norm) ∧
        t.rect.y + t.rect.h ≤ dims.get (biTanAxis t.norm) ∧ t.slice ≤ dims.get t.norm) ∧
    ∀ q ∈ quads, InBox dims q.a ∧ InBox dims q.b ∧ InBox dims q.c ∧ InBox dims q.d

/-- The oracle of the fully solid box: `true` exactly on the cells of
`[0, dims)`. -/
def solidBox (dims : UVec3) (p : IVec3) : Bool :=
  decide (0 ≤ p.x ∧ p.x < dims.x ∧ 0 ≤ p.y ∧ p.y < dims.y ∧ 0 ≤ p.z ∧ p.z < dims.z)

/-- The quad of the whole face of the volume at slice `s` of the sweep along
`norm`: anchored at in-plane `(0, 0)`, with width `dims[tan]` and height
`dims[biTan]`. -/
def wholeFace (dims : UVec3) (norm s : Nat) : quad_t :=
  ⟨site norm s 0 0, site norm s (dims.get (tanAxis norm)) 0,
    site norm s (dims.get (tanAxis norm)) (dims.get (biTanAxis norm)),
    site norm s 0 (dims.get (biTanAxis norm))⟩

/-- The six faces of the box `[0, dims]`: for each axis the whole face at slice
`0` and the whole face at slice `dims[norm]`. -/
def solidBoxQuads (dims : UVec3) : List quad_t :=
  [wholeFace dims 0 0, wholeFace dims 0 dims.x, wholeFace dims 1 0, wholeFace dims 1 dims.y,
    wholeFace dims 2 0, wholeFace dims 2 dims.z]

/-- The coordinates the sweeps are meant to sample: some axis `n` has
`-1 ≤ c[n] ≤ dims[n]` while the other two components lie in `[0, dims)`. -/
def SampleRegion (dims : UVec3) (c : IVec3) : Prop :=
  ∃ n, n < 3 ∧ -1 ≤ c.get n ∧ c.get n ≤ dims.get n ∧
    0 ≤ c.get (tanAxis n) ∧ c.get (tanAxis n) < dims.get (tanAxis n) ∧
    0 ≤ c.get (biTanAxis n) ∧ c.get (biTanAxis n) < dims.get (biTanAxis n)

/-! ## The reference procedure of the greedy rule

Written from the words of the rule, on the cells `bit mask W u v` of a mask:
while some cell is `true`, take the row-major first `true` cell `(x, y)`, let
`w` be the length of the maximal run of `true` cells in row `y` starting at
`x`, let `h` be the largest value such that every cell of the columns
`[x, x + w)` in the rows `y .. y + h - 1` is `true`, emit `(x, y, w, h)` and
set those cells to `false`. -/

/-- The flat index of the row-major first `true` cell, if any. -/
def firstTrue : Mask → Option Nat
  | [] => none
  | true :: _ => some 0
  | false :: rest => (firstTrue rest).map (fun i => i + 1)

/-- The length of the maximal run of `true` cells in row `y` starting at
column `x`. -/
def refWidth (mask : Mask) (W x y : Nat) : Nat :=
  ((List.range (W - x)).takeWhile (fun k => bit mask W (x + k) y)).length

/-- The largest `h` such that every cell of the columns `[x, x + w)` in the
rows `y .. y + h - 1` is `true`. -/
def refHeight (mask : Mask) (W H x y w : Nat) : Nat :=
  ((List.range (H - y)).takeWhile
    (fun l => (List.range w).all (fun k => bit mask W (x + k) (y + l)))).length

/-- The mask with the cells of `r` set to `false`. -/
def refClear (mask : Mask) (W : Nat) (r : Rect) : Mask :=
  (List.range mask.length).map (fun i => mask.getD i false && !(r.covers (i % W) (i / W)))

/-- The reference procedure, run for at most `fuel` rectangles; `none` when
a `true` cell is left after `fuel` rectangles. -/
def referenceMerge (W H : Nat) : Nat → Mask → Option (List Rect)
  | 0, mask => if firstTrue mask = none then some [] else none
  | fuel + 1, mask =>
    match firstTrue mask with
    | none => some []
    | some i =>
      let x := i % W
      let y := i / W
      let w := refWidth mask W x y
      let h := refHeight mask W H x y w
      match referenceMerge W H fuel (refClear mask W ⟨x, y, w, h⟩) with
      | none => none
      | some rest => some (⟨x, y, w, h⟩ :: rest)

/-! ## Loops over `List.range` -/

theorem foldlM_range_inv {α : Type} (f : α → Nat → Option α) (P : Nat → α → Prop) (n : Nat)
    (a0 : α) (h0 : P 0 a0)
    (hstep : ∀ i a, i < n → P i a → ∃ a', f a i = some a' ∧ P (i + 1) a') :
    ∃ a', (List.range n).foldlM f a0 = some a' ∧ P n a' := by
  induction n with
  | zero => exact ⟨a0, by simp, h0⟩
  | succ n ih =>
    obtain ⟨a1, h1, hP1⟩ := ih (fun i a hi hP => hstep i a (Nat.lt_succ_of_lt hi) hP)
    obtain ⟨a2, h2, hP2⟩ := hstep n a1 (Nat.lt_succ_self n) hP1
    refine ⟨a2, ?_, hP2⟩
    rw [List.range_succ, List.foldlM_append, h1]
    simp [h2]

/-! ## Mask indexing -/

theorem idx_lt {W H u v : Nat} (hu : u < W) (hv : v < H) : v * W + u < W * H := by
  calc v * W + u < v * W + W := by omega
    _ = (v + 1) * W := by ring
    _ ≤ H * W := Nat.mul_le_mul_right W hv
    _ = W * H := Nat.mul_comm _ _

theorem to_index_eq {W H u v : Nat} (h32 : W * H < 2 ^ 32) (hu : u < W) (hv : v < H) :
    to_index u v W = v * W + u :=
  Nat.mod_eq_of_lt (lt_trans (idx_lt hu hv) h32)

theorem idx_inj {W u v u' v' : Nat} (hu : u < W) (hu' : u' < W)
    (h : v * W + u = v' * W + u') : u = u' ∧ v = v' := by
  have hW : 0 < W := by omega
  have h1 : (v * W + u) % W = u := by
    rw [Nat.add_comm, Nat.add_mul_mod_self_right, Nat.mod_eq_of_lt hu]
  have h2 : (v' * W + u') % W = u' := by
    rw [Nat.add_comm, Nat.add_mul_mod_self_right, Nat.mod_eq_of_lt hu']
  have h3 : (v * W + u) / W = v := by
    rw [Nat.add_comm, Nat.add_mul_div_right _ _ hW, Nat.div_eq_of_lt hu, Nat.zero_add]
  have h4 : (v' * W + u') / W = v' := by
    rw [Nat.add_comm, Nat.add_mul_div_right _ _ hW, Nat.div_eq_of_lt hu', Nat.zero_add]
  constructor
  · rw [← h1, h, h2]
  · rw [← h3, h, h4]

theorem maskGet_bit {W H : Nat} {m : Mask} (hlen : m.length = W * H) (h32 : W * H < 2 ^ 32)
    {u v : Nat} (hu : u < W) (hv : v < H) :
    maskGet m (to_index u v W) = some (bit m W u v) := by
  have hi : v * W + u < m.length := hlen ▸ idx_lt hu hv
  rw [to_index_eq h32 hu hv]
  simp [maskGet, bit, List.getD_eq_getElem?_getD, List.getElem?_eq_getElem hi]

theorem count_set_false (m : List Bool) (i : Nat) (h : m[i]? = some true) :
    (m.set i false).count true + 1 = m.count true := by
  induction m generalizing i with
  | nil => simp at h
  | cons a t ih =>
    cases i with
    | zero =>
      simp at h
      subst h
      simp
    | succ j =>
      simp at h
      have := ih j h
      simp only [List.set_cons_succ, List.count_cons]
      omega

theorem maskSet_spec {W H : Nat} {m : Mask} (hlen : m.length = W * H) (h32 : W * H < 2 ^ 32)
    {u v : Nat} (hu : u < W) (hv : v < H) (b : Bool) :
    ∃ m', maskSet m (to_index u v W) b = some m' ∧ m'.length = m.length ∧
      (∀ u' v', u' < W → v' < H →
        bit m' W u' v' = if u' = u ∧ v' = v then b else bit m W u' v') := by
  have hi : v * W + u < m.length := hlen ▸ idx_lt hu hv
  refine ⟨m.set (v * W + u) b, ?_, by simp, ?_⟩
  · rw [to_index_eq h32 hu hv]
    simp [maskSet, hi]
  · intro u' v' hu' _
    simp only [bit, List.getD_eq_getElem?_getD, List.getElem?_set]
    by_cases hc : u' = u ∧ v' = v
    · obtain ⟨rfl, rfl⟩ := hc
      simp [hi]
    · have hne : v * W + u ≠ v' * W + u' := by
        intro he
        obtain ⟨h1, h2⟩ := idx_inj hu hu' he
        exact hc ⟨h1.symm, h2.symm⟩
      simp [hne, hc]

theorem maskSet_false_count {W H : Nat} {m m' : Mask} (hlen : m.length = W * H)
    (h32 : W * H < 2 ^ 32) {u v : Nat} (hu : u < W) (hv : v < H)
    (hset : maskSet m (to_index u v W) false = some m') (hb : bit m W u v = true) :
    m'.count true + 1 = m.count true := by
  have hi : v * W + u < m.length := hlen ▸ idx_lt hu hv
  rw [to_index_eq h32 hu hv] at hset
  simp only [maskSet, hi, if_true, Option.some.injEq] at hset
  subst hset
  apply count_set_false
  simp only [bit, List.getD_eq_getElem?_getD, List.getElem?_eq_getElem hi,
    Option.getD_some] at hb
  rw [List.getElem?_eq_getElem hi, hb]

/-! ## Width and height growth -/

theorem growWidth_spec {W H : Nat} {m : Mask} (hlen : m.length = W * H) (h32 : W * H < 2 ^ 32)
    {x y : Nat} (hy : y < H) (fuel : Nat) :
    ∀ width, W - (x + width) < fuel → x + width ≤ W →
      (∀ k, k < width → bit m W (x + k) y = true) →
      ∃ w, growWidth m W x y fuel width = some w ∧ width ≤ w ∧ x + w ≤ W ∧
        (∀ k, k < w → bit m W (x + k) y = true) ∧
        (x + w < W → bit m W (x + w) y = false) := by
  induction fuel with
  | zero => intro width hf; omega
  | succ fuel ih =>
    intro width hf hle hall
    unfold growWidth
    by_cases hlt : x + width < W
    · rw [if_pos hlt, maskGet_bit hlen h32 hlt hy]
      cases hb : bit m W (x + width) y with
      | false => exact ⟨width, rfl, le_refl _, hle, hall, fun _ => hb⟩
      | true =>
        have hall' : ∀ k, k < width + 1 → bit m W (x + k) y = true := by
          intro k hk
          by_cases hk' : k < width
          · exact hall k hk'
          · have : k = width := by omega
            subst this
            exact hb
        obtain ⟨w, hw, h1, h2, h3, h4⟩ := ih (width + 1) (by omega) (by omega) hall'
        exact ⟨w, hw, by omega, h2, h3, h4⟩
    · rw [if_neg hlt]
      exact ⟨width, rfl, le_refl _, hle, hall, fun h => absurd h hlt⟩

theorem rowSet_spec {W H : Nat} {m : Mask} (hlen : m.length = W * H) (h32 : W * H < 2 ^ 32)
    {row : Nat} (hrow : row < H) (n : Nat) :
    ∀ k, k + n ≤ W →
      ∃ b, rowSet m W row n k = some b ∧
        (b = true ↔ ∀ j, j < n → bit m W (k + j) row = true) := by
  induction n with
  | zero => intro k _; exact ⟨true, rfl, by simp⟩
  | succ n ih =>
    intro k hk
    unfold rowSet
    rw [maskGet_bit hlen h32 (by omega : k < W) hrow]
    cases hb : bit m W k row with
    | false =>
      refine ⟨false, rfl, ?_⟩
      constructor
      · intro h; cases h
      · intro h
        have := h 0 (by omega)
        simp only [Nat.add_zero] at this
        rw [hb] at this
        cases this
    | true =>
      obtain ⟨b, hb1, hb2⟩ := ih (k + 1) (by omega)
      refine ⟨b, hb1, ?_⟩
      rw [hb2]
      constructor
      · intro h j hj
        cases j with
        | zero => simpa using hb
        | succ j =>
          have := h j (by omega)
          rwa [show k + (j + 1) = k + 1 + j by omega]
      · intro h j hj
        have := h (j + 1) (by omega)
        rwa [show k + (j + 1) = k + 1 + j by omega] at this

theorem growHeight_spec {W H : Nat} {m : Mask} (hlen : m.length = W * H)
    (h32 : W * H < 2 ^ 32) {x y width : Nat} (hxw : x + width ≤ W) (fuel : Nat) :
    ∀ height, H - (y + height) < fuel → y + height ≤ H →
      (∀ l k, l < height → k < width → bit m W (x + k) (y + l) = true) →
      ∃ h, growHeight m W H x y width fuel height = some h ∧ height ≤ h ∧ y + h ≤ H ∧
        (∀ l k, l < h → k < width → bit m W (x + k) (y + l) = true) ∧
        (y + h < H → ∃ k, k < width ∧ bit m W (x + k) (y + h) = false) := by
  induction fuel with
  | zero => intro height hf; omega
  | succ fuel ih =>
    intro height hf hle hall
    unfold growHeight
    by_cases hlt : y + height < H
    · rw [if_pos hlt]
      obtain ⟨b, hb1, hb2⟩ := rowSet_spec hlen h32 hlt width x hxw
      rw [hb1]
      cases b with
      | false =>
        refine ⟨height, rfl, le_refl _, hle, hall, fun _ => ?_⟩
        by_contra hcon
        have : ∀ j, j < width → bit m W (x + j) (y + height) = true := by
          intro j hj
          by_contra hj'
          exact hcon ⟨j, hj, by simpa using hj'⟩
        have := hb2.mpr this
        cases this
      | true =>
        have hrow := hb2.mp rfl
        have hall' : ∀ l k, l < height + 1 → k < width →
            bit m W (x + k) (y + l) = true := by
          intro l k hl hk
          by_cases hl' : l < height
          · exact hall l k hl' hk
          · have : l = height := by omega
            subst this
            exact hrow k hk
        obtain ⟨h, hh, h1, h2, h3, h4⟩ := ih (height + 1) (by omega) (by omega) hall'
        exact ⟨h, hh, by omega, h2, h3, h4⟩
    · rw [if_neg hlt]
      exact ⟨height, rfl, le_refl _, hle, hall, fun h => absurd h hlt⟩

/-! ## Clearing a rectangle -/

theorem clearRow_spec {W H : Nat} {m : Mask} (hlen : m.length = W * H) (h32 : W * H < 2 ^ 32)
    {x row w : Nat} (hxw : x + w ≤ W) (hrow : row < H) :
    ∃ m', (List.range w).foldlM (fun m k => maskSet m (to_index (x + k) row W) false) m
        = some m' ∧ m'.length = m.length ∧
      (∀ u v, u < W → v < H →
        bit m' W u v = if v = row ∧ x ≤ u ∧ u < x + w then false else bit m W u v) ∧
      ((∀ j, j < w → bit m W (x + j) row = true) → m'.count true + w = m.count true) := by
  apply foldlM_range_inv (fun m k => maskSet m (to_index (x + k) row W) false)
    (fun k m' => m'.length = m.length ∧
      (∀ u v, u < W → v < H →
        bit m' W u v = if v = row ∧ x ≤ u ∧ u < x + k then false else bit m W u v) ∧
      ((∀ j, j < w → bit m W (x + j) row = true) → m'.count true + k = m.count true))
  · refine ⟨rfl, ?_, fun _ => rfl⟩
    intro u v _ _
    rw [if_neg (by omega)]
  · rintro k a hk ⟨hl, hbits, hcnt⟩
    have hl' : a.length = W * H := hl.trans hlen
    obtain ⟨m2, h1, h2, h3⟩ := maskSet_spec hl' h32 (by omega : x + k < W) hrow false
    refine ⟨m2, h1, h2.trans hl, ?_, ?_⟩
    · intro u v hu hv
      rw [h3 u v hu hv, hbits u v hu hv]
      by_cases hc : u = x + k ∧ v = row
      · obtain ⟨rfl, rfl⟩ := hc
        rw [if_pos ⟨rfl, rfl⟩, if_pos ⟨rfl, by omega, by omega⟩]
      · rw [if_neg hc]
        by_cases hd : v = row ∧ x ≤ u ∧ u < x + k
        · rw [if_pos hd, if_pos ⟨hd.1, hd.2.1, by omega⟩]
        · rw [if_neg hd, if_neg]
          rintro ⟨h4, h5, h6⟩
          by_cases h7 : u = x + k
          · exact hc ⟨h7, h4⟩
          · exact hd ⟨h4, h5, by omega⟩
    · intro hall
      have hb : bit a W (x + k) row = true := by
        rw [hbits _ _ (by omega) hrow, if_neg (by omega)]
        exact hall k hk
      have := maskSet_false_count hl' h32 (by omega : x + k < W) hrow h1 hb
      have := hcnt hall
      omega

theorem clearRect_spec {W H : Nat} {m : Mask} (hlen : m.length = W * H) (h32 : W * H < 2 ^ 32)
    {x y w h : Nat} (hxw : x + w ≤ W) (hyh : y + h ≤ H) :
    ∃ m', clearRect m W x y w h = some m' ∧ m'.length = m.length ∧
      (∀ u v, u < W → v < H →
        bit m' W u v = (bit m W u v && !(Rect.covers ⟨x, y, w, h⟩ u v))) ∧
      ((∀ l k, l < h → k < w → bit m W (x + k) (y + l) = true) →
        m'.count true + w * h = m.count true) := by
  have key := foldlM_range_inv
    (fun m l => (List.range w).foldlM
      (fun m k => maskSet m (to_index (x + k) (y + l) W) false) m)
    (fun l m' => m'.length = m.length ∧
      (∀ u v, u < W → v < H →
        bit m' W u v = if x ≤ u ∧ u < x + w ∧ y ≤ v ∧ v < y + l then false else bit m W u v) ∧
      ((∀ l k, l < h → k < w → bit m W (x + k) (y + l) = true) →
        m'.count true + w * l = m.count true)) h m
    (by
      refine ⟨rfl, ?_, fun _ => by simp⟩
      intro u v _ _
      rw [if_neg (by omega)])
    (by
      rintro l a hl ⟨hla, hbits, hcnt⟩
      have hl' : a.length = W * H := hla.trans hlen
      obtain ⟨m2, h1, h2, h3, h4⟩ := clearRow_spec hl' h32 hxw (by omega : y + l < H)
      refine ⟨m2, h1, h2.trans hla, ?_, ?_⟩
      · intro u v hu hv
        rw [h3 u v hu hv, hbits u v hu hv]
        by_cases hc : v = y + l ∧ x ≤ u ∧ u < x + w
        · rw [if_pos hc, if_pos ⟨hc.2.1, hc.2.2, by omega, by omega⟩]
        · rw [if_neg hc]
          by_cases hd : x ≤ u ∧ u < x + w ∧ y ≤ v ∧ v < y + l
          · rw [if_pos hd, if_pos ⟨hd.1, hd.2.1, hd.2.2.1, by omega⟩]
          · rw [if_neg hd, if_neg]
            rintro ⟨h5, h6, h7, h8⟩
            by_cases h9 : v = y + l
            · exact hc ⟨h9, h5, h6⟩
            · exact hd ⟨h5, h6, h7, by omega⟩
      · intro hall
        have hrow : ∀ j, j < w → bit a W (x + j) (y + l) = true := by
          intro j hj
          rw [hbits _ _ (by omega) (by omega), if_neg (by omega)]
          exact hall l j hl hj
        have e1 := h4 hrow
        have e2 := hcnt hall
        rw [Nat.mul_succ]
        omega)
  obtain ⟨m', h1, h2, h3, h4⟩ := key
  refine ⟨m', h1, h2, ?_, h4⟩
  intro u v hu hv
  rw [h3 u v hu hv]
  by_cases hc : x ≤ u ∧ u < x + w ∧ y ≤ v ∧ v < y + h
  · rw [if_pos hc]
    simp [Rect.covers, hc]
  · rw [if_neg hc]
    simp [Rect.covers, hc]

/-! ## The row scan -/

theorem scanPost_refl (W H : Nat) (m : Mask) : ScanPost W H m [] m :=
  ⟨rfl, fun _ _ _ _ => (by simp [coverCount]), fun _ h => (by cases h), by simp [area]⟩

theorem scanPost_trans {W H : Nat} {m m1 m2 : Mask} {rs1 rs2 : List Rect}
    (h1 : ScanPost W H m rs1 m1) (h2 : ScanPost W H m1 rs2 m2) :
    ScanPost W H m (rs1 ++ rs2) m2 := by
  refine ⟨h2.len.trans h1.len, ?_, ?_, ?_⟩
  · intro u v hu hv
    have e1 := h1.cover u v hu hv
    have e2 := h2.cover u v hu hv
    simp only [coverCount, List.countP_append] at *
    omega
  · intro r hr
    rcases List.mem_append.mp hr with h | h
    · exact h1.inside r h
    · exact h2.inside r h
  · have e1 := h1.count
    have e2 := h2.count
    simp only [area, List.map_append, List.sum_append] at *
    omega

theorem scanPost_mono {W H : Nat} {m m' : Mask} {rs : List Rect} (h : ScanPost W H m rs m')
    {u v : Nat} (hu : u < W) (hv : v < H) (hb : bit m W u v = false) :
    bit m' W u v = false := by
  have := h.cover u v hu hv
  rw [hb] at this
  cases hb' : bit m' W u v with
  | false => rfl
  | true => rw [hb'] at this; simp [b2n] at this

theorem scanPost_single {W H : Nat} {m m' : Mask} {x y w h : Nat}
    (hxw : x + w ≤ W) (hyh : y + h ≤ H) (hw : 1 ≤ w) (hh : 1 ≤ h)
    (hlen : m'.length = m.length)
    (hbits : ∀ u v, u < W → v < H →
      bit m' W u v = (bit m W u v && !(Rect.covers ⟨x, y, w, h⟩ u v)))
    (hall : ∀ l k, l < h → k < w → bit m W (x + k) (y + l) = true)
    (hcnt : m'.count true + w * h = m.count true) :
    ScanPost W H m [⟨x, y, w, h⟩] m' := by
  refine ⟨hlen, ?_, ?_, ?_⟩
  · intro u v hu hv
    rw [hbits u v hu hv]
    simp only [coverCount, List.countP_cons, List.countP_nil, Nat.zero_add]
    by_cases hc : Rect.covers ⟨x, y, w, h⟩ u v = true
    · have hc' := hc
      simp only [Rect.covers, decide_eq_true_eq] at hc'
      have := hall (v - y) (u - x) (by omega) (by omega)
      rw [show x + (u - x) = u by omega, show y + (v - y) = v by omega] at this
      simp [hc, this, b2n]
    · simp [hc, b2n]
  · intro r hr
    simp only [List.mem_singleton] at hr
    subst hr
    exact ⟨hxw, hyh, hw, hh⟩
  · simp only [area, List.map_cons, List.map_nil, List.sum_cons, List.sum_nil]
    omega

theorem scanRow_spec {W H y : Nat} (h32 : W * H < 2 ^ 32) (hy : y < H) (fuel : Nat) :
    ∀ x (m : Mask), W - x < fuel → m.length = W * H →
      ∃ rects m', scanRow W H y fuel x m = some (rects, m') ∧ ScanPost W H m rects m' ∧
        (∀ r ∈ rects, r.y = y ∧ x ≤ r.x) ∧
        rects.Pairwise (fun r1 r2 => r1.x < r2.x) ∧
        (∀ u, x ≤ u → u < W → bit m' W u y = false) := by
  induction fuel with
  | zero => intro x m hf; omega
  | succ fuel ih =>
    intro x m hf hlen
    unfold scanRow
    by_cases hx : x < W
    · rw [if_pos hx, maskGet_bit hlen h32 hx hy]
      cases hb : bit m W x y with
      | false =>
        obtain ⟨rects, m', h1, h2, h3, h4, h5⟩ := ih (x + 1) m (by omega) hlen
        refine ⟨rects, m', h1, h2, ?_, h4, ?_⟩
        · intro r hr
          have := h3 r hr
          exact ⟨this.1, by omega⟩
        · intro u hxu hu
          by_cases hc : u = x
          · subst hc
            exact scanPost_mono h2 hu hy hb
          · exact h5 u (by omega) hu
      | true =>
        obtain ⟨w, hw, hw1, hw2, hw3, _⟩ := growWidth_spec (x := x) hlen h32 hy W 1
          (by omega) (by omega) (by
            intro k hk
            have : k = 0 := by omega
            subst this
            simpa using hb)
        obtain ⟨h, hh, hh1, hh2, hh3, _⟩ := growHeight_spec (y := y) hlen h32 hw2 H 1
          (by omega) (by omega) (by
            intro l k hl hk
            have : l = 0 := by omega
            subst this
            simpa using hw3 k hk)
        obtain ⟨m1, hc, hc1, hc2, hc3⟩ := clearRect_spec (m := m) hlen h32 hw2 hh2
        obtain ⟨rects, m', h1, h2, h3, h4, h5⟩ :=
          ih (x + w) m1 (by omega) (hc1.trans hlen)
        have hs : ScanPost W H m [⟨x, y, w, h⟩] m1 :=
          scanPost_single hw2 hh2 hw1 hh1 hc1 hc2 hh3 (hc3 hh3)
        refine ⟨⟨x, y, w, h⟩ :: rects, m', ?_, scanPost_trans hs h2, ?_, ?_, ?_⟩
        · simp only [hw, hh, hc, h1]
        · intro r hr
          rcases List.mem_cons.mp hr with rfl | hr
          · exact ⟨rfl, le_refl _⟩
          · have := h3 r hr
            exact ⟨this.1, by omega⟩
        · refine List.pairwise_cons.mpr ⟨?_, h4⟩
          intro r hr
          have := h3 r hr
          show x < r.x
          omega
        · intro u hxu hu
          by_cases hc' : u < x + w
          · apply scanPost_mono h2 hu hy
            rw [hc2 u y hu hy]
            simp [Rect.covers]
            intro _
            omega
          · exact h5 u (by omega) hu
    · rw [if_neg hx]
      exact ⟨[], m, rfl, scanPost_refl W H m, fun _ h => (by cases h), List.Pairwise.nil,
        fun u h1 h2 => (by omega)⟩

/-! ## The merge scan of one mask -/

theorem mergeMask_spec {W H : Nat} {m : Mask} (hlen : m.length = W * H)
    (h32 : W * H < 2 ^ 32) :
    ∃ rects m', mergeMask W H m = some (rects, m') ∧ ScanPost W H m rects m' ∧
      rects.Pairwise Rect.before ∧
      (∀ u v, u < W → v < H → bit m' W u v = false) := by
  have key := foldlM_range_inv
    (fun (acc : List Rect × Mask) y =>
      match scanRow W H y (W + 1) 0 acc.2 with
      | none => none
      | some (rs, m) => some (acc.1 ++ rs, m))
    (fun y acc => ScanPost W H m acc.1 acc.2 ∧ (∀ r ∈ acc.1, r.y < y) ∧
      acc.1.Pairwise Rect.before ∧ (∀ u v, u < W → v < y → bit acc.2 W u v = false))
    H ([], m)
    ⟨scanPost_refl W H m, fun _ h => (by cases h), List.Pairwise.nil,
      fun _ _ _ h => (by omega)⟩
    (by
      rintro y ⟨acc, m1⟩ hy ⟨hp, hys, hord, hclr⟩
      obtain ⟨rs, m2, h1, h2, h3, h4, h5⟩ :=
        scanRow_spec h32 hy (W + 1) 0 m1 (by omega) (hp.len.trans hlen)
      refine ⟨(acc ++ rs, m2), ?_, scanPost_trans hp h2, ?_, ?_, ?_⟩
      · simp only [h1]
      · intro r hr
        rcases List.mem_append.mp hr with h | h
        · have := hys r h
          omega
        · have := (h3 r h).1
          omega
      · refine List.pairwise_append.mpr ⟨hord, ?_, ?_⟩
        · exact h4.imp_of_mem (fun {a b} ha hb hab =>
            Or.inr ⟨(h3 a ha).1.trans (h3 b hb).1.symm, hab⟩)
        · intro a ha b hb
          exact Or.inl (by have := hys a ha; have := (h3 b hb).1; omega)
      · intro u v hu hv
        by_cases hc : v = y
        · subst hc
          exact h5 u (Nat.zero_le _) hu
        · exact scanPost_mono h2 hu (by omega) (hclr u v hu (by omega)))
  obtain ⟨⟨rects, m'⟩, h1, h2, _, h4, h5⟩ := key
  exact ⟨rects, m', h1, h2, h4, h5⟩

theorem count_true_eq_zero {W H : Nat} {m : Mask} (hlen : m.length = W * H)
    (hall : ∀ u v, u < W → v < H → bit m W u v = false) : m.count true = 0 := by
  rw [List.count_eq_zero]
  intro hmem
  obtain ⟨i, hi, hget⟩ := List.mem_iff_getElem.mp hmem
  have hi' : i < W * H := hlen ▸ hi
  have hW : 0 < W := by
    rcases Nat.eq_zero_or_pos W with h | h
    · subst h; simp at hi'
    · exact h
  have h1 : i % W < W := Nat.mod_lt _ hW
  have h2 : i / W < H := Nat.div_lt_of_lt_mul hi'
  have h3 := hall (i % W) (i / W) h1 h2
  have h4 : i / W * W + i % W = i := by
    rw [Nat.mul_comm]; exact Nat.div_add_mod i W
  simp only [bit, h4, List.getD_eq_getElem?_getD, List.getElem?_eq_getElem hi,
    Option.getD_some] at h3
  rw [h3] at hget
  cases hget

theorem mergeMask_cover {W H : Nat} {m : Mask} (hlen : m.length = W * H)
    (h32 : W * H < 2 ^ 32) :
    ∃ rects m', mergeMask W H m = some (rects, m') ∧ m'.length = m.length ∧
      (∀ u v, u < W → v < H → coverCount rects u v = b2n (bit m W u v)) ∧
      (∀ r ∈ rects, r.x + r.w ≤ W ∧ r.y + r.h ≤ H ∧ 1 ≤ r.w ∧ 1 ≤ r.h) ∧
      rects.Pairwise Rect.before ∧
      (∀ u v, u < W → v < H → bit m' W u v = false) ∧
      area rects = m.count true := by
  obtain ⟨rects, m', h1, h2, h3, h4⟩ := mergeMask_spec hlen h32
  refine ⟨rects, m', h1, h2.len, ?_, h2.inside, h3, h4, ?_⟩
  · intro u v hu hv
    have := h2.cover u v hu hv
    rw [h4 u v hu hv] at this
    simpa [b2n] using this
  · have := h2.count
    rw [count_true_eq_zero (h2.len.trans hlen) h4] at this
    simpa using this

theorem coverCount_pos_iff (rects : List Rect) (u v : Nat) :
    0 < coverCount rects u v ↔
      ∃ r ∈ rects, r.x ≤ u ∧ u < r.x + r.w ∧ r.y ≤ v ∧ v < r.y + r.h := by
  simp only [coverCount, List.countP_pos_iff, Rect.covers, decide_eq_true_eq]

theorem coverCount_outside {W H : Nat} {rects : List Rect}
    (hin : ∀ r ∈ rects, r.x + r.w ≤ W ∧ r.y + r.h ≤ H ∧ 1 ≤ r.w ∧ 1 ≤ r.h)
    {u v : Nat} (h : ¬ (u < W ∧ v < H)) : coverCount rects u v = 0 := by
  by_contra hne
  obtain ⟨r, hr, h1, h2, h3, h4⟩ := (coverCount_pos_iff rects u v).mp (Nat.pos_of_ne_zero hne)
  have := hin r hr
  omega

theorem pairwise_disjoint_of_coverCount_le_one (rects : List Rect)
    (h : ∀ u v, coverCount rects u v ≤ 1) :
    rects.Pairwise (fun r1 r2 => ∀ u v, ¬ (r1.covers u v = true ∧ r2.covers u v = true)) := by
  induction rects with
  | nil => exact List.Pairwise.nil
  | cons r rest ih =>
    refine List.pairwise_cons.mpr ⟨?_, ih ?_⟩
    · rintro r2 hr2 u v ⟨h1, h2⟩
      have := h u v
      have hpos : 0 < coverCount rest u v := by
        simp only [coverCount, List.countP_pos_iff]
        exact ⟨r2, hr2, h2⟩
      simp only [coverCount, List.countP_cons, h1, if_true] at this hpos
      omega
    · intro u v
      have := h u v
      simp only [coverCount, List.countP_cons] at this ⊢
      omega

/-! ## Claims about the merge scan of one mask -/

/-- C2 (mask coverage). For every mask of size `W x H`, with `W = dims[tan]`
and `H = dims[biTan]` (the mask is the vector of line 41, whose size is a
32-bit value, so `hsize` comes with `h32`), the merge scan returns its
rectangles, and a cell `(u, v)` lies in the footprint
`[x, x + w) x [y, y + h)` of at least one emitted rectangle if and only if it
is a cell of the grid that is `true` in the mask before merging: no `false`
cell is covered and no `true` cell is left uncovered. -/
theorem mergeMask_covers_exactly_true_cells (W H : Nat) (mask : Mask)
    (hsize : mask.length = W * H) (h32 : mask.length < 2 ^ 32) :
    ∃ rects left, mergeMask W H mask = some (rects, left) ∧
      ∀ u v, (∃ r ∈ rects, r.x ≤ u ∧ u < r.x + r.w ∧ r.y ≤ v ∧ v < r.y + r.h) ↔
        (u < W ∧ v < H ∧ maskGet mask (to_index u v W) = some true) := by
  have h32' : W * H < 2 ^ 32 := hsize ▸ h32
  obtain ⟨rects, left, h1, _, h3, h4, _⟩ := mergeMask_cover hsize h32'
  refine ⟨rects, left, h1, ?_⟩
  intro u v
  rw [← coverCount_pos_iff]
  by_cases hc : u < W ∧ v < H
  · rw [h3 u v hc.1 hc.2, maskGet_bit hsize h32' hc.1 hc.2]
    cases bit mask W u v <;> simp [b2n, hc]
  · rw [coverCount_outside h4 hc]
    constructor
    · intro h; omega
    · intro h; exact absurd ⟨h.1, h.2.1⟩ hc

/-- Witness of C2 on the 2 x 2 mask with rows `[1, 1]` and `[0, 1]`. -/
theorem mergeMask_covers_exactly_true_cells_witness :
    ∃ rects left, mergeMask 2 2 [true, true, false, true] = some (rects, left) ∧
      ∀ u v, (∃ r ∈ rects, r.x ≤ u ∧ u < r.x + r.w ∧ r.y ≤ v ∧ v < r.y + r.h) ↔
        (u < 2 ∧ v < 2 ∧ maskGet [true, true, false, true] (to_index u v 2) = some true) :=
  mergeMask_covers_exactly_true_cells 2 2 [true, true, false, true] (by decide) (by decide)

/-- C3 (no overlap). For every mask of size `W x H` (a vector with a 32-bit
size, as in C2), the footprints of any two distinct rectangles emitted from
it (taken at two positions of the emitted list) have no cell in common. -/
theorem mergeMask_rects_disjoint (W H : Nat) (mask : Mask)
    (hsize : mask.length = W * H) (h32 : mask.length < 2 ^ 32) :
    ∃ rects left, mergeMask W H mask = some (rects, left) ∧
      rects.Pairwise (fun r1 r2 => ∀ u v,
        ¬ ((r1.x ≤ u ∧ u < r1.x + r1.w ∧ r1.y ≤ v ∧ v < r1.y + r1.h) ∧
           (r2.x ≤ u ∧ u < r2.x + r2.w ∧ r2.y ≤ v ∧ v < r2.y + r2.h))) := by
  have h32' : W * H < 2 ^ 32 := hsize ▸ h32
  obtain ⟨rects, left, h1, _, h3, h4, _⟩ := mergeMask_cover hsize h32'
  refine ⟨rects, left, h1, ?_⟩
  have hle : ∀ u v, coverCount rects u v ≤ 1 := by
    intro u v
    by_cases hc : u < W ∧ v < H
    · rw [h3 u v hc.1 hc.2]
      cases bit mask W u v <;> simp [b2n]
    · rw [coverCount_outside h4 hc]
      omega
  refine (pairwise_disjoint_of_coverCount_le_one rects hle).imp ?_
  intro r1 r2 h u v
  have := h u v
  simpa only [Rect.covers, decide_eq_true_eq] using this

/-- Witness of C3 on the 2 x 2 mask with rows `[1, 1]` and `[0, 1]`. -/
theorem mergeMask_rects_disjoint_witness :
    ∃ rects left, mergeMask 2 2 [true, true, false, true] = some (rects, left) ∧
      rects.Pairwise (fun r1 r2 => ∀ u v,
        ¬ ((r1.x ≤ u ∧ u < r1.x + r1.w ∧ r1.y ≤ v ∧ v < r1.y + r1.h) ∧
           (r2.x ≤ u ∧ u < r2.x + r2.w ∧ r2.y ≤ v ∧ v < r2.y + r2.h))) :=
  mergeMask_rects_disjoint 2 2 [true, true, false, true] (by decide) (by decide)

/-- C4 (area conservation). For every mask of size `W x H` (a vector with a
32-bit size, as in C2), the sum of `width * height` over the rectangles
emitted by the merge scan equals the number of cells that are `true` in the
mask before merging. -/
theorem mergeMask_area_eq_true_count (W H : Nat) (mask : Mask)
    (hsize : mask.length = W * H) (h32 : mask.length < 2 ^ 32) :
    ∃ rects left, mergeMask W H mask = some (rects, left) ∧
      (rects.map (fun r => r.w * r.h)).sum = mask.count true := by
  have h32' : W * H < 2 ^ 32 := hsize ▸ h32
  obtain ⟨rects, left, h1, _, _, _, _, _, h7⟩ := mergeMask_cover hsize h32'
  exact ⟨rects, left, h1, h7⟩

/-- Witness of C4 on the 2 x 2 mask with rows `[1, 1]` and `[0, 1]`. -/
theorem mergeMask_area_eq_true_count_witness :
    ∃ rects left, mergeMask 2 2 [true, true, false, true] = some (rects, left) ∧
      (rects.map (fun r => r.w * r.h)).sum = [true, true, false, true].count true :=
  mergeMask_area_eq_true_count 2 2 [true, true, false, true] (by decide) (by decide)

/-! ## The mask fill -/

theorem cursorAt_get_tan {norm : Nat} (hn : norm < 3) (s u v : Nat) :
    (cursorAt norm s u v).get (tanAxis norm) = u % 2 ^ 32 := by
  obtain rfl | rfl | rfl : norm = 0 ∨ norm = 1 ∨ norm = 2 := by omega
  all_goals rfl

theorem cursorAt_get_biTan {norm : Nat} (hn : norm < 3) (s u v : Nat) :
    (cursorAt norm s u v).get (biTanAxis norm) = v % 2 ^ 32 := by
  obtain rfl | rfl | rfl : norm = 0 ∨ norm = 1 ∨ norm = 2 := by omega
  all_goals rfl

theorem lt_of_idx {W H u v : Nat} (h32 : W * H < 2 ^ 32) (hu : u < W) (hv : v < H) :
    u < 2 ^ 32 ∧ v < 2 ^ 32 := by
  constructor
  · have : W * 1 ≤ W * H := Nat.mul_le_mul_left W (by omega)
    omega
  · have : 1 * H ≤ W * H := Nat.mul_le_mul_right H (by omega)
    omega

theorem fillMask_spec (dims : UVec3) (f : IVec3 → Bool) {norm : Nat} (hn : norm < 3)
    (slice : Nat) {m : Mask}
    (hlen : m.length = dims.get (tanAxis norm) * dims.get (biTanAxis norm))
    (h32 : dims.get (tanAxis norm) * dims.get (biTanAxis norm) < 2 ^ 32) :
    ∃ m', fillMask dims f norm slice m = some m' ∧ m'.length = m.length ∧
      ∀ u v, u < dims.get (tanAxis norm) → v < dims.get (biTanAxis norm) →
        bit m' (dims.get (tanAxis norm)) u v = maskBit f norm slice u v := by
  generalize hW : dims.get (tanAxis norm) = W at hlen h32 ⊢
  generalize hH : dims.get (biTanAxis norm) = H at hlen h32 ⊢
  have key := foldlM_range_inv
    (fun m v => (List.range W).foldlM
      (fun m u =>
        let cursor := cursorAt norm slice u v
        let i := to_index (cursor.get (tanAxis norm)) (cursor.get (biTanAxis norm)) W
        maskSet m i (maskBit f norm slice u v))
      m)
    (fun v m' => m'.length = m.length ∧
      ∀ u' v', u' < W → v' < v → bit m' W u' v' = maskBit f norm slice u' v')
    H m ⟨rfl, fun _ _ _ h => (by omega)⟩
    (by
      rintro v a hv ⟨hla, hrows⟩
      have inner := foldlM_range_inv
        (fun m u =>
          let cursor := cursorAt norm slice u v
          let i := to_index (cursor.get (tanAxis norm)) (cursor.get (biTanAxis norm)) W
          maskSet m i (maskBit f norm slice u v))
        (fun u m' => m'.length = m.length ∧
          (∀ u' v', u' < W → v' < v → bit m' W u' v' = maskBit f norm slice u' v') ∧
          (∀ u', u' < u → bit m' W u' v = maskBit f norm slice u' v))
        W a ⟨hla, hrows, fun _ h => (by omega)⟩
        (by
          rintro u b hu ⟨hlb, hrows', hcols⟩
          have hb : b.length = W * H := hlb.trans hlen
          obtain ⟨m2, h1, h2, h3⟩ := maskSet_spec hb h32 hu hv (maskBit f norm slice u v)
          obtain ⟨hu32, hv32⟩ := lt_of_idx h32 hu hv
          refine ⟨m2, ?_, h2.trans hlb, ?_, ?_⟩
          · simp only [cursorAt_get_tan hn, cursorAt_get_biTan hn, Nat.mod_eq_of_lt hu32,
              Nat.mod_eq_of_lt hv32]
            exact h1
          · intro u' v' hu' hv'
            rw [h3 u' v' hu' (by omega), if_neg (by omega)]
            exact hrows' u' v' hu' hv'
          · intro u' hu'
            rw [h3 u' v (by omega) hv]
            by_cases hc : u' = u
            · subst hc; simp
            · rw [if_neg (by omega)]
              exact hcols u' (by omega))
      obtain ⟨m2, h1, h2, h3, h4⟩ := inner
      refine ⟨m2, h1, h2, ?_⟩
      intro u' v' hu' hv'
      by_cases hc : v' = v
      · subst hc; exact h4 u' hu'
      · exact h3 u' v' hu' (by omega))
  obtain ⟨m', h1, h2, h3⟩ := key
  refine ⟨m', ?_, h2, h3⟩
  simp only [fillMask, hW, hH]
  exact h1

/-! ## Slices, sweeps and the whole run -/

theorem maskFits_get {dims : UVec3} (h : MaskFits dims) {norm : Nat} (hn : norm < 3) :
    dims.get (tanAxis norm) * dims.get (biTanAxis norm) < 2 ^ 32 := by
  obtain rfl | rfl | rfl : norm = 0 ∨ norm = 1 ∨ norm = 2 := by omega
  · exact h.1
  · exact h.2.1
  · exact h.2.2

theorem sliceQuads_spec (dims : UVec3) (f : IVec3 → Bool) {norm : Nat} (hn : norm < 3)
    (slice : Nat) {m : Mask}
    (hlen : m.length = dims.get (tanAxis norm) * dims.get (biTanAxis norm))
    (h32 : dims.get (tanAxis norm) * dims.get (biTanAxis norm) < 2 ^ 32) :
    ∃ rects left, sliceQuads dims f norm slice m = some (rects.map (mkQuad norm slice), left) ∧
      left.length = m.length ∧
      (∀ u v, u < dims.get (tanAxis norm) → v < dims.get (biTanAxis norm) →
        coverCount rects u v = b2n (maskBit f norm slice u v)) ∧
      (∀ r ∈ rects, r.inside dims norm) ∧
      rects.Pairwise Rect.before := by
  obtain ⟨m1, h1, h2, h3⟩ := fillMask_spec dims f hn slice hlen h32
  obtain ⟨rects, left, g1, g2, g3, g4, g5, _, _⟩ := mergeMask_cover (h2.trans hlen) h32
  refine ⟨rects, left, ?_, g2.trans h2, ?_, g4, g5⟩
  · simp only [sliceQuads, h1, g1]
  · intro u v hu hv
    rw [g3 u v hu hv, h3 u v hu hv]

theorem countP_faces_of_slice (norm n : Nat) (rects : List Rect) (s u v : Nat) :
    (rects.map (Face.mk norm n)).countP (fun t => t.covers norm s u v) =
      if s = n then coverCount rects u v else 0 := by
  rw [List.countP_map]
  by_cases hs : s = n
  · subst hs
    simp [coverCount, Function.comp_def, Face.covers]
  · rw [if_neg hs, List.countP_eq_zero]
    intro r _
    have : ¬ n = s := fun h => hs h.symm
    simp [Face.covers, this]

theorem sweepFrom_spec (dims : UVec3) (f : IVec3 → Bool) {norm : Nat} (hn : norm < 3)
    (h32 : dims.get (tanAxis norm) * dims.get (biTanAxis norm) < 2 ^ 32) (n : Nat)
    {m : Mask} (hlen : m.length = dims.get (tanAxis norm) * dims.get (biTanAxis norm)) :
    ∃ (faces : List Face) (left : Mask),
      sweepFrom dims f norm (List.range n) m = some (faces.map Face.quad, left) ∧
      (∀ t ∈ faces, t.norm = norm ∧ t.slice < n ∧ t.rect.inside dims norm) ∧
      (∀ s u v, s < n → u < dims.get (tanAxis norm) → v < dims.get (biTanAxis norm) →
        faces.countP (fun t => t.covers norm s u v) = b2n (maskBit f norm s u v)) ∧
      faces.Pairwise Face.before := by
  have key := foldlM_range_inv
    (fun (acc : List quad_t × Mask) slice =>
      match sliceQuads dims f norm slice acc.2 with
      | none => none
      | some (qs, m) => some (acc.1 ++ qs, m))
    (fun n acc => acc.2.length = m.length ∧ ∃ faces : List Face, acc.1 = faces.map Face.quad ∧
      (∀ t ∈ faces, t.norm = norm ∧ t.slice < n ∧ t.rect.inside dims norm) ∧
      (∀ s u v, s < n → u < dims.get (tanAxis norm) → v < dims.get (biTanAxis norm) →
        faces.countP (fun t => t.covers norm s u v) = b2n (maskBit f norm s u v)) ∧
      faces.Pairwise Face.before)
    n ([], m)
    ⟨rfl, [], rfl, fun _ h => (by cases h), fun _ _ _ h => (by omega), List.Pairwise.nil⟩
    (by
      rintro i ⟨qs, m1⟩ _ ⟨hl, faces, hq, hin, hcnt, hord⟩
      simp only at hl hq
      obtain ⟨rects, left, h1, h2, h3, h4, h5⟩ :=
        sliceQuads_spec dims f hn i (hl.trans hlen) h32
      refine ⟨(qs ++ rects.map (mkQuad norm i), left), ?_, h2.trans hl,
        faces ++ rects.map (Face.mk norm i), ?_, ?_, ?_, ?_⟩
      · simp only [h1]
      · simp only [hq, List.map_append, List.map_map]
        rfl
      · intro t ht
        rcases List.mem_append.mp ht with h | h
        · obtain ⟨a, b, c⟩ := hin t h
          exact ⟨a, by omega, c⟩
        · obtain ⟨r, hr, rfl⟩ := List.mem_map.mp h
          exact ⟨rfl, Nat.lt_succ_self i, h4 r hr⟩
      · intro s u v hs hu hv
        rw [List.countP_append, countP_faces_of_slice]
        by_cases hc : s = i
        · subst hc
          rw [if_pos rfl, h3 u v hu hv]
          have : faces.countP (fun t => t.covers norm s u v) = 0 := by
            rw [List.countP_eq_zero]
            intro t ht
            have := (hin t ht).2.1
            simp only [Face.covers, Bool.and_eq_true, decide_eq_true_eq, not_and]
            intro h
            omega
          omega
        · rw [if_neg hc, hcnt s u v (by omega) hu hv]
          rfl
      · refine List.pairwise_append.mpr ⟨hord, ?_, ?_⟩
        · rw [List.pairwise_map]
          exact h5.imp (fun hab => Or.inr ⟨rfl, Or.inr ⟨rfl, hab⟩⟩)
        · intro a ha b hb
          obtain ⟨r, _, rfl⟩ := List.mem_map.mp hb
          obtain ⟨a1, a2, _⟩ := hin a ha
          exact Or.inr ⟨a1, Or.inl a2⟩)
  obtain ⟨⟨qs, left⟩, h1, _, faces, hq, h2, h3, h4⟩ := key
  simp only at hq
  subst hq
  exact ⟨faces, left, h1, h2, h3, h4⟩

theorem sweep_spec (dims : UVec3) (f : IVec3 → Bool) {norm : Nat} (hn : norm < 3)
    (h32 : dims.get (tanAxis norm) * dims.get (biTanAxis norm) < 2 ^ 32) :
    ∃ faces : List Face, sweep dims f norm = some (faces.map Face.quad) ∧
      (∀ t ∈ faces, t.norm = norm ∧ t.slice ≤ dims.get norm ∧ t.rect.inside dims norm) ∧
      (∀ s u v, s ≤ dims.get norm → u < dims.get (tanAxis norm) →
        v < dims.get (biTanAxis norm) →
        faces.countP (fun t => t.covers norm s u v) = b2n (maskBit f norm s u v)) ∧
      faces.Pairwise Face.before := by
  have hlen : (newMask dims norm).length
      = dims.get (tanAxis norm) * dims.get (biTanAxis norm) := by
    rw [newMask, List.length_replicate, Nat.mod_eq_of_lt h32]
  obtain ⟨faces, left, h1, h2, h3, h4⟩ :=
    sweepFrom_spec dims f hn h32 (dims.get norm + 1) hlen
  refine ⟨faces, ?_, ?_, ?_, h4⟩
  · simp only [sweep, sliceRange, h1, Option.map_some']
  · intro t ht
    obtain ⟨a, b, c⟩ := h2 t ht
    exact ⟨a, by omega, c⟩
  · intro s u v hs
    exact h3 s u v (by omega)

theorem countP_faces_other_axis {faces : List Face} {i : Nat}
    (h : ∀ t ∈ faces, t.norm = i) {norm : Nat} (hne : i ≠ norm) (s u v : Nat) :
    faces.countP (fun t => t.covers norm s u v) = 0 := by
  rw [List.countP_eq_zero]
  intro t ht
  have := h t ht
  simp only [Face.covers, Bool.and_eq_true, decide_eq_true_eq, not_and]
  intro h'
  omega

theorem greedy_remesher_eq (dims : UVec3) (f : IVec3 → Bool) :
    greedy_remesher dims f =
      match sweep dims f 0 with
      | none => none
      | some q0 =>
        match sweep dims f 1 with
        | none => none
        | some q1 =>
          match sweep dims f 2 with
          | none => none
          | some q2 => some (q0 ++ q1 ++ q2) := by
  have hr : List.range 3 = [0, 1, 2] := by decide
  simp only [greedy_remesher, hr, List.foldlM_cons, List.foldlM_nil]
  cases sweep dims f 0 <;> cases sweep dims f 1 <;> cases sweep dims f 2 <;> rfl

/-- The whole run on dimensions whose masks fit: the output is the list of
quads of a list of faces, every face lies on a slice `0 .. dims[norm]` of its
axis with its rectangle inside the mask, every in-plane cell of every slice is
covered by exactly as many faces as its mask bit says, and the faces are in
emission order. -/
theorem greedy_spec (dims : UVec3) (f : IVec3 → Bool) (h : MaskFits dims) :
    ∃ faces : List Face, greedy_remesher dims f = some (faces.map Face.quad) ∧
      (∀ t ∈ faces, t.norm < 3 ∧ t.slice ≤ dims.get t.norm ∧ t.rect.inside dims t.norm) ∧
      (∀ norm s u v, norm < 3 → s ≤ dims.get norm → u < dims.get (tanAxis norm) →
        v < dims.get (biTanAxis norm) →
        faces.countP (fun t => t.covers norm s u v) = b2n (maskBit f norm s u v)) ∧
      faces.Pairwise Face.before := by
  obtain ⟨f0, a1, a2, a3, a4⟩ := sweep_spec dims f (by omega : 0 < 3) (maskFits_get h (by omega))
  obtain ⟨f1, b1, b2, b3, b4⟩ := sweep_spec dims f (by omega : 1 < 3) (maskFits_get h (by omega))
  obtain ⟨f2, c1, c2, c3, c4⟩ := sweep_spec dims f (by omega : 2 < 3) (maskFits_get h (by omega))
  refine ⟨f0 ++ f1 ++ f2, ?_, ?_, ?_, ?_⟩
  · rw [greedy_remesher_eq, a1, b1, c1]
    simp only [List.map_append]
  · intro t ht
    rcases List.mem_append.mp ht with h | h
    · rcases List.mem_append.mp h with h | h
      · obtain ⟨e, e1, e2⟩ := a2 t h
        rw [e]; exact ⟨by omega, e1, e2⟩
      · obtain ⟨e, e1, e2⟩ := b2 t h
        rw [e]; exact ⟨by omega, e1, e2⟩
    · obtain ⟨e, e1, e2⟩ := c2 t h
      rw [e]; exact ⟨by omega, e1, e2⟩
  · intro norm s u v hn hs hu hv
    have n0 : ∀ t ∈ f0, t.norm = 0 := fun t ht => (a2 t ht).1
    have n1 : ∀ t ∈ f1, t.norm = 1 := fun t ht => (b2 t ht).1
    have n2 : ∀ t ∈ f2, t.norm = 2 := fun t ht => (c2 t ht).1
    rw [List.countP_append, List.countP_append]
    obtain rfl | rfl | rfl : norm = 0 ∨ norm = 1 ∨ norm = 2 := by omega
    · rw [a3 s u v hs hu hv, countP_faces_other_axis n1 (by omega),
        countP_faces_other_axis n2 (by omega)]
      omega
    · rw [b3 s u v hs hu hv, countP_faces_other_axis n0 (by omega),
        countP_faces_other_axis n2 (by omega)]
      omega
    · rw [c3 s u v hs hu hv, countP_faces_other_axis n0 (by omega),
        countP_faces_other_axis n1 (by omega)]
      omega
  · refine List.pairwise_append.mpr ⟨List.pairwise_append.mpr ⟨a4, b4, ?_⟩, c4, ?_⟩
    · intro a ha b hb
      exact Or.inl (by rw [(a2 a ha).1, (b2 b hb).1]; omega)
    · intro a ha b hb
      refine Or.inl ?_
      rw [(c2 b hb).1]
      rcases List.mem_append.mp ha with h | h
      · rw [(a2 a h).1]; omega
      · rw [(b2 a h).1]; omega

/-! ## Coordinates without wrap-around -/

theorem toI32_of_range {n : Int} (h1 : -2 ^ 31 ≤ n) (h2 : n < 2 ^ 31) : toI32 n = n := by
  unfold toI32
  omega

theorem toI32_natCast {n : Nat} (h : n < 2 ^ 31) : toI32 (n : Int) = n :=
  toI32_of_range (by omega) (by omega)

theorem toI32_natCast_add {a b : Nat} (h : a + b < 2 ^ 31) :
    toI32 ((a : Int) + b) = ((a + b : Nat) : Int) := by
  rw [← Nat.cast_add]
  exact toI32_natCast h

theorem toI32_natCast_sub_one {n : Nat} (h : n < 2 ^ 31) :
    toI32 ((n : Int) - 1) = (n : Int) - 1 :=
  toI32_of_range (by omega) (by omega)

theorem toI32_zero : toI32 0 = 0 := by decide

theorem toI32_one : toI32 ((1 : Nat) : Int) = 1 := by decide

theorem mkQuad_eq {norm : Nat} (hn : norm < 3) {s : Nat} (hs : s < 2 ^ 31) {r : Rect}
    (hx : r.x + r.w < 2 ^ 31) (hy : r.y + r.h < 2 ^ 31) :
    mkQuad norm s r = ⟨site norm s r.x r.y, site norm s (r.x + r.w : Nat) r.y,
      site norm s (r.x + r.w : Nat) (r.y + r.h : Nat), site norm s r.x (r.y + r.h : Nat)⟩ := by
  have hx1 : r.x < 2 ^ 31 := by omega
  have hy1 : r.y < 2 ^ 31 := by omega
  have hw1 : r.w < 2 ^ 31 := by omega
  have hh1 : r.h < 2 ^ 31 := by omega
  obtain rfl | rfl | rfl : norm = 0 ∨ norm = 1 ∨ norm = 2 := by omega
  all_goals
    simp only [mkQuad, site, tanAxis, biTanAxis, IVec3.set, IVec3.zero, IVec3.add,
      Nat.reduceAdd, Nat.reduceMod, add_zero, zero_add, toI32_zero, toI32_natCast hs,
      toI32_natCast hx1, toI32_natCast hy1, toI32_natCast hw1, toI32_natCast hh1,
      toI32_natCast_add hx, toI32_natCast_add hy, toI32_natCast hx, toI32_natCast hy]

theorem maskBit_eq (f : IVec3 → Bool) {norm : Nat} (hn : norm < 3) {s u v : Nat}
    (hs : s < 2 ^ 31) (hu : u < 2 ^ 31) (hv : v < 2 ^ 31) :
    maskBit f norm s u v = (f (site norm s u v) != f (site norm ((s : Int) - 1) u v)) := by
  have ms : s % 2 ^ 32 = s := Nat.mod_eq_of_lt (by omega)
  have mu : u % 2 ^ 32 = u := Nat.mod_eq_of_lt (by omega)
  have mv : v % 2 ^ 32 = v := Nat.mod_eq_of_lt (by omega)
  obtain rfl | rfl | rfl : norm = 0 ∨ norm = 1 ∨ norm = 2 := by omega
  all_goals
    simp only [maskBit, cursorAt, normalVector, site, tanAxis, biTanAxis, UVec3.set,
      UVec3.zero, IVec3.set, IVec3.zero, IVec3.ofU, IVec3.sub, Nat.reduceAdd, Nat.reduceMod,
      sub_zero, ms, mu, mv, toI32_zero, toI32_one, toI32_natCast hs, toI32_natCast hu,
      toI32_natCast hv, toI32_natCast_sub_one hs]

theorem coordsFit_get {dims : UVec3} (h : CoordsFit dims) (i : Nat) : dims.get i < 2 ^ 31 := by
  unfold UVec3.get
  split
  · exact h.1
  · exact h.2.1
  · exact h.2.2

theorem quadCovers_face {dims : UVec3} (hc : CoordsFit dims) {t : Face} (ht : t.norm < 3)
    (hs : t.slice ≤ dims.get t.norm) (hin : t.rect.inside dims t.norm) {norm : Nat}
    (hn : norm < 3) (s u v : Nat) :
    quadCovers norm s u v t.quad = t.covers norm s u v := by
  obtain ⟨tn, ts, ⟨x, y, w, h⟩⟩ := t
  simp only [Rect.inside] at hin
  simp only at ht hs
  have b1 := coordsFit_get hc tn
  have b2 := coordsFit_get hc (tanAxis tn)
  have b3 := coordsFit_get hc (biTanAxis tn)
  have c1 : ts < 2 ^ 31 := by omega
  have c2 : x + w < 2 ^ 31 := by omega
  have c3 : y + h < 2 ^ 31 := by omega
  rw [Face.quad, mkQuad_eq ht c1 c2 c3, Bool.eq_iff_iff]
  simp only [quadCovers, Face.covers, Rect.covers, decide_eq_true_eq, Bool.and_eq_true]
  obtain rfl | rfl | rfl : norm = 0 ∨ norm = 1 ∨ norm = 2 := by omega
  all_goals obtain rfl | rfl | rfl : tn = 0 ∨ tn = 1 ∨ tn = 2 := by omega
  all_goals
    simp only [site, IVec3.get, tanAxis, biTanAxis, Nat.reduceAdd, Nat.reduceMod, true_and]
    omega

/-! ## Sweeps over an empty slice plane -/

theorem foldlM_range_const {α : Type} (f : α → Nat → Option α) (n : Nat) (a0 : α)
    (h : ∀ i, i < n → f a0 i = some a0) : (List.range n).foldlM f a0 = some a0 := by
  obtain ⟨a, h1, h2⟩ := foldlM_range_inv f (fun _ a => a = a0) n a0 rfl
    (fun i a hi ha => ⟨a0, by rw [ha]; exact h i hi, rfl⟩)
  rw [h1, h2]

theorem foldlM_list_const {α β : Type} (f : α → β → Option α) (l : List β) (a0 : α)
    (h : ∀ b, f a0 b = some a0) : l.foldlM f a0 = some a0 := by
  induction l with
  | nil => rfl
  | cons b t ih => rw [List.foldlM_cons, h b]; exact ih

theorem fillMask_empty_plane (dims : UVec3) (f : IVec3 → Bool) (norm slice : Nat) (m : Mask)
    (h : dims.get (tanAxis norm) = 0 ∨ dims.get (biTanAxis norm) = 0) :
    fillMask dims f norm slice m = some m := by
  unfold fillMask
  rcases h with h | h
  · rw [h]
    exact foldlM_range_const _ _ _ (fun _ _ => rfl)
  · rw [h]
    rfl

theorem mergeMask_empty_plane (W H : Nat) (m : Mask) (h : W = 0 ∨ H = 0) :
    mergeMask W H m = some ([], m) := by
  unfold mergeMask
  rcases h with h | h
  · subst h
    exact foldlM_range_const _ _ _ (fun _ _ => rfl)
  · subst h
    rfl

theorem sliceQuads_empty_plane (dims : UVec3) (f : IVec3 → Bool) (norm slice : Nat) (m : Mask)
    (h : dims.get (tanAxis norm) = 0 ∨ dims.get (biTanAxis norm) = 0) :
    sliceQuads dims f norm slice m = some ([], m) := by
  simp only [sliceQuads, fillMask_empty_plane dims f norm slice m h,
    mergeMask_empty_plane _ _ m h, List.map_nil]

/-! ## Runs that leave the mask -/

theorem foldlM_range_first_none {α : Type} (f : α → Nat → Option α) (n : Nat) (a : α)
    (hn : 0 < n) (h : f a 0 = none) : (List.range n).foldlM f a = none := by
  cases n with
  | zero => omega
  | succ k =>
    rw [List.range_succ_eq_map, List.foldlM_cons, h]
    rfl

theorem fillMask_nil (dims : UVec3) (f : IVec3 → Bool) (norm slice : Nat)
    (hW : 0 < dims.get (tanAxis norm)) (hH : 0 < dims.get (biTanAxis norm)) :
    fillMask dims f norm slice [] = none := by
  unfold fillMask
  apply foldlM_range_first_none _ _ _ hH
  apply foldlM_range_first_none _ _ _ hW
  rfl

theorem sweep_none_of_empty_mask (dims : UVec3) (f : IVec3 → Bool) (norm : Nat)
    (hW : 0 < dims.get (tanAxis norm)) (hH : 0 < dims.get (biTanAxis norm))
    (h0 : (dims.get (tanAxis norm) * dims.get (biTanAxis norm)) % 2 ^ 32 = 0) :
    sweep dims f norm = none := by
  have hm : newMask dims norm = [] := by
    rw [newMask, h0]
    rfl
  have hs : sweepFrom dims f norm (sliceRange dims norm) (newMask dims norm) = none := by
    rw [hm]
    unfold sweepFrom sliceRange
    apply foldlM_range_first_none _ _ _ (Nat.succ_pos _)
    simp only [sliceQuads, fillMask_nil dims f norm 0 hW hH]
  rw [sweep, hs]
  rfl

theorem greedy_none_of_sweep_none (dims : UVec3) (f : IVec3 → Bool) {norm : Nat}
    (hn : norm < 3) (h : sweep dims f norm = none) : greedy_remesher dims f = none := by
  rw [greedy_remesher_eq]
  obtain rfl | rfl | rfl : norm = 0 ∨ norm = 1 ∨ norm = 2 := by omega
  · rw [h]
  · rw [h]
    cases sweep dims f 0 <;> rfl
  · rw [h]
    cases sweep dims f 0 <;> cases sweep dims f 1 <;> rfl

theorem foldlM_range_pres {α : Type} (f : α → Nat → Option α) (P : α → Prop)
    (hpres : ∀ i a a', P a → f a i = some a' → P a') (n : Nat) :
    ∀ a0 a, P a0 → (List.range n).foldlM f a0 = some a → P a := by
  induction n with
  | zero =>
    intro a0 a h0 h
    simp only [List.range_zero, List.foldlM_nil] at h
    cases h
    exact h0
  | succ n ih =>
    intro a0 a h0 h
    rw [List.range_succ, List.foldlM_append] at h
    cases h1 : (List.range n).foldlM f a0 with
    | none => rw [h1] at h; cases h
    | some a1 =>
      rw [h1] at h
      have h' : List.foldlM f a1 [n] = some a := h
      have hf : f a1 n = some a := by
        cases h2 : f a1 n with
        | none => simp [h2] at h'
        | some a2 => simpa [h2] using h'
      exact hpres n a1 a (ih a0 a1 h0 h1) hf

theorem foldlM_range_fails {α : Type} (f : α → Nat → Option α) (P : α → Prop)
    (hpres : ∀ i a a', P a → f a i = some a' → P a') (n : Nat) (a0 : α) (h0 : P a0)
    (i : Nat) (hi : i < n) (hfail : ∀ a, P a → f a i = none) :
    (List.range n).foldlM f a0 = none := by
  induction n with
  | zero => omega
  | succ n ih =>
    rw [List.range_succ, List.foldlM_append]
    cases h1 : (List.range n).foldlM f a0 with
    | none => rfl
    | some a1 =>
      by_cases hlt : i < n
      · rw [ih hlt] at h1
        cases h1
      · have he : i = n := by omega
        subst he
        have hP := foldlM_range_pres f P hpres i a0 a1 h0 h1
        show (List.foldlM f a1 [i]) = none
        rw [List.foldlM_cons, hfail a1 hP]
        rfl

theorem maskSet_length {m m' : Mask} {i : Nat} {b : Bool} (h : maskSet m i b = some m') :
    m'.length = m.length := by
  unfold maskSet at h
  split at h
  · cases h
    exact List.length_set _ _ _
  · cases h

theorem fillMask_none_of_overflow (dims : UVec3) (f : IVec3 → Bool) {norm : Nat}
    (hn : norm < 3) (slice : Nat)
    (hov : 2 ^ 32 ≤ dims.get (tanAxis norm) * dims.get (biTanAxis norm)) (m : Mask)
    (hlen : m.length = (dims.get (tanAxis norm) * dims.get (biTanAxis norm)) % 2 ^ 32) :
    fillMask dims f norm slice m = none := by
  generalize hW : dims.get (tanAxis norm) = W at hov hlen
  generalize hH : dims.get (biTanAxis norm) = H at hov hlen
  generalize hL : (W * H) % 2 ^ 32 = L at hlen
  have hL32 : L < 2 ^ 32 := hL ▸ Nat.mod_lt _ (by decide)
  have hLlt : L < W * H := by omega
  have hWpos : 0 < W := by
    rcases Nat.eq_zero_or_pos W with h | h
    · subst h; simp at hLlt
    · exact h
  have hu : L % W < W := Nat.mod_lt _ hWpos
  have hv : L / W < H := Nat.div_lt_of_lt_mul hLlt
  have hidx : L / W * W + L % W = L := by
    rw [Nat.mul_comm]; exact Nat.div_add_mod L W
  unfold fillMask
  rw [hW, hH]
  apply foldlM_range_fails _ (fun a => a.length = L) _ H m hlen (L / W) hv
  · intro a ha
    apply foldlM_range_fails _ (fun a => a.length = L) _ W a ha (L % W) hu
    · intro b hb
      have hi : to_index ((cursorAt norm slice (L % W) (L / W)).get (tanAxis norm))
          ((cursorAt norm slice (L % W) (L / W)).get (biTanAxis norm)) W = L := by
        rw [cursorAt_get_tan hn, cursorAt_get_biTan hn]
        unfold to_index
        rw [Nat.add_mod, Nat.mul_mod, Nat.mod_mod, Nat.mod_mod, ← Nat.mul_mod, ← Nat.add_mod,
          hidx]
        exact Nat.mod_eq_of_lt hL32
      simp only [hi, maskSet, hb, Nat.lt_irrefl, if_false]
    · intro i a a' ha h
      exact (maskSet_length h).trans ha
  · intro v a a' ha h
    exact foldlM_range_pres _ (fun a => a.length = L)
      (fun i b b' hb hs => (maskSet_length hs).trans hb) W a a' ha h

theorem sweep_none_of_overflow (dims : UVec3) (f : IVec3 → Bool) {norm : Nat} (hn : norm < 3)
    (hov : 2 ^ 32 ≤ dims.get (tanAxis norm) * dims.get (biTanAxis norm)) :
    sweep dims f norm = none := by
  have hs : sweepFrom dims f norm (sliceRange dims norm) (newMask dims norm) = none := by
    unfold sweepFrom sliceRange
    apply foldlM_range_first_none _ _ _ (Nat.succ_pos _)
    have := fillMask_none_of_overflow dims f hn 0 hov (newMask dims norm)
      (by rw [newMask, List.length_replicate])
    simp only [sliceQuads, this]
  rw [sweep, hs]
  rfl

/-- A mask size `dims[tan] * dims[biTan]` of `2 ^ 32` or more always takes the
mask fill of slice `0` outside the vector allocated at line 41. -/
theorem greedy_none_of_overflow (dims : UVec3) (f : IVec3 → Bool) {norm : Nat} (hn : norm < 3)
    (hov : 2 ^ 32 ≤ dims.get (tanAxis norm) * dims.get (biTanAxis norm)) :
    greedy_remesher dims f = none :=
  greedy_none_of_sweep_none dims f hn (sweep_none_of_overflow dims f hn hov)

theorem greedy_none_overflow (f : IVec3 → Bool) :
    greedy_remesher ⟨0, 65536, 65536⟩ f = none :=
  greedy_none_of_sweep_none _ f (by decide : 0 < 3)
    (sweep_none_of_empty_mask _ f 0 (by decide) (by decide) (by decide))

/-! ## Runs over an oracle without transitions -/

theorem faces_nil_of_count_zero {dims : UVec3} {faces : List Face}
    (hin : ∀ t ∈ faces, t.norm < 3 ∧ t.slice ≤ dims.get t.norm ∧ t.rect.inside dims t.norm)
    (hcnt : ∀ norm s u v, norm < 3 → s ≤ dims.get norm → u < dims.get (tanAxis norm) →
      v < dims.get (biTanAxis norm) → faces.countP (fun t => t.covers norm s u v) = 0) :
    faces = [] := by
  cases faces with
  | nil => rfl
  | cons t rest =>
    exfalso
    obtain ⟨a, b, c1, c2, c3, c4⟩ := hin t (List.mem_cons_self _ _)
    have h0 := hcnt t.norm t.slice t.rect.x t.rect.y a b (by omega) (by omega)
    rw [List.countP_eq_zero] at h0
    have := h0 t (List.mem_cons_self _ _)
    apply this
    simp only [Face.covers, Rect.covers, Bool.and_eq_true, decide_eq_true_eq, and_self,
      le_refl, true_and]
    omega

theorem greedy_nil_of_no_transition (dims : UVec3) (f : IVec3 → Bool) (hm : MaskFits dims)
    (h : ∀ norm s u v, norm < 3 → s ≤ dims.get norm → u < dims.get (tanAxis norm) →
      v < dims.get (biTanAxis norm) → maskBit f norm s u v = false) :
    greedy_remesher dims f = some [] := by
  obtain ⟨faces, h1, h2, h3, _⟩ := greedy_spec dims f hm
  have : faces = [] := by
    apply faces_nil_of_count_zero h2
    intro norm s u v hn hs hu hv
    rw [h3 norm s u v hn hs hu hv, h norm s u v hn hs hu hv]
    rfl
  rw [h1, this]
  rfl

theorem maskBit_of_const (f : IVec3 → Bool) (h : ∀ p, f p = false) (norm s u v : Nat) :
    maskBit f norm s u v = false := by
  simp only [maskBit, h]
  rfl

/-! ## Quads of faces inside the 32-bit range -/

theorem toI32_lt (n : Int) : toI32 n < 2 ^ 31 := by
  unfold toI32
  omega

theorem mkQuad_a_x_lt {norm : Nat} (hn : norm < 3) (slice : Nat) (r : Rect) :
    (mkQuad norm slice r).a.x < 2 ^ 31 := by
  obtain rfl | rfl | rfl : norm = 0 ∨ norm = 1 ∨ norm = 2 := by omega
  · show toI32 (slice : Int) < 2 ^ 31
    exact toI32_lt _
  · show toI32 (r.y : Int) < 2 ^ 31
    exact toI32_lt _
  · show toI32 (r.x : Int) < 2 ^ 31
    exact toI32_lt _

theorem face_key {dims : UVec3} (hc : CoordsFit dims) {t : Face} (ht : t.norm < 3)
    (hs : t.slice ≤ dims.get t.norm) (hin : t.rect.inside dims t.norm) :
    quadAxis t.quad = t.norm ∧ t.quad.a.get t.norm = t.slice ∧
      t.quad.a.get (biTanAxis t.norm) = t.rect.y ∧
      t.quad.a.get (tanAxis t.norm) = t.rect.x := by
  obtain ⟨tn, ts, ⟨x, y, w, h⟩⟩ := t
  simp only [Rect.inside] at hin
  simp only at ht hs
  have b1 := coordsFit_get hc tn
  have b2 := coordsFit_get hc (tanAxis tn)
  have b3 := coordsFit_get hc (biTanAxis tn)
  have c1 : ts < 2 ^ 31 := by omega
  have c2 : x + w < 2 ^ 31 := by omega
  have c3 : y + h < 2 ^ 31 := by omega
  rw [Face.quad, mkQuad_eq ht c1 c2 c3]
  obtain rfl | rfl | rfl : tn = 0 ∨ tn = 1 ∨ tn = 2 := by omega
  all_goals
    simp only [quadAxis, site, IVec3.get, tanAxis, biTanAxis, Nat.reduceAdd, Nat.reduceMod,
      and_self, if_true, and_true, true_and]
  · rw [if_neg (by omega)]
  · rw [if_neg (by omega), if_neg (by omega)]

theorem quadKeyLt_of_before {dims : UVec3} (hc : CoordsFit dims) {t1 t2 : Face}
    (h1 : t1.norm < 3 ∧ t1.slice ≤ dims.get t1.norm ∧ t1.rect.inside dims t1.norm)
    (h2 : t2.norm < 3 ∧ t2.slice ≤ dims.get t2.norm ∧ t2.rect.inside dims t2.norm)
    (hb : t1.before t2) : quadKeyLt t1.quad t2.quad := by
  obtain ⟨a1, a2, a3, a4⟩ := face_key hc h1.1 h1.2.1 h1.2.2
  obtain ⟨b1, b2, b3, b4⟩ := face_key hc h2.1 h2.2.1 h2.2.2
  unfold quadKeyLt
  rw [a1, b1, a2, a3, a4]
  rcases hb with hb | ⟨he, hb⟩
  · exact Or.inl hb
  · refine Or.inr ⟨he, ?_⟩
    rw [he, b2, b3, b4]
    rcases hb with hb | ⟨he2, hb⟩
    · exact Or.inl (by omega)
    · refine Or.inr ⟨by omega, ?_⟩
      rcases hb with hb | ⟨he3, hb⟩
      · exact Or.inl (by omega)
      · exact Or.inr ⟨by omega, by omega⟩

theorem quadKeyLt_ne {q1 q2 : quad_t} (h : quadKeyLt q1 q2) :
    ¬ (quadAxis q1 = quadAxis q2 ∧ q1.a = q2.a) := by
  rintro ⟨h1, h2⟩
  unfold quadKeyLt at h
  rw [h2] at h
  omega

/-! ## End-to-end claims -/

/-- C1, amended (end-to-end face coverage). For all `dims` whose components
are below `2 ^ 31` and whose three mask sizes `dims[tan] * dims[biTan]` are
below `2 ^ 32`, and every oracle: `greedy_remesher` returns a quad list in
which, for every axis `norm`, every slice `0 ≤ s ≤ dims[norm]` and every
in-plane cell `(u, v)`, the number of quads whose four corners have
`norm`-coordinate `s` and whose footprint contains `(u, v)` is exactly `1`
when the oracle differs between the cell and the cell one step back along
`norm`, and exactly `0` when the two values are equal. -/
theorem greedy_remesher_face_coverage (dims : UVec3) (map_fn : IVec3 → Bool)
    (hc : CoordsFit dims) (hm : MaskFits dims) : FaceCoverage dims map_fn := by
  obtain ⟨faces, h1, h2, h3, _⟩ := greedy_spec dims map_fn hm
  refine ⟨faces.map Face.quad, h1, ?_⟩
  intro norm s u v hn hs hu hv
  have hcnt : (faces.map Face.quad).countP (quadCovers norm s u v)
      = faces.countP (fun t => t.covers norm s u v) := by
    rw [List.countP_map]
    apply List.countP_congr
    intro t ht
    obtain ⟨a, b, c⟩ := h2 t ht
    simp only [Function.comp_apply, quadCovers_face hc a b c hn s u v]
  have b1 := coordsFit_get hc norm
  have b2 := coordsFit_get hc (tanAxis norm)
  have b3 := coordsFit_get hc (biTanAxis norm)
  rw [hcnt, h3 norm s u v hn hs hu hv,
    maskBit_eq map_fn hn (by omega) (by omega) (by omega)]
  by_cases he : map_fn (site norm s u v) = map_fn (site norm ((s : Int) - 1) u v)
  · simp [he, b2n]
  · simp [he, b2n]

/-- Witness of C1 on the single voxel of a 1 x 1 x 1 volume. -/
theorem greedy_remesher_face_coverage_witness :
    CoordsFit ⟨1, 1, 1⟩ ∧ MaskFits ⟨1, 1, 1⟩ ∧
      FaceCoverage ⟨1, 1, 1⟩ (fun p => decide (p = ⟨0, 0, 0⟩)) :=
  ⟨⟨by decide, by decide, by decide⟩, ⟨by decide, by decide, by decide⟩,
    greedy_remesher_face_coverage ⟨1, 1, 1⟩ (fun p => decide (p = ⟨0, 0, 0⟩))
      ⟨by decide, by decide, by decide⟩ ⟨by decide, by decide, by decide⟩⟩

/-- Counterexample to C1 as stated for all `dims`. For `dims = (0, 65536,
65536)` the mask size `65536 * 65536` wraps to `0` in 32 bits, the first mask
write leaves the vector and no quad list is returned. For `dims = (2 ^ 31, 1,
1)` and the oracle that is `true` exactly at `x = INT_MIN`, the cap slice
`s = 2 ^ 31` is a transition, but no output quad has `norm`-coordinate
`2 ^ 31`, because slice coordinates are stored in a signed 32-bit `int`. -/
theorem face_coverage_fails_outside_32_bits :
    ¬ FaceCoverage ⟨0, 65536, 65536⟩ (fun _ => false) ∧
      ¬ FaceCoverage ⟨2 ^ 31, 1, 1⟩ atIntMin := by
  constructor
  · rintro ⟨quads, h, _⟩
    rw [greedy_none_overflow] at h
    cases h
  · rintro ⟨quads, h, hcov⟩
    obtain ⟨faces, h1, h2, _, _⟩ := greedy_spec ⟨2 ^ 31, 1, 1⟩ atIntMin
      ⟨by decide, by decide, by decide⟩
    rw [h1] at h
    cases h
    have hc := hcov 0 (2 ^ 31) 0 0 (by decide) (le_refl _) (by decide) (by decide)
    have hz : (faces.map Face.quad).countP (quadCovers 0 ((2 ^ 31 : Nat) : Int) (0 : Nat)
        (0 : Nat)) = 0 := by
      rw [List.countP_eq_zero]
      intro q hq
      obtain ⟨t, ht, rfl⟩ := List.mem_map.mp hq
      have hlt := mkQuad_a_x_lt (h2 t ht).1 t.slice t.rect
      simp only [quadCovers, decide_eq_true_eq, Face.quad]
      intro hcon
      have hx : (mkQuad t.norm t.slice t.rect).a.x = ((2 ^ 31 : Nat) : Int) := hcon.1
      rw [hx] at hlt
      exact absurd hlt (by decide)
    rw [hz] at hc
    revert hc
    decide

/-- C5, amended (empty input). For every `dims` whose three mask sizes
`dims[tan] * dims[biTan]` are below `2 ^ 32`, if the oracle returns `false`
for every coordinate then `greedy_remesher` returns the empty quad list. -/
theorem greedy_remesher_empty_oracle (dims : UVec3) (map_fn : IVec3 → Bool)
    (hm : MaskFits dims) (hf : ∀ p, map_fn p = false) :
    greedy_remesher dims map_fn = some [] :=
  greedy_nil_of_no_transition dims map_fn hm
    (fun norm s u v _ _ _ _ => maskBit_of_const map_fn hf norm s u v)

/-- Witness of C5 on a 2 x 3 x 4 volume. -/
theorem greedy_remesher_empty_oracle_witness :
    MaskFits ⟨2, 3, 4⟩ ∧ greedy_remesher ⟨2, 3, 4⟩ (fun _ => false) = some [] :=
  ⟨⟨by decide, by decide, by decide⟩,
    greedy_remesher_empty_oracle ⟨2, 3, 4⟩ (fun _ => false)
      ⟨by decide, by decide, by decide⟩ (fun _ => rfl)⟩

/-- Counterexample to C5 as stated for every `dims`. For `dims = (65536,
65536, 1)` and the oracle that is `false` everywhere, the mask of the sweep
along axis `2` is allocated with `65536 * 65536 mod 2 ^ 32 = 0` cells, its
first write is outside the vector, and no quad list is returned. -/
theorem empty_oracle_fails_on_wrapped_mask :
    greedy_remesher ⟨65536, 65536, 1⟩ (fun _ => false) = none ∧
      ¬ greedy_remesher ⟨65536, 65536, 1⟩ (fun _ => false) = some [] := by
  have h : greedy_remesher ⟨65536, 65536, 1⟩ (fun _ => false) = none :=
    greedy_none_of_sweep_none _ _ (by decide : 2 < 3)
      (sweep_none_of_empty_mask _ _ 2 (by decide) (by decide) (by decide))
  refine ⟨h, ?_⟩
  rw [h]
  intro hc
  cases hc

/-- C6 (single voxel). For `dims = (1, 1, 1)` and the oracle that is `true`
exactly at `(0, 0, 0)`, `greedy_remesher` returns exactly six quads: for each
of the three axes one unit square at normal coordinate `0` and one at normal
coordinate `1`, the six faces of the unit cube. -/
theorem greedy_remesher_single_voxel (map_fn : IVec3 → Bool)
    (hf : ∀ p, map_fn p = true ↔ p = ⟨0, 0, 0⟩) :
    greedy_remesher ⟨1, 1, 1⟩ map_fn = some
      [⟨⟨0, 0, 0⟩, ⟨0, 1, 0⟩, ⟨0, 1, 1⟩, ⟨0, 0, 1⟩⟩,
       ⟨⟨1, 0, 0⟩, ⟨1, 1, 0⟩, ⟨1, 1, 1⟩, ⟨1, 0, 1⟩⟩,
       ⟨⟨0, 0, 0⟩, ⟨0, 0, 1⟩, ⟨1, 0, 1⟩, ⟨1, 0, 0⟩⟩,
       ⟨⟨0, 1, 0⟩, ⟨0, 1, 1⟩, ⟨1, 1, 1⟩, ⟨1, 1, 0⟩⟩,
       ⟨⟨0, 0, 0⟩, ⟨1, 0, 0⟩, ⟨1, 1, 0⟩, ⟨0, 1, 0⟩⟩,
       ⟨⟨0, 0, 1⟩, ⟨1, 0, 1⟩, ⟨1, 1, 1⟩, ⟨0, 1, 1⟩⟩] := by
  have hfun : map_fn = fun p => decide (p = ⟨0, 0, 0⟩) := by
    funext p
    rw [Bool.eq_iff_iff, hf p]
    simp
  subst hfun
  decide

/-- Witness of C6 with the oracle `p = (0, 0, 0)`. -/
theorem greedy_remesher_single_voxel_witness :
    greedy_remesher ⟨1, 1, 1⟩ (fun p => decide (p = ⟨0, 0, 0⟩)) = some
      [⟨⟨0, 0, 0⟩, ⟨0, 1, 0⟩, ⟨0, 1, 1⟩, ⟨0, 0, 1⟩⟩,
       ⟨⟨1, 0, 0⟩, ⟨1, 1, 0⟩, ⟨1, 1, 1⟩, ⟨1, 0, 1⟩⟩,
       ⟨⟨0, 0, 0⟩, ⟨0, 0, 1⟩, ⟨1, 0, 1⟩, ⟨1, 0, 0⟩⟩,
       ⟨⟨0, 1, 0⟩, ⟨0, 1, 1⟩, ⟨1, 1, 1⟩, ⟨1, 1, 0⟩⟩,
       ⟨⟨0, 0, 0⟩, ⟨1, 0, 0⟩, ⟨1, 1, 0⟩, ⟨0, 1, 0⟩⟩,
       ⟨⟨0, 0, 1⟩, ⟨1, 0, 1⟩, ⟨1, 1, 1⟩, ⟨0, 1, 1⟩⟩] :=
  greedy_remesher_single_voxel (fun p => decide (p = ⟨0, 0, 0⟩)) (fun p => by simp)

/-- C7 (degenerate in-plane dimension). For every oracle and every `dims` in
which some dimension `d` is `0`, each sweep whose tangent or bitangent axis is
`d` contributes zero quads to the output. -/
theorem sweep_empty_of_zero_in_plane_dim (dims : UVec3) (map_fn : IVec3 → Bool) (d norm : Nat)
    (hd : dims.get d = 0) (hax : tanAxis norm = d ∨ biTanAxis norm = d) :
    sweep dims map_fn norm = some [] := by
  have h : dims.get (tanAxis norm) = 0 ∨ dims.get (biTanAxis norm) = 0 := by
    rcases hax with h | h
    · exact Or.inl (h ▸ hd)
    · exact Or.inr (h ▸ hd)
  have hs : sweepFrom dims map_fn norm (sliceRange dims norm) (newMask dims norm)
      = some ([], newMask dims norm) := by
    unfold sweepFrom
    apply foldlM_list_const
    intro slice
    simp only [sliceQuads_empty_plane dims map_fn norm slice _ h, List.append_nil]
  rw [sweep, hs]
  rfl

/-- Witness of C7: `dims = (3, 0, 2)`, whose dimension `1` is the tangent of
the sweep along axis `0`. -/
theorem sweep_empty_of_zero_in_plane_dim_witness :
    sweep ⟨3, 0, 2⟩ (fun _ => true) 0 = some [] :=
  sweep_empty_of_zero_in_plane_dim ⟨3, 0, 2⟩ (fun _ => true) 1 0 rfl (Or.inl rfl)

/-- C8, amended (a zero dimension gives no output). For every `dims` with at
least one dimension equal to `0` and with its three mask sizes
`dims[tan] * dims[biTan]` below `2 ^ 32`, and every oracle that returns
`false` for every coordinate outside `[0, dims)` on any axis,
`greedy_remesher` returns the empty quad list. -/
theorem greedy_remesher_zero_dim (dims : UVec3) (map_fn : IVec3 → Bool)
    (hm : MaskFits dims) (hz : dims.x = 0 ∨ dims.y = 0 ∨ dims.z = 0)
    (hf : ∀ p, OutsideVolume dims p → map_fn p = false) :
    greedy_remesher dims map_fn = some [] := by
  have hall : ∀ p, map_fn p = false := by
    intro p
    apply hf
    unfold OutsideVolume
    rcases hz with h | h | h <;> rw [h] <;> omega
  exact greedy_nil_of_no_transition dims map_fn hm
    (fun norm s u v _ _ _ _ => maskBit_of_const map_fn hall norm s u v)

/-- Witness of C8 on `dims = (4, 0, 5)` with the indicator of the volume as
oracle. -/
theorem greedy_remesher_zero_dim_witness :
    greedy_remesher ⟨4, 0, 5⟩
      (fun p => decide (0 ≤ p.x ∧ p.x < 4 ∧ 0 ≤ p.y ∧ p.y < 0 ∧ 0 ≤ p.z ∧ p.z < 5))
      = some [] :=
  greedy_remesher_zero_dim ⟨4, 0, 5⟩ _ ⟨by decide, by decide, by decide⟩
    (Or.inr (Or.inl rfl)) (fun p _ => by simp; omega)

/-- Counterexample to C8 as stated for every `dims` with a zero dimension.
For `dims = (0, 65536, 65536)` and the oracle that is `false` everywhere
(hence outside the volume), the mask of the sweep along axis `0` is allocated
with `65536 * 65536 mod 2 ^ 32 = 0` cells, its first write is outside the
vector, and no quad list is returned. -/
theorem zero_dim_fails_on_wrapped_mask :
    (∀ p, OutsideVolume ⟨0, 65536, 65536⟩ p → (fun _ : IVec3 => false) p = false) ∧
      greedy_remesher ⟨0, 65536, 65536⟩ (fun _ => false) = none ∧
      ¬ greedy_remesher ⟨0, 65536, 65536⟩ (fun _ => false) = some [] := by
  refine ⟨fun _ _ => rfl, greedy_none_overflow _, ?_⟩
  rw [greedy_none_overflow]
  intro hc
  cases hc

/-- C9, amended (zero dimension along the normal axis). When `dims[norm] = 0`
and the mask size `dims[tan] * dims[biTan]` is below `2 ^ 32`, the sweep along
`norm` processes exactly one slice, slice `0` (which is also the cap); it
returns its quads, and they are none exactly when the two oracle samples
compared at lines 66-70 agree on every in-plane cell of that slice, in
particular for every oracle that is `false` outside the volume. -/
theorem sweep_zero_normal_dim (dims : UVec3) (map_fn : IVec3 → Bool) (norm : Nat)
    (hn : norm < 3) (h0 : dims.get norm = 0)
    (h32 : dims.get (tanAxis norm) * dims.get (biTanAxis norm) < 2 ^ 32) :
    sliceRange dims norm = [0] ∧
      ∃ quads, sweep dims map_fn norm = some quads ∧
        (quads = [] ↔ ∀ u v, u < dims.get (tanAxis norm) → v < dims.get (biTanAxis norm) →
          maskBit map_fn norm 0 u v = false) ∧
        ((∀ p, OutsideVolume dims p → map_fn p = false) → quads = []) := by
  obtain ⟨faces, h1, h2, h3, _⟩ := sweep_spec dims map_fn hn h32
  have hiff : faces.map Face.quad = [] ↔ ∀ u v, u < dims.get (tanAxis norm) →
      v < dims.get (biTanAxis norm) → maskBit map_fn norm 0 u v = false := by
    constructor
    · intro hnil u v hu hv
      have hf : faces = [] := List.map_eq_nil_iff.mp hnil
      have := h3 0 u v (Nat.zero_le _) hu hv
      rw [hf] at this
      cases hb : maskBit map_fn norm 0 u v with
      | false => rfl
      | true => rw [hb] at this; simp [b2n] at this
    · intro hall
      cases faces with
      | nil => rfl
      | cons t rest =>
        exfalso
        obtain ⟨a, b, c1, c2, c3, c4⟩ := h2 t (List.mem_cons_self _ _)
        have hs : t.slice = 0 := by omega
        have h5 := h3 0 t.rect.x t.rect.y (Nat.zero_le _) (by omega) (by omega)
        rw [hall _ _ (by omega) (by omega)] at h5
        have h6 : (t :: rest).countP (fun q => q.covers norm 0 t.rect.x t.rect.y) = 0 := h5
        rw [List.countP_eq_zero] at h6
        apply h6 t (List.mem_cons_self _ _)
        simp only [Face.covers, Rect.covers, Bool.and_eq_true, decide_eq_true_eq, a, hs,
          and_self, le_refl, true_and]
        omega
  refine ⟨by rw [sliceRange, h0]; rfl, faces.map Face.quad, h1, hiff, ?_⟩
  intro hf
  apply hiff.mpr
  intro u v _ _
  apply maskBit_of_const
  intro p
  apply hf
  unfold OutsideVolume
  obtain rfl | rfl | rfl : norm = 0 ∨ norm = 1 ∨ norm = 2 := by omega
  all_goals
    simp only [UVec3.get] at h0
    rw [h0]
    omega

/-- Witness of C9 on `dims = (0, 2, 3)` and the sweep along axis `0`. -/
theorem sweep_zero_normal_dim_witness :
    sliceRange ⟨0, 2, 3⟩ 0 = [0] ∧
      ∃ quads, sweep ⟨0, 2, 3⟩ (fun p => decide (p = ⟨0, 1, 2⟩)) 0 = some quads ∧
        (quads = [] ↔ ∀ u v, u < UVec3.get ⟨0, 2, 3⟩ (tanAxis 0) →
          v < UVec3.get ⟨0, 2, 3⟩ (biTanAxis 0) →
          maskBit (fun p => decide (p = ⟨0, 1, 2⟩)) 0 0 u v = false) ∧
        ((∀ p, OutsideVolume ⟨0, 2, 3⟩ p → (fun p => decide (p = ⟨0, 1, 2⟩)) p = false) →
          quads = []) :=
  sweep_zero_normal_dim ⟨0, 2, 3⟩ (fun p => decide (p = ⟨0, 1, 2⟩)) 0 (by decide) rfl
    (by decide)

/-- Counterexample to C9 as stated. For `dims = (0, 1, 1)` the sweep along
axis `0` visits one slice (slice `0`), and with the oracle that is `true`
exactly at `(0, 0, 0)` it samples `(0, 0, 0)` and `(-1, 0, 0)`, finds them
different and contributes one quad. -/
theorem zero_normal_dim_still_sweeps_cap :
    UVec3.get ⟨0, 1, 1⟩ 0 = 0 ∧ sliceRange ⟨0, 1, 1⟩ 0 = [0] ∧
      sweep ⟨0, 1, 1⟩ (fun p => decide (p = ⟨0, 0, 0⟩)) 0
        = some [⟨⟨0, 0, 0⟩, ⟨0, 1, 0⟩, ⟨0, 1, 1⟩, ⟨0, 0, 1⟩⟩] := by
  decide

/-- C10, amended (output order). For all `dims` whose components are below
`2 ^ 31` and whose three mask sizes `dims[tan] * dims[biTan]` are below
`2 ^ 32`, and every oracle: `greedy_remesher` returns a list along which the
key (normal axis, slice, bitangent coordinate `y` of the base corner, tangent
coordinate `x` of the base corner) is strictly increasing in lexicographic
order, with every slice value in `0 .. dims[norm]`; in particular no two
output quads have the same axis, slice and base corner. -/
theorem greedy_remesher_output_ordered (dims : UVec3) (map_fn : IVec3 → Bool)
    (hc : CoordsFit dims) (hm : MaskFits dims) : OutputOrdered dims map_fn := by
  obtain ⟨faces, h1, h2, _, h4⟩ := greedy_spec dims map_fn hm
  have hord : (faces.map Face.quad).Pairwise quadKeyLt := by
    rw [List.pairwise_map]
    exact h4.imp_of_mem (fun {a b} ha hb hab => quadKeyLt_of_before hc (h2 a ha) (h2 b hb) hab)
  refine ⟨faces.map Face.quad, h1, hord, ?_, hord.imp (fun h => quadKeyLt_ne h)⟩
  · intro q hq
    obtain ⟨t, ht, rfl⟩ := List.mem_map.mp hq
    obtain ⟨a1, a2, _, _⟩ := face_key hc (h2 t ht).1 (h2 t ht).2.1 (h2 t ht).2.2
    rw [a1, a2]
    have := (h2 t ht).2.1
    omega

/-- Witness of C10 on the single voxel of a 1 x 1 x 1 volume. -/
theorem greedy_remesher_output_ordered_witness :
    CoordsFit ⟨1, 1, 1⟩ ∧ MaskFits ⟨1, 1, 1⟩ ∧
      OutputOrdered ⟨1, 1, 1⟩ (fun p => decide (p = ⟨0, 0, 0⟩)) :=
  ⟨⟨by decide, by decide, by decide⟩, ⟨by decide, by decide, by decide⟩,
    greedy_remesher_output_ordered ⟨1, 1, 1⟩ (fun p => decide (p = ⟨0, 0, 0⟩))
      ⟨by decide, by decide, by decide⟩ ⟨by decide, by decide, by decide⟩⟩

/-- Counterexample to C10 as stated for all `dims`. For `dims = (65536, 0,
65536)` the mask of the sweep along axis `1` is allocated with
`65536 * 65536 mod 2 ^ 32 = 0` cells and no quad list is returned. For
`dims = (2 ^ 31, 1, 1)` and the oracle that is `true` exactly at
`x = INT_MIN`, the quad of the cap slice `2 ^ 31` is in the output with slice
coordinate `-2 ^ 31`, outside `0 .. dims[norm]`. -/
theorem output_order_fails_outside_32_bits :
    ¬ OutputOrdered ⟨65536, 0, 65536⟩ (fun _ => false) ∧
      ¬ OutputOrdered ⟨2 ^ 31, 1, 1⟩ atIntMin := by
  constructor
  · rintro ⟨quads, h, _⟩
    rw [greedy_none_of_sweep_none _ _ (by decide : 1 < 3)
      (sweep_none_of_empty_mask _ _ 1 (by decide) (by decide) (by decide))] at h
    cases h
  · rintro ⟨quads, h, _, hrange, _⟩
    obtain ⟨faces, h1, h2, h3, _⟩ := greedy_spec ⟨2 ^ 31, 1, 1⟩ atIntMin
      ⟨by decide, by decide, by decide⟩
    rw [h1] at h
    cases h
    have hbit : maskBit atIntMin 0 (2 ^ 31) 0 0 = true := by decide
    have hcnt := h3 0 (2 ^ 31) 0 0 (by decide) (le_refl _) (by decide) (by decide)
    rw [hbit] at hcnt
    have hpos : 0 < faces.countP (fun t => t.covers 0 (2 ^ 31) 0 0) := by
      rw [hcnt]; decide
    obtain ⟨t, ht, hcov⟩ := List.countP_pos_iff.mp hpos
    obtain ⟨_, _, hin⟩ := h2 t ht
    have hq := hrange t.quad (List.mem_map.mpr ⟨t, ht, rfl⟩)
    obtain ⟨tn, ts, ⟨x, y, w, h⟩⟩ := t
    simp only [Face.covers, Rect.covers, Bool.and_eq_true, decide_eq_true_eq] at hcov
    obtain ⟨⟨rfl, rfl⟩, hx1, hx2, hy1, hy2⟩ := hcov
    have e1 : UVec3.get ⟨2 ^ 31, 1, 1⟩ (tanAxis 0) = 1 := rfl
    have e2 : UVec3.get ⟨2 ^ 31, 1, 1⟩ (biTanAxis 0) = 1 := rfl
    simp only [Rect.inside, e1, e2] at hin
    obtain rfl : x = 0 := by omega
    obtain rfl : y = 0 := by omega
    obtain rfl : w = 1 := by omega
    obtain rfl : h = 1 := by omega
    revert hq
    decide

/-! ## Runs that cannot be told apart -/

theorem foldlM_range_congr {α : Type} (f g : α → Nat → Option α) (n : Nat)
    (h : ∀ i a, i < n → f a i = g a i) (a0 : α) :
    (List.range n).foldlM f a0 = (List.range n).foldlM g a0 := by
  induction n with
  | zero => rfl
  | succ n ih =>
    rw [List.range_succ, List.foldlM_append, List.foldlM_append,
      ih (fun i a hi => h i a (Nat.lt_succ_of_lt hi))]
    cases (List.range n).foldlM g a0 with
    | none => rfl
    | some a1 =>
      show List.foldlM f a1 [n] = List.foldlM g a1 [n]
      rw [List.foldlM_cons, List.foldlM_cons, h n a1 (Nat.lt_succ_self n)]
      rfl

theorem fillMask_congr (dims : UVec3) (f g : IVec3 → Bool) (norm slice : Nat)
    (h : ∀ u v, u < dims.get (tanAxis norm) → v < dims.get (biTanAxis norm) →
      maskBit f norm slice u v = maskBit g norm slice u v) (m : Mask) :
    fillMask dims f norm slice m = fillMask dims g norm slice m := by
  unfold fillMask
  apply foldlM_range_congr
  intro v a hv
  apply foldlM_range_congr
  intro u b hu
  simp only [h u v hu hv]

theorem sweep_congr (dims : UVec3) (f g : IVec3 → Bool) (norm : Nat)
    (h : ∀ s u v, s ≤ dims.get norm → u < dims.get (tanAxis norm) →
      v < dims.get (biTanAxis norm) → maskBit f norm s u v = maskBit g norm s u v) :
    sweep dims f norm = sweep dims g norm := by
  have hs : ∀ m, sweepFrom dims f norm (sliceRange dims norm) m
      = sweepFrom dims g norm (sliceRange dims norm) m := by
    intro m
    unfold sweepFrom sliceRange
    apply foldlM_range_congr
    intro s a hs
    simp only [sliceQuads, fillMask_congr dims f g norm s (fun u v hu hv =>
      h s u v (by omega) hu hv)]
  rw [sweep, sweep, hs]

theorem greedy_congr (dims : UVec3) (f g : IVec3 → Bool)
    (h : ∀ norm s u v, norm < 3 → s ≤ dims.get norm → u < dims.get (tanAxis norm) →
      v < dims.get (biTanAxis norm) → maskBit f norm s u v = maskBit g norm s u v) :
    greedy_remesher dims f = greedy_remesher dims g := by
  rw [greedy_remesher_eq, greedy_remesher_eq,
    sweep_congr dims f g 0 (fun s u v => h 0 s u v (by omega)),
    sweep_congr dims f g 1 (fun s u v => h 1 s u v (by omega)),
    sweep_congr dims f g 2 (fun s u v => h 2 s u v (by omega))]

/-- C13 (orientation symmetry). For all `dims` and every oracle `f`,
`greedy_remesher dims f` and `greedy_remesher dims (not f)` give the identical
result, the same quads in the same order: the mask bit of lines 66-70 only
records that the two samples differ. -/
theorem greedy_remesher_negated_oracle (dims : UVec3) (map_fn : IVec3 → Bool) :
    greedy_remesher dims (fun p => !map_fn p) = greedy_remesher dims map_fn := by
  apply greedy_congr
  intro norm s u v _ _ _ _
  simp only [maskBit, Bool.not_bne_not]

/-- C15 (mask fully consumed). For every mask of size `W x H` (a vector with
a 32-bit size, as in C2), the merge scan returns and leaves a mask of the same
size in which every cell is `false`. -/
theorem mergeMask_leaves_all_false (W H : Nat) (mask : Mask)
    (hsize : mask.length = W * H) (h32 : mask.length < 2 ^ 32) :
    ∃ rects left, mergeMask W H mask = some (rects, left) ∧
      left = List.replicate (W * H) false := by
  have h32' : W * H < 2 ^ 32 := hsize ▸ h32
  obtain ⟨rects, left, h1, h2, _, _, _, h6, _⟩ := mergeMask_cover hsize h32'
  refine ⟨rects, left, h1, ?_⟩
  rw [List.eq_replicate_iff]
  refine ⟨h2.trans hsize, ?_⟩
  intro b hb
  have hc := count_true_eq_zero (h2.trans hsize) h6
  rw [List.count_eq_zero] at hc
  cases b with
  | false => rfl
  | true => exact absurd hb hc

/-- Witness of C15 on the 2 x 2 mask with rows `[1, 1]` and `[0, 1]`. -/
theorem mergeMask_leaves_all_false_witness :
    ∃ rects left, mergeMask 2 2 [true, true, false, true] = some (rects, left) ∧
      left = List.replicate (2 * 2) false :=
  mergeMask_leaves_all_false 2 2 [true, true, false, true] (by decide) (by decide)

/-! ## The scan follows the greedy rule -/

theorem greedyStep_congr {W H : Nat} {g g' : Nat → Nat → Bool} {r : Rect}
    (he : ∀ u v, u < W → v < H → g u v = g' u v) (h : GreedyStep W H g r) :
    GreedyStep W H g' r := by
  have h1 := h.wpos
  have h2 := h.hpos
  have h3 := h.inW
  have h4 := h.inH
  refine ⟨?_, h1, h2, h3, h4, ?_, ?_, ?_⟩
  · intro u v hu hv hb
    rw [← he u v hu hv]
    exact h.first u v hu hv hb
  · intro l k hl hk
    rw [← he _ _ (by omega) (by omega)]
    exact h.full l k hl hk
  · intro hlt
    rw [← he _ _ hlt (by omega)]
    exact h.wstop hlt
  · intro hlt
    obtain ⟨k, hk, hb⟩ := h.hstop hlt
    refine ⟨k, hk, ?_⟩
    rw [← he _ _ (by omega) hlt]
    exact hb

theorem greedyRun_congr {W H : Nat} {g : Nat → Nat → Bool} {rects : List Rect}
    (h : GreedyRun W H g rects) :
    ∀ g' : Nat → Nat → Bool, (∀ u v, u < W → v < H → g u v = g' u v) →
      GreedyRun W H g' rects := by
  induction h with
  | done g hall =>
    intro g' he
    exact GreedyRun.done g' (fun u v hu hv => by rw [← he u v hu hv]; exact hall u v hu hv)
  | step g r rest hstep _ ih =>
    intro g' he
    refine GreedyRun.step g' r rest (greedyStep_congr he hstep) (ih _ ?_)
    intro u v hu hv
    simp only [clearGrid, he u v hu hv]

theorem scanRow_greedy {W H y : Nat} (h32 : W * H < 2 ^ 32) (hy : y < H) (fuel : Nat) :
    ∀ x (m : Mask), W - x < fuel → m.length = W * H →
      (∀ u v, u < W → v < H → (v < y ∨ (v = y ∧ u < x)) → bit m W u v = false) →
      ∃ rects m', scanRow W H y fuel x m = some (rects, m') ∧
        ∀ tail, GreedyRun W H (bit m' W) tail → GreedyRun W H (bit m W) (rects ++ tail) := by
  induction fuel with
  | zero => intro x m hf; omega
  | succ fuel ih =>
    intro x m hf hlen hpre
    unfold scanRow
    by_cases hx : x < W
    · rw [if_pos hx, maskGet_bit hlen h32 hx hy]
      cases hb : bit m W x y with
      | false =>
        obtain ⟨rects, m', h1, h2⟩ := ih (x + 1) m (by omega) hlen (by
          intro u v hu hv hc
          by_cases he : v = y ∧ u = x
          · rw [he.1, he.2]; exact hb
          · exact hpre u v hu hv (by omega))
        exact ⟨rects, m', h1, h2⟩
      | true =>
        obtain ⟨w, hw, hw1, hw2, hw3, hw4⟩ := growWidth_spec (x := x) hlen h32 hy W 1
          (by omega) (by omega) (by
            intro k hk
            have : k = 0 := by omega
            subst this
            simpa using hb)
        obtain ⟨h, hh, hh1, hh2, hh3, hh4⟩ := growHeight_spec (y := y) hlen h32 hw2 H 1
          (by omega) (by omega) (by
            intro l k hl hk
            have : l = 0 := by omega
            subst this
            simpa using hw3 k hk)
        obtain ⟨m1, hc, hc1, hc2, _⟩ := clearRect_spec (m := m) hlen h32 hw2 hh2
        obtain ⟨rects, m', h1, h2⟩ := ih (x + w) m1 (by omega) (hc1.trans hlen) (by
          intro u v hu hv hcase
          rw [hc2 u v hu hv]
          by_cases hcov : Rect.covers ⟨x, y, w, h⟩ u v = true
          · simp [hcov]
          · have hcov' := hcov
            simp only [Rect.covers, decide_eq_true_eq] at hcov'
            rw [hpre u v hu hv (by omega)]
            rfl)
        refine ⟨⟨x, y, w, h⟩ :: rects, m', ?_, ?_⟩
        · simp only [hw, hh, hc, h1]
        · intro tail ht
          have hstep : GreedyStep W H (bit m W) ⟨x, y, w, h⟩ :=
            ⟨hpre, hw1, hh1, hw2, hh2, hh3, hw4, hh4⟩
          refine GreedyRun.step _ _ _ hstep ?_
          exact greedyRun_congr (h2 tail ht) _ (fun u v hu hv => by
            simp only [clearGrid, hc2 u v hu hv])
    · rw [if_neg hx]
      exact ⟨[], m, rfl, fun tail ht => ht⟩

theorem mergeMask_greedy {W H : Nat} {m : Mask} (hlen : m.length = W * H)
    (h32 : W * H < 2 ^ 32) :
    ∃ rects m', mergeMask W H m = some (rects, m') ∧ GreedyRun W H (bit m W) rects := by
  have key := foldlM_range_inv
    (fun (acc : List Rect × Mask) y =>
      match scanRow W H y (W + 1) 0 acc.2 with
      | none => none
      | some (rs, m) => some (acc.1 ++ rs, m))
    (fun y acc => acc.2.length = m.length ∧
      (∀ u v, u < W → v < H → v < y → bit acc.2 W u v = false) ∧
      (∀ tail, GreedyRun W H (bit acc.2 W) tail → GreedyRun W H (bit m W) (acc.1 ++ tail)))
    H ([], m)
    ⟨rfl, fun _ _ _ _ h => (by omega), fun tail ht => ht⟩
    (by
      rintro y ⟨acc, m1⟩ hy ⟨hl, hclr, hrun⟩
      simp only at hl hclr hrun
      obtain ⟨rs, m2, h1, h2, _, _, h5⟩ :=
        scanRow_spec h32 hy (W + 1) 0 m1 (by omega) (hl.trans hlen)
      obtain ⟨rs', m2', h1', hg⟩ :=
        scanRow_greedy h32 hy (W + 1) 0 m1 (by omega) (hl.trans hlen) (by
          intro u v hu hv hc
          exact hclr u v hu hv (by omega))
      rw [h1] at h1'
      cases h1'
      refine ⟨(acc ++ rs, m2), ?_, h2.len.trans hl, ?_, ?_⟩
      · simp only [h1]
      · intro u v hu hv hlt
        by_cases hc : v = y
        · subst hc
          exact h5 u (Nat.zero_le _) hu
        · exact scanPost_mono h2 hu hv (hclr u v hu hv (by omega))
      · intro tail ht
        rw [List.append_assoc]
        exact hrun _ (hg tail ht))
  obtain ⟨⟨rects, m'⟩, h1, _, h3, h4⟩ := key
  refine ⟨rects, m', h1, ?_⟩
  have := h4 [] (GreedyRun.done _ (fun u v hu hv => h3 u v hu hv hv))
  simpa using this

theorem greedyStep_anchor {W H : Nat} {g : Nat → Nat → Bool} {r : Rect}
    (h : GreedyStep W H g r) : r.x < W ∧ r.y < H ∧ g r.x r.y = true := by
  have h1 := h.wpos
  have h2 := h.hpos
  have h3 := h.inW
  have h4 := h.inH
  have h5 := h.full 0 0 (by omega) (by omega)
  simp only [Nat.add_zero] at h5
  exact ⟨by omega, by omega, h5⟩

theorem greedyStep_unique {W H : Nat} {g : Nat → Nat → Bool} {r1 r2 : Rect}
    (h1 : GreedyStep W H g r1) (h2 : GreedyStep W H g r2) : r1 = r2 := by
  obtain ⟨a1, a2, a3⟩ := greedyStep_anchor h1
  obtain ⟨b1, b2, b3⟩ := greedyStep_anchor h2
  have hy : r1.y = r2.y := by
    by_contra hne
    rcases Nat.lt_or_gt_of_ne hne with hlt | hlt
    · have := h2.first r1.x r1.y a1 a2 (Or.inl hlt)
      rw [a3] at this; cases this
    · have := h1.first r2.x r2.y b1 b2 (Or.inl hlt)
      rw [b3] at this; cases this
  have hx : r1.x = r2.x := by
    by_contra hne
    rcases Nat.lt_or_gt_of_ne hne with hlt | hlt
    · have := h2.first r1.x r1.y a1 a2 (Or.inr ⟨hy, hlt⟩)
      rw [a3] at this; cases this
    · have := h1.first r2.x r2.y b1 b2 (Or.inr ⟨hy.symm, hlt⟩)
      rw [b3] at this; cases this
  have hw : r1.w = r2.w := by
    by_contra hne
    have i1 := h1.inW
    have i2 := h2.inW
    have p2 := h2.hpos
    have p1 := h1.hpos
    rcases Nat.lt_or_gt_of_ne hne with hlt | hlt
    · have e1 := h1.wstop (by omega)
      have e2 := h2.full 0 r1.w p2 hlt
      rw [Nat.add_zero, ← hx, ← hy, e1] at e2
      cases e2
    · have e1 := h2.wstop (by omega)
      have e2 := h1.full 0 r2.w p1 hlt
      rw [Nat.add_zero, hx, hy, e1] at e2
      cases e2
  have hh : r1.h = r2.h := by
    by_contra hne
    have i1 := h1.inH
    have i2 := h2.inH
    rcases Nat.lt_or_gt_of_ne hne with hlt | hlt
    · obtain ⟨k, hk, e1⟩ := h1.hstop (by omega)
      have e2 := h2.full r1.h k hlt (by omega)
      rw [← hx, ← hy, e1] at e2
      cases e2
    · obtain ⟨k, hk, e1⟩ := h2.hstop (by omega)
      have e2 := h1.full r2.h k hlt (by omega)
      rw [hx, hy, e1] at e2
      cases e2
  cases r1
  cases r2
  simp only at hx hy hw hh
  simp only [Rect.mk.injEq]
  exact ⟨hx, hy, hw, hh⟩

theorem greedyRun_unique {W H : Nat} {g : Nat → Nat → Bool} {l1 : List Rect}
    (h1 : GreedyRun W H g l1) : ∀ l2, GreedyRun W H g l2 → l1 = l2 := by
  induction h1 with
  | done g hall =>
    intro l2 h2
    cases h2 with
    | done _ _ => rfl
    | step _ r rest hs _ =>
      obtain ⟨a1, a2, a3⟩ := greedyStep_anchor hs
      rw [hall _ _ a1 a2] at a3
      cases a3
  | step g r rest hs _ ih =>
    intro l2 h2
    cases h2 with
    | done _ hall =>
      obtain ⟨a1, a2, a3⟩ := greedyStep_anchor hs
      rw [hall _ _ a1 a2] at a3
      cases a3
    | step _ r' rest' hs' hrun' =>
      have he := greedyStep_unique hs hs'
      subst he
      rw [ih rest' hrun']

theorem greedyRun_cells {W H : Nat} {g : Nat → Nat → Bool} {l : List Rect}
    (h : GreedyRun W H g l) :
    ∀ r ∈ l, r.x + r.w ≤ W ∧ r.y + r.h ≤ H ∧ 1 ≤ r.w ∧ 1 ≤ r.h ∧
      ∀ u v, r.covers u v = true → g u v = true := by
  induction h with
  | done g _ => intro r hr; cases hr
  | step g r0 rest hs _ ih =>
    intro r hr
    rcases List.mem_cons.mp hr with rfl | hr
    · refine ⟨hs.inW, hs.inH, hs.wpos, hs.hpos, ?_⟩
      intro u v hc
      simp only [Rect.covers, decide_eq_true_eq] at hc
      have := hs.full (v - r.y) (u - r.x) (by omega) (by omega)
      rwa [show r.x + (u - r.x) = u by omega, show r.y + (v - r.y) = v by omega] at this
    · obtain ⟨a, b, c, d, e⟩ := ih r hr
      refine ⟨a, b, c, d, ?_⟩
      intro u v hc
      have := e u v hc
      simp only [clearGrid, Bool.and_eq_true] at this
      exact this.1

theorem greedyRun_not_mergeable {W H : Nat} {g : Nat → Nat → Bool} {l : List Rect}
    (h : GreedyRun W H g l) : l.Pairwise (fun r1 r2 => ¬ r1.mergeable r2) := by
  induction h with
  | done g _ => exact List.Pairwise.nil
  | step g r rest hs hrun ih =>
    refine List.pairwise_cons.mpr ⟨?_, ih⟩
    intro r' hr' hm
    obtain ⟨a, b, c, d, e⟩ := greedyRun_cells hrun r' hr'
    have i1 := hs.inW
    have i2 := hs.inH
    have p1 := hs.wpos
    have p2 := hs.hpos
    have hcell : ∀ u v, r'.covers u v = true → g u v = true := by
      intro u v hc
      have := e u v hc
      simp only [clearGrid, Bool.and_eq_true] at this
      exact this.1
    have hanchor : g r'.x r'.y = true :=
      hcell _ _ (by simp only [Rect.covers, decide_eq_true_eq]; omega)
    rcases hm with ⟨hy, hh, hadj | hadj⟩ | ⟨hx, hw, hadj | hadj⟩
    · have := hs.wstop (by omega)
      rw [hadj, hy, hanchor] at this
      cases this
    · have := hs.first r'.x r'.y (by omega) (by omega) (Or.inr ⟨hy.symm, by omega⟩)
      rw [hanchor] at this
      cases this
    · obtain ⟨k, hk, hf⟩ := hs.hstop (by omega)
      have := hcell (r.x + k) (r.y + r.h)
        (by simp only [Rect.covers, decide_eq_true_eq]; omega)
      rw [hf] at this
      cases this
    · have := hs.first r'.x r'.y (by omega) (by omega) (Or.inl (by omega))
      rw [hanchor] at this
      cases this

theorem greedyRun_maximal {W H : Nat} {g : Nat → Nat → Bool} {l : List Rect}
    (h : GreedyRun W H g l) :
    ∀ pre r post, l = pre ++ r :: post → ∀ big : Rect, big.contains r → big ≠ r →
      ∃ u v, big.covers u v = true ∧
        ¬ (u < W ∧ v < H ∧ g u v = true ∧ ∀ r' ∈ pre, r'.covers u v = false) := by
  induction h with
  | done g _ =>
    intro pre r post he
    cases pre <;> cases he
  | step g r0 rest hs _ ih =>
    intro pre r post he big hc hne
    cases pre with
    | nil =>
      simp only [List.nil_append, List.cons.injEq] at he
      obtain ⟨rfl, _⟩ := he
      have i1 := hs.inW
      have i2 := hs.inH
      have p1 := hs.wpos
      have p2 := hs.hpos
      obtain ⟨c1, c2, c3, c4⟩ := hc
      by_cases hup : big.y < r0.y
      · refine ⟨r0.x, big.y, by simp only [Rect.covers, decide_eq_true_eq]; omega, ?_⟩
        rintro ⟨hu, hv, hg, _⟩
        rw [hs.first _ _ hu hv (Or.inl hup)] at hg
        cases hg
      by_cases hleft : big.x < r0.x
      · refine ⟨big.x, r0.y, by simp only [Rect.covers, decide_eq_true_eq]; omega, ?_⟩
        rintro ⟨hu, hv, hg, _⟩
        rw [hs.first _ _ hu hv (Or.inr ⟨rfl, hleft⟩)] at hg
        cases hg
      by_cases hright : r0.x + r0.w < big.x + big.w
      · refine ⟨r0.x + r0.w, r0.y, by simp only [Rect.covers, decide_eq_true_eq]; omega, ?_⟩
        rintro ⟨hu, hv, hg, _⟩
        rw [hs.wstop hu] at hg
        cases hg
      have hdown : r0.y + r0.h < big.y + big.h := by
        by_contra hcon
        apply hne
        cases big
        cases r0
        simp only [Rect.mk.injEq] at *
        omega
      by_cases hin : r0.y + r0.h < H
      · obtain ⟨k, hk, hf⟩ := hs.hstop hin
        refine ⟨r0.x + k, r0.y + r0.h,
          by simp only [Rect.covers, decide_eq_true_eq]; omega, ?_⟩
        rintro ⟨hu, hv, hg, _⟩
        rw [hf] at hg
        cases hg
      · refine ⟨r0.x, r0.y + r0.h, by simp only [Rect.covers, decide_eq_true_eq]; omega, ?_⟩
        rintro ⟨hu, hv, _, _⟩
        omega
    | cons p0 pre' =>
      simp only [List.cons_append, List.cons.injEq] at he
      obtain ⟨rfl, he'⟩ := he
      obtain ⟨u, v, hcov, hnot⟩ := ih pre' r post he' big hc hne
      refine ⟨u, v, hcov, ?_⟩
      rintro ⟨hu, hv, hg, hpre⟩
      apply hnot
      refine ⟨hu, hv, ?_, fun r' hr' => hpre r' (List.mem_cons_of_mem _ hr')⟩
      simp only [clearGrid, hg, hpre r0 (List.mem_cons_self _ _), Bool.not_false,
        Bool.and_self]

/-! ## The reference procedure follows the greedy rule -/

theorem takeWhile_range_length (n : Nat) :
    ∀ (p : Nat → Bool) (N : Nat), n ≤ N → (∀ k, k < n → p k = true) →
      (n < N → p n = false) → ((List.range N).takeWhile p).length = n := by
  induction n with
  | zero =>
    intro p N _ _ hf
    cases N with
    | zero => rfl
    | succ N =>
      rw [List.range_succ_eq_map, List.takeWhile_cons, hf (Nat.succ_pos N)]
      rfl
  | succ n ih =>
    intro p N hle ht hf
    cases N with
    | zero => omega
    | succ N =>
      rw [List.range_succ_eq_map, List.takeWhile_cons, ht 0 (Nat.succ_pos n), if_pos rfl,
        List.length_cons, List.takeWhile_map, List.length_map,
        ih (p ∘ Nat.succ) N (by omega) (fun k hk => ht (k + 1) (by omega))
          (fun hlt => hf (by omega))]

theorem firstTrue_eq_none (l : List Bool) (h : ∀ i, i < l.length → l.getD i false = false) :
    firstTrue l = none := by
  induction l with
  | nil => rfl
  | cons b t ih =>
    have h0 := h 0 (Nat.succ_pos _)
    simp only [List.getD_cons_zero] at h0
    subst h0
    have := ih (fun i hi => by
      have := h (i + 1) (Nat.succ_lt_succ hi)
      simpa using this)
    simp only [firstTrue, this, Option.map_none']

theorem firstTrue_eq_some (l : List Bool) :
    ∀ i, i < l.length → l.getD i false = true → (∀ j, j < i → l.getD j false = false) →
      firstTrue l = some i := by
  induction l with
  | nil => intro i hi; simp at hi
  | cons b t ih =>
    intro i hi ht hf
    cases i with
    | zero =>
      simp only [List.getD_cons_zero] at ht
      subst ht
      rfl
    | succ i =>
      have h0 := hf 0 (Nat.succ_pos _)
      simp only [List.getD_cons_zero] at h0
      subst h0
      have := ih i (by simpa using hi) (by simpa using ht) (fun j hj => by
        have := hf (j + 1) (Nat.succ_lt_succ hj)
        simpa using this)
      simp only [firstTrue, this, Option.map_some']

theorem cell_of_index {W H i : Nat} (hi : i < W * H) :
    i % W < W ∧ i / W < H ∧ i / W * W + i % W = i := by
  have hW : 0 < W := by
    rcases Nat.eq_zero_or_pos W with h | h
    · subst h; simp at hi
    · exact h
  refine ⟨Nat.mod_lt _ hW, Nat.div_lt_of_lt_mul hi, ?_⟩
  rw [Nat.mul_comm]
  exact Nat.div_add_mod i W

theorem index_of_cell {W u v : Nat} (hu : u < W) :
    (v * W + u) % W = u ∧ (v * W + u) / W = v := by
  have hW : 0 < W := by omega
  constructor
  · rw [Nat.add_comm, Nat.add_mul_mod_self_right, Nat.mod_eq_of_lt hu]
  · rw [Nat.add_comm, Nat.add_mul_div_right _ _ hW, Nat.div_eq_of_lt hu, Nat.zero_add]

theorem refClear_bit {W H : Nat} {mask : Mask} (hlen : mask.length = W * H) (r : Rect)
    {u v : Nat} (hu : u < W) (hv : v < H) :
    bit (refClear mask W r) W u v = clearGrid (bit mask W) r u v := by
  have hi : v * W + u < mask.length := hlen ▸ idx_lt hu hv
  obtain ⟨e1, e2⟩ := index_of_cell (v := v) hu
  simp only [bit, clearGrid, refClear, List.getD_eq_getElem?_getD, List.getElem?_map,
    List.getElem?_range hi, Option.map_some', Option.getD_some, e1, e2]

theorem refWidth_eq {W H : Nat} {mask : Mask} {r : Rect}
    (h : GreedyStep W H (bit mask W) r) : refWidth mask W r.x r.y = r.w := by
  have i1 := h.inW
  unfold refWidth
  apply takeWhile_range_length _ _ _ (by omega)
  · intro k hk
    have := h.full 0 k h.hpos hk
    simpa using this
  · intro hlt
    exact h.wstop (by omega)

theorem refHeight_eq {W H : Nat} {mask : Mask} {r : Rect}
    (h : GreedyStep W H (bit mask W) r) : refHeight mask W H r.x r.y r.w = r.h := by
  have i2 := h.inH
  unfold refHeight
  apply takeWhile_range_length _ _ _ (by omega)
  · intro l hl
    rw [List.all_eq_true]
    intro k hk
    exact h.full l k hl (List.mem_range.mp hk)
  · intro hlt
    obtain ⟨k, hk, hf⟩ := h.hstop (by omega)
    rw [← Bool.not_eq_true, List.all_eq_true]
    intro hall
    have := hall k (List.mem_range.mpr hk)
    rw [hf] at this
    cases this

theorem firstTrue_of_step {W H : Nat} {mask : Mask} (hlen : mask.length = W * H) {r : Rect}
    (h : GreedyStep W H (bit mask W) r) : firstTrue mask = some (r.y * W + r.x) := by
  obtain ⟨a1, a2, a3⟩ := greedyStep_anchor h
  apply firstTrue_eq_some
  · exact hlen ▸ idx_lt a1 a2
  · exact a3
  · intro j hj
    have hjlt : j < W * H := lt_trans hj (idx_lt a1 a2)
    obtain ⟨c1, c2, c3⟩ := cell_of_index hjlt
    have hdiv : j / W ≤ r.y := by
      have := Nat.div_le_div_right (c := W) (Nat.le_of_lt hj)
      rwa [(index_of_cell (v := r.y) a1).2] at this
    have hcase : j / W < r.y ∨ (j / W = r.y ∧ j % W < r.x) := by
      by_cases he : j / W = r.y
      · right
        refine ⟨he, ?_⟩
        rw [he] at c3
        omega
      · left; omega
    have := h.first (j % W) (j / W) c1 c2 hcase
    simpa only [bit, c3] using this

theorem referenceMerge_of_greedyRun {W H : Nat} {g : Nat → Nat → Bool} {rects : List Rect}
    (h : GreedyRun W H g rects) :
    ∀ (mask : Mask), mask.length = W * H →
      (∀ u v, u < W → v < H → bit mask W u v = g u v) →
      ∀ fuel, rects.length ≤ fuel → referenceMerge W H fuel mask = some rects := by
  induction h with
  | done g hall =>
    intro mask hlen hbits fuel _
    have hnone : firstTrue mask = none := by
      apply firstTrue_eq_none
      intro i hi
      obtain ⟨c1, c2, c3⟩ := cell_of_index (hlen ▸ hi)
      have := hbits _ _ c1 c2
      rw [hall _ _ c1 c2] at this
      simpa only [bit, c3] using this
    cases fuel with
    | zero => simp only [referenceMerge, hnone, if_true]
    | succ fuel => simp only [referenceMerge, hnone]
  | step g r rest hs _ ih =>
    intro mask hlen hbits fuel hfuel
    have hs' : GreedyStep W H (bit mask W) r :=
      greedyStep_congr (fun u v hu hv => (hbits u v hu hv).symm) hs
    obtain ⟨a1, _, _⟩ := greedyStep_anchor hs'
    obtain ⟨e1, e2⟩ := index_of_cell (v := r.y) a1
    cases fuel with
    | zero => simp at hfuel
    | succ fuel =>
      have hrec := ih (refClear mask W r) (by simp [refClear, hlen])
        (fun u v hu hv => by
          rw [refClear_bit hlen r hu hv]
          simp only [clearGrid, hbits u v hu hv])
        fuel (by simpa using hfuel)
      simp only [referenceMerge, firstTrue_of_step hlen hs', e1, e2, refWidth_eq hs',
        refHeight_eq hs', hrec]

theorem length_le_area (rects : List Rect) (h : ∀ r ∈ rects, 1 ≤ r.w ∧ 1 ≤ r.h) :
    rects.length ≤ area rects := by
  induction rects with
  | nil => simp [area]
  | cons r t ih =>
    have h1 := h r (List.mem_cons_self _ _)
    have h2 := ih (fun r' hr' => h r' (List.mem_cons_of_mem _ hr'))
    have h3 : 1 ≤ r.w * r.h := Nat.mul_le_mul h1.1 h1.2
    simp only [area, List.map_cons, List.sum_cons, List.length_cons] at h2 ⊢
    omega

/-! ## Claims about the greedy rule on one mask -/

theorem mergeMask_run {W H : Nat} {mask : Mask} (hsize : mask.length = W * H)
    (h32 : W * H < 2 ^ 32) :
    ∃ rects left, mergeMask W H mask = some (rects, left) ∧
      GreedyRun W H (bit mask W) rects ∧ rects.length ≤ mask.length := by
  obtain ⟨rects, left, h1, h2⟩ := mergeMask_greedy hsize h32
  obtain ⟨rects', left', h1', h2', _, _⟩ := mergeMask_spec hsize h32
  rw [h1] at h1'
  cases h1'
  refine ⟨rects, left, h1, h2, ?_⟩
  have e1 := length_le_area rects (fun r hr => (h2'.inside r hr).2.2)
  have e2 := h2'.count
  have e3 := List.count_le_length true mask
  omega

/-- C12, amended (maximal rectangles). For every mask of size `W x H` (a
vector with a 32-bit size, as in C2), every rectangle emitted by the merge
scan is maximal among the cells that are unclaimed when it is emitted: every
axis-aligned rectangle `big` that strictly contains its footprint has a cell
that is outside the grid, or `false` in the mask before merging, or covered
by a rectangle emitted earlier. -/
theorem mergeMask_rects_maximal_unclaimed (W H : Nat) (mask : Mask)
    (hsize : mask.length = W * H) (h32 : mask.length < 2 ^ 32) :
    ∃ rects left, mergeMask W H mask = some (rects, left) ∧
      ∀ pre r post, rects = pre ++ r :: post →
        ∀ big : Rect, big.contains r → big ≠ r →
          ∃ u v, (big.x ≤ u ∧ u < big.x + big.w ∧ big.y ≤ v ∧ v < big.y + big.h) ∧
            ¬ (u < W ∧ v < H ∧ maskGet mask (to_index u v W) = some true ∧
              ∀ r' ∈ pre, ¬ (r'.x ≤ u ∧ u < r'.x + r'.w ∧ r'.y ≤ v ∧ v < r'.y + r'.h)) := by
  have h32' : W * H < 2 ^ 32 := hsize ▸ h32
  obtain ⟨rects, left, h1, h2, _⟩ := mergeMask_run hsize h32'
  refine ⟨rects, left, h1, ?_⟩
  intro pre r post he big hc hne
  obtain ⟨u, v, hcov, hnot⟩ := greedyRun_maximal h2 pre r post he big hc hne
  refine ⟨u, v, by simpa only [Rect.covers, decide_eq_true_eq] using hcov, ?_⟩
  rintro ⟨hu, hv, hg, hpre⟩
  apply hnot
  refine ⟨hu, hv, ?_, ?_⟩
  · rw [maskGet_bit hsize h32' hu hv] at hg
    exact Option.some.inj hg
  · intro r' hr'
    have := hpre r' hr'
    simpa only [Rect.covers, decide_eq_false_iff_not] using this

/-- Witness of C12 on the 2 x 2 mask with rows `[1, 1]` and `[0, 1]`. -/
theorem mergeMask_rects_maximal_unclaimed_witness :
    ∃ rects left, mergeMask 2 2 [true, true, false, true] = some (rects, left) ∧
      ∀ pre r post, rects = pre ++ r :: post →
        ∀ big : Rect, big.contains r → big ≠ r →
          ∃ u v, (big.x ≤ u ∧ u < big.x + big.w ∧ big.y ≤ v ∧ v < big.y + big.h) ∧
            ¬ (u < 2 ∧ v < 2 ∧
              maskGet [true, true, false, true] (to_index u v 2) = some true ∧
              ∀ r' ∈ pre, ¬ (r'.x ≤ u ∧ u < r'.x + r'.w ∧ r'.y ≤ v ∧ v < r'.y + r'.h)) :=
  mergeMask_rects_maximal_unclaimed 2 2 [true, true, false, true] (by decide) (by decide)

/-- Counterexample to C12 as stated. On the 2 x 2 mask with rows `[1, 1]` and
`[0, 1]` the scan emits `(0, 0, 2, 1)` and then `(1, 1, 1, 1)`; the second
rectangle is strictly contained in the column `(1, 0, 1, 2)`, whose two cells
`(1, 0)` and `(1, 1)` are both `true` in the mask before merging. -/
theorem emitted_rect_not_maximal_in_original_mask :
    mergeMask 2 2 [true, true, false, true]
        = some ([⟨0, 0, 2, 1⟩, ⟨1, 1, 1, 1⟩], [false, false, false, false]) ∧
      Rect.contains ⟨1, 0, 1, 2⟩ ⟨1, 1, 1, 1⟩ ∧ (⟨1, 0, 1, 2⟩ : Rect) ≠ ⟨1, 1, 1, 1⟩ ∧
      ∀ u v, (1 ≤ u ∧ u < 1 + 1 ∧ 0 ≤ v ∧ v < 0 + 2) →
        u < 2 ∧ v < 2 ∧ maskGet [true, true, false, true] (to_index u v 2) = some true := by
  refine ⟨by decide, ⟨by decide, by decide, by decide, by decide⟩, by decide, ?_⟩
  intro u v ⟨h1, h2, _, h4⟩
  obtain rfl : u = 1 := by omega
  obtain rfl | rfl : v = 0 ∨ v = 1 := by omega
  · decide
  · decide

/-- C16 (greedy rule as reference). For every mask of size `W x H` (a vector
with a 32-bit size, as in C2), the list of rectangles emitted by the single
row-major scan equals the list produced by the reference procedure
`referenceMerge`, which restarts from the row-major first `true` cell after
every rectangle: the same rectangles in the same order. -/
theorem mergeMask_eq_referenceMerge (W H : Nat) (mask : Mask)
    (hsize : mask.length = W * H) (h32 : mask.length < 2 ^ 32) :
    ∃ rects left, mergeMask W H mask = some (rects, left) ∧
      referenceMerge W H mask.length mask = some rects := by
  have h32' : W * H < 2 ^ 32 := hsize ▸ h32
  obtain ⟨rects, left, h1, h2, h3⟩ := mergeMask_run hsize h32'
  exact ⟨rects, left, h1,
    referenceMerge_of_greedyRun h2 mask hsize (fun _ _ _ _ => rfl) _ h3⟩

/-- Witness of C16 on the 2 x 2 mask with rows `[1, 1]` and `[0, 1]`. -/
theorem mergeMask_eq_referenceMerge_witness :
    ∃ rects left, mergeMask 2 2 [true, true, false, true] = some (rects, left) ∧
      referenceMerge 2 2 [true, true, false, true].length [true, true, false, true]
        = some rects :=
  mergeMask_eq_referenceMerge 2 2 [true, true, false, true] (by decide) (by decide)

/-- C18 (no two quads of one slice can be merged). For every mask of size
`W x H` (a vector with a 32-bit size, as in C2), no two distinct rectangles
emitted from it have the same `y` and height and are horizontally adjacent,
and none have the same `x` and width and are vertically adjacent. -/
theorem mergeMask_rects_not_mergeable (W H : Nat) (mask : Mask)
    (hsize : mask.length = W * H) (h32 : mask.length < 2 ^ 32) :
    ∃ rects left, mergeMask W H mask = some (rects, left) ∧
      rects.Pairwise (fun r1 r2 =>
        ¬ (r1.y = r2.y ∧ r1.h = r2.h ∧ (r1.x + r1.w = r2.x ∨ r2.x + r2.w = r1.x)) ∧
        ¬ (r1.x = r2.x ∧ r1.w = r2.w ∧ (r1.y + r1.h = r2.y ∨ r2.y + r2.h = r1.y))) := by
  have h32' : W * H < 2 ^ 32 := hsize ▸ h32
  obtain ⟨rects, left, h1, h2, _⟩ := mergeMask_run hsize h32'
  refine ⟨rects, left, h1, (greedyRun_not_mergeable h2).imp ?_⟩
  intro r1 r2 hn
  exact ⟨fun h => hn (Or.inl h), fun h => hn (Or.inr h)⟩

/-- Witness of C18 on the 2 x 2 mask with rows `[1, 1]` and `[0, 1]`. -/
theorem mergeMask_rects_not_mergeable_witness :
    ∃ rects left, mergeMask 2 2 [true, true, false, true] = some (rects, left) ∧
      rects.Pairwise (fun r1 r2 =>
        ¬ (r1.y = r2.y ∧ r1.h = r2.h ∧ (r1.x + r1.w = r2.x ∨ r2.x + r2.w = r1.x)) ∧
        ¬ (r1.x = r2.x ∧ r1.w = r2.w ∧ (r1.y + r1.h = r2.y ∨ r2.y + r2.h = r1.y))) :=
  mergeMask_rects_not_mergeable 2 2 [true, true, false, true] (by decide) (by decide)

/-! ## Properties of every returned quad list -/

theorem greedy_some_maskFits {dims : UVec3} {f : IVec3 → Bool} {quads : List quad_t}
    (h : greedy_remesher dims f = some quads) : MaskFits dims := by
  by_contra hn
  have hex : ∃ norm, norm < 3 ∧
      2 ^ 32 ≤ dims.get (tanAxis norm) * dims.get (biTanAxis norm) := by
    unfold MaskFits at hn
    by_cases h0 : dims.y * dims.z < 2 ^ 32
    · by_cases h1 : dims.z * dims.x < 2 ^ 32
      · by_cases h2 : dims.x * dims.y < 2 ^ 32
        · exact absurd ⟨h0, h1, h2⟩ hn
        · exact ⟨2, by omega, Nat.le_of_not_lt h2⟩
      · exact ⟨1, by omega, Nat.le_of_not_lt h1⟩
    · exact ⟨0, by omega, Nat.le_of_not_lt h0⟩
  obtain ⟨norm, hn3, hov⟩ := hex
  rw [greedy_none_of_overflow dims f hn3 hov] at h
  cases h

theorem greedy_faces {dims : UVec3} {f : IVec3 → Bool} {quads : List quad_t}
    (h : greedy_remesher dims f = some quads) :
    ∃ faces : List Face, quads = faces.map Face.quad ∧
      ∀ t ∈ faces, t.norm < 3 ∧ t.slice ≤ dims.get t.norm ∧ t.rect.inside dims t.norm := by
  obtain ⟨faces, h1, h2, _, _⟩ := greedy_spec dims f (greedy_some_maskFits h)
  rw [h1] at h
  cases h
  exact ⟨faces, rfl, h2⟩

theorem site_get {norm : Nat} (hn : norm < 3) (s u v : Int) :
    (site norm s u v).get norm = s ∧ (site norm s u v).get (tanAxis norm) = u ∧
      (site norm s u v).get (biTanAxis norm) = v := by
  obtain rfl | rfl | rfl : norm = 0 ∨ norm = 1 ∨ norm = 2 := by omega
  all_goals exact ⟨rfl, rfl, rfl⟩

theorem face_quad_eq {dims : UVec3} (hc : CoordsFit dims) {t : Face} (ht : t.norm < 3)
    (hs : t.slice ≤ dims.get t.norm) (hin : t.rect.inside dims t.norm) :
    t.quad = ⟨site t.norm t.slice t.rect.x t.rect.y,
      site t.norm t.slice ((t.rect.x : Int) + t.rect.w) t.rect.y,
      site t.norm t.slice ((t.rect.x : Int) + t.rect.w) ((t.rect.y : Int) + t.rect.h),
      site t.norm t.slice t.rect.x ((t.rect.y : Int) + t.rect.h)⟩ := by
  have b1 := coordsFit_get hc t.norm
  have b2 := coordsFit_get hc (tanAxis t.norm)
  have b3 := coordsFit_get hc (biTanAxis t.norm)
  unfold Rect.inside at hin
  rw [Face.quad, mkQuad_eq ht (by omega) (by omega) (by omega), Nat.cast_add, Nat.cast_add]

/-- C11, amended (quad corner construction). For all `dims` whose components
are below `2 ^ 31` and every oracle, whenever mask sizes fit 32 bits
`greedy_remesher` returns a list, and in every list it returns every quad
`(a, b, c, d)` is the quad of an emitted face with axis `norm`, anchor
`(x, y)`, `w ≥ 1` and `h ≥ 1` such that `b = a + w e_tan`,
`c = a + w e_tan + h e_biTan` and `d = a + h e_biTan`, where `a` has
`norm`-coordinate equal to the slice and in-plane coordinates `(x, y)`; the
four corners share the `norm`-coordinate. -/
theorem greedy_remesher_corner_construction (dims : UVec3) (map_fn : IVec3 → Bool)
    (hc : CoordsFit dims) :
    (MaskFits dims → ∃ quads, greedy_remesher dims map_fn = some quads) ∧
      CornerConstruction dims map_fn := by
  constructor
  · intro hm
    obtain ⟨faces, h1, _⟩ := greedy_spec dims map_fn hm
    exact ⟨_, h1⟩
  · intro quads h
    obtain ⟨faces, h1, h2⟩ := greedy_faces h
    refine ⟨faces, h1, ?_⟩
    intro t ht
    obtain ⟨a, b, c⟩ := h2 t ht
    have hq := face_quad_eq hc a b c
    have hin := c
    unfold Rect.inside at hin
    refine ⟨a, hin.2.2.1, hin.2.2.2, ?_, ?_, ?_, ?_, ?_, ?_, ?_, ?_⟩
    all_goals rw [hq]
    all_goals first | rfl | exact (site_get a _ _ _).1

/-- Witness of C11 on the single voxel of a 1 x 1 x 1 volume. -/
theorem greedy_remesher_corner_construction_witness :
    CoordsFit ⟨1, 1, 1⟩ ∧
      ((MaskFits ⟨1, 1, 1⟩ →
        ∃ quads, greedy_remesher ⟨1, 1, 1⟩ (fun p => decide (p = ⟨0, 0, 0⟩)) = some quads) ∧
      CornerConstruction ⟨1, 1, 1⟩ (fun p => decide (p = ⟨0, 0, 0⟩))) :=
  ⟨⟨by decide, by decide, by decide⟩,
    greedy_remesher_corner_construction ⟨1, 1, 1⟩ (fun p => decide (p = ⟨0, 0, 0⟩))
      ⟨by decide, by decide, by decide⟩⟩

theorem toI32_add_toI32 (a b : Int) : toI32 (toI32 a + toI32 b) = toI32 (a + b) := by
  unfold toI32
  omega

theorem mkQuad_two_d_y (s : Nat) (r : Rect) :
    (mkQuad 2 s r).d.y = toI32 ((r.y : Int) + r.h) := by
  simp only [mkQuad, tanAxis, biTanAxis, IVec3.set, IVec3.add, IVec3.zero, Nat.reduceAdd,
    Nat.reduceMod]
  exact toI32_add_toI32 _ _

theorem site_y_nonneg (norm : Nat) {s u v : Int} (hs : 0 ≤ s) (hu : 0 ≤ u) (hv : 0 ≤ v) :
    0 ≤ (site norm s u v).y := by
  unfold site
  split
  · exact hu
  · exact hs
  · exact hv

/-- Counterexample to C11 as stated for every input. For `dims = (1, 2 ^ 31 + 1,
1)` (all mask sizes fit 32 bits) and the oracle that is `true` exactly at the
`int` coordinate `(0, INT_MIN, 0)`, which is what the cell `y = 2 ^ 31` converts
to, the sweep along axis `2` emits at slice `0` a rectangle that ends at
`y + h = 2 ^ 31 + 1`; its corner `d` has `y`-coordinate `-2 ^ 31 + 1`, so the
quad is not of the form `a, a + w e_tan, ...` for an anchor cell `(x, y)` of the
mask. -/
theorem corner_construction_fails_past_int_max :
    ¬ CornerConstruction ⟨1, 2 ^ 31 + 1, 1⟩ (fun p => decide (p = ⟨0, -2 ^ 31, 0⟩)) := by
  intro hcc
  obtain ⟨faces, h1, h2, h3, _⟩ := greedy_spec ⟨1, 2 ^ 31 + 1, 1⟩
    (fun p => decide (p = ⟨0, -2 ^ 31, 0⟩)) ⟨by decide, by decide, by decide⟩
  obtain ⟨faces', e, hshape⟩ := hcc _ h1
  have hbit : maskBit (fun p => decide (p = (⟨0, -2 ^ 31, 0⟩ : IVec3))) 2 0 0 (2 ^ 31)
      = true := by decide
  have hcnt := h3 2 0 0 (2 ^ 31) (by decide) (Nat.zero_le _) (by decide) (by decide)
  rw [hbit] at hcnt
  have hpos : 0 < faces.countP (fun t => t.covers 2 0 0 (2 ^ 31)) := by
    rw [hcnt]; decide
  obtain ⟨t, ht, hcov⟩ := List.countP_pos_iff.mp hpos
  obtain ⟨_, _, hin⟩ := h2 t ht
  have hmem : t.quad ∈ faces'.map Face.quad := by
    rw [← e]
    exact List.mem_map.mpr ⟨t, ht, rfl⟩
  obtain ⟨t', ht', hq⟩ := List.mem_map.mp hmem
  obtain ⟨_, _, _, _, _, _, hd, _⟩ := hshape t' ht'
  obtain ⟨tn, ts, ⟨x, y, w, h⟩⟩ := t
  simp only [Face.covers, Rect.covers, Bool.and_eq_true, decide_eq_true_eq] at hcov
  obtain ⟨⟨rfl, rfl⟩, hx1, hx2, hy1, hy2⟩ := hcov
  have e2 : UVec3.get ⟨1, 2 ^ 31 + 1, 1⟩ (biTanAxis 2) = 2 ^ 31 + 1 := rfl
  simp only [Rect.inside, e2] at hin
  have hsum : (y : Int) + h = 2 ^ 31 + 1 := by omega
  have hy : (Face.quad ⟨2, 0, ⟨x, y, w, h⟩⟩).d.y = -2 ^ 31 + 1 := by
    rw [Face.quad, mkQuad_two_d_y, hsum]
    decide
  rw [← hq, hd] at hy
  have hnn := site_y_nonneg t'.norm (Int.ofNat_nonneg t'.slice) (Int.ofNat_nonneg t'.rect.x)
    (add_nonneg (Int.ofNat_nonneg t'.rect.y) (Int.ofNat_nonneg t'.rect.h))
  rw [hy] at hnn
  exact absurd hnn (by decide)

theorem site_inBox (dims : UVec3) {norm : Nat} (hn : norm < 3) {s u v : Nat}
    (hs : s ≤ dims.get norm) (hu : u ≤ dims.get (tanAxis norm))
    (hv : v ≤ dims.get (biTanAxis norm)) : InBox dims (site norm s u v) := by
  obtain rfl | rfl | rfl : norm = 0 ∨ norm = 1 ∨ norm = 2 := by omega
  all_goals
    simp only [UVec3.get, tanAxis, biTanAxis, Nat.reduceAdd, Nat.reduceMod] at hs hu hv
    simp only [InBox, site]
    omega

/-- C20 (quads stay inside the bounding box). For all `dims` with each
component below `2 ^ 31` and every oracle, `greedy_remesher` returns a list
whenever the mask sizes fit 32 bits, and in every list it returns every corner
`p` of every quad satisfies `0 ≤ p[i] ≤ dims[i]` on each axis; every emitted
rectangle has `x + w ≤ dims[tan]`, `y + h ≤ dims[biTan]` and
`slice ≤ dims[norm]`. -/
theorem greedy_remesher_quads_in_box (dims : UVec3) (map_fn : IVec3 → Bool)
    (hc : CoordsFit dims) :
    (MaskFits dims → ∃ quads, greedy_remesher dims map_fn = some quads) ∧
      StaysInBox dims map_fn := by
  constructor
  · intro hm
    obtain ⟨faces, h1, _⟩ := greedy_spec dims map_fn hm
    exact ⟨_, h1⟩
  · intro quads h
    obtain ⟨faces, h1, h2⟩ := greedy_faces h
    constructor
    · refine ⟨faces, h1, ?_⟩
      intro t ht
      obtain ⟨a, b, c⟩ := h2 t ht
      exact ⟨a, c.1, c.2.1, b⟩
    · intro q hq
      rw [h1] at hq
      obtain ⟨t, ht, rfl⟩ := List.mem_map.mp hq
      obtain ⟨a, b, c⟩ := h2 t ht
      rw [face_quad_eq hc a b c]
      have hin := c
      unfold Rect.inside at hin
      refine ⟨site_inBox dims a b (by omega) (by omega), ?_, ?_, ?_⟩
      · have := site_inBox dims a b hin.1 (by omega : t.rect.y ≤ _)
        rwa [Nat.cast_add] at this
      · have := site_inBox dims a b hin.1 hin.2.1
        rwa [Nat.cast_add, Nat.cast_add] at this
      · have := site_inBox dims a b (by omega : t.rect.x ≤ _) hin.2.1
        rwa [Nat.cast_add] at this

/-- Witness of C20 on the single voxel of a 1 x 1 x 1 volume. -/
theorem greedy_remesher_quads_in_box_witness :
    CoordsFit ⟨1, 1, 1⟩ ∧
      ((MaskFits ⟨1, 1, 1⟩ →
        ∃ quads, greedy_remesher ⟨1, 1, 1⟩ (fun p => decide (p = ⟨0, 0, 0⟩)) = some quads) ∧
      StaysInBox ⟨1, 1, 1⟩ (fun p => decide (p = ⟨0, 0, 0⟩))) :=
  ⟨⟨by decide, by decide, by decide⟩,
    greedy_remesher_quads_in_box ⟨1, 1, 1⟩ (fun p => decide (p = ⟨0, 0, 0⟩))
      ⟨by decide, by decide, by decide⟩⟩

/-! ## Sampling footprint -/

theorem site_sampleRegion (dims : UVec3) {norm : Nat} (hn : norm < 3) {s : Int} {u v : Nat}
    (hs1 : -1 ≤ s) (hs2 : s ≤ dims.get norm) (hu : u < dims.get (tanAxis norm))
    (hv : v < dims.get (biTanAxis norm)) : SampleRegion dims (site norm s u v) := by
  obtain ⟨e1, e2, e3⟩ := site_get hn s u v
  refine ⟨norm, hn, ?_⟩
  rw [e1, e2, e3]
  omega

/-- C14, amended (determinism and sampling footprint). For all `dims` whose
components are below `2 ^ 31`, any two oracles that agree on every coordinate
`c` for which some axis `n` has `-1 ≤ c[n] ≤ dims[n]` while the other two
components lie in `[0, dims)` give the same result of `greedy_remesher`: the
same quad list in the same order, or no list for both. The result is a
function of `dims` and of the oracle's values on that region only. -/
theorem greedy_remesher_sampling_footprint (dims : UVec3) (f g : IVec3 → Bool)
    (hc : CoordsFit dims) (h : ∀ c, SampleRegion dims c → f c = g c) :
    greedy_remesher dims f = greedy_remesher dims g := by
  apply greedy_congr
  intro norm s u v hn hs hu hv
  have b1 := coordsFit_get hc norm
  have b2 := coordsFit_get hc (tanAxis norm)
  have b3 := coordsFit_get hc (biTanAxis norm)
  rw [maskBit_eq f hn (by omega) (by omega) (by omega),
    maskBit_eq g hn (by omega) (by omega) (by omega),
    h _ (site_sampleRegion dims hn (by omega) (by omega) hu hv),
    h _ (site_sampleRegion dims hn (by omega) (by omega) hu hv)]

/-- Witness of C14 on a 1 x 1 x 1 volume: an oracle that is also `true` two
cells before the volume gives the same list as the single-voxel oracle. -/
theorem greedy_remesher_sampling_footprint_witness :
    CoordsFit ⟨1, 1, 1⟩ ∧
      (∀ c, SampleRegion ⟨1, 1, 1⟩ c →
        decide (c = ⟨0, 0, 0⟩ ∨ c = ⟨-2, 0, 0⟩) = decide (c = ⟨0, 0, 0⟩)) ∧
      greedy_remesher ⟨1, 1, 1⟩ (fun c => decide (c = ⟨0, 0, 0⟩ ∨ c = ⟨-2, 0, 0⟩)) =
        greedy_remesher ⟨1, 1, 1⟩ (fun c => decide (c = ⟨0, 0, 0⟩)) := by
  have hag : ∀ c, SampleRegion ⟨1, 1, 1⟩ c →
      decide (c = ⟨0, 0, 0⟩ ∨ c = ⟨-2, 0, 0⟩) = decide (c = ⟨0, 0, 0⟩) := by
    rintro c ⟨n, hn, h1, h2, h3, h4, h5, h6⟩
    have hne : c ≠ ⟨-2, 0, 0⟩ := by
      rintro rfl
      obtain rfl | rfl | rfl : n = 0 ∨ n = 1 ∨ n = 2 := by omega
      · exact absurd h1 (by decide)
      · exact absurd h5 (by decide)
      · exact absurd h3 (by decide)
    simp only [hne, or_false]
  exact ⟨⟨by decide, by decide, by decide⟩, hag,
    greedy_remesher_sampling_footprint ⟨1, 1, 1⟩ _ _ ⟨by decide, by decide, by decide⟩ hag⟩

/-- Counterexample to C14 as stated for all `dims`. For `dims = (2 ^ 31, 1, 1)`
the oracle that is `true` exactly at `(INT_MIN, 0, 0)` agrees with the
all-`false` oracle on the whole stated region, yet the cap slice `2 ^ 31` of
the sweep along axis `0` samples the `int` coordinate `(INT_MIN, 0, 0)`: the
all-`false` oracle gives the empty list and the other one does not. -/
theorem sampling_footprint_fails_at_int_min :
    (∀ c, SampleRegion ⟨2 ^ 31, 1, 1⟩ c →
        decide (c = (⟨-2 ^ 31, 0, 0⟩ : IVec3)) = (fun _ => false) c) ∧
      greedy_remesher ⟨2 ^ 31, 1, 1⟩ (fun _ => false) = some [] ∧
      greedy_remesher ⟨2 ^ 31, 1, 1⟩ (fun c => decide (c = ⟨-2 ^ 31, 0, 0⟩)) ≠
        greedy_remesher ⟨2 ^ 31, 1, 1⟩ (fun _ => false) := by
  have hnil : greedy_remesher ⟨2 ^ 31, 1, 1⟩ (fun _ => false) = some [] :=
    greedy_nil_of_no_transition _ _ ⟨by decide, by decide, by decide⟩
      (fun norm s u v _ _ _ _ => maskBit_of_const _ (fun _ => rfl) norm s u v)
  refine ⟨?_, hnil, ?_⟩
  · rintro c ⟨n, hn, h1, h2, h3, h4, h5, h6⟩
    have hne : c ≠ ⟨-2 ^ 31, 0, 0⟩ := by
      rintro rfl
      obtain rfl | rfl | rfl : n = 0 ∨ n = 1 ∨ n = 2 := by omega
      · exact absurd h1 (by decide)
      · exact absurd h5 (by decide)
      · exact absurd h3 (by decide)
    simp only [hne, decide_False]
  · rw [hnil]
    obtain ⟨faces, h1, _, h3, _⟩ := greedy_spec ⟨2 ^ 31, 1, 1⟩
      (fun c => decide (c = ⟨-2 ^ 31, 0, 0⟩)) ⟨by decide, by decide, by decide⟩
    rw [h1]
    intro hcon
    have hnilf : faces = [] := List.map_eq_nil_iff.mp (Option.some.inj hcon)
    have hbit : maskBit (fun c => decide (c = (⟨-2 ^ 31, 0, 0⟩ : IVec3))) 0 (2 ^ 31) 0 0
        = true := by decide
    have hcnt := h3 0 (2 ^ 31) 0 0 (by decide) (le_refl _) (by decide) (by decide)
    rw [hbit, hnilf] at hcnt
    revert hcnt
    decide

/-! ## A sweep as a sequence of greedy runs -/

theorem sliceQuads_run (dims : UVec3) (f : IVec3 → Bool) {norm : Nat} (hn : norm < 3)
    (slice : Nat) {m : Mask}
    (hlen : m.length = dims.get (tanAxis norm) * dims.get (biTanAxis norm))
    (h32 : dims.get (tanAxis norm) * dims.get (biTanAxis norm) < 2 ^ 32) :
    ∃ rects left, sliceQuads dims f norm slice m = some (rects.map (mkQuad norm slice), left) ∧
      left.length = m.length ∧
      GreedyRun (dims.get (tanAxis norm)) (dims.get (biTanAxis norm))
        (fun u v => maskBit f norm slice u v) rects := by
  obtain ⟨m1, h1, h2, h3⟩ := fillMask_spec dims f hn slice hlen h32
  obtain ⟨rects, left, g1, g2, g3, g4, g5, _, _⟩ := mergeMask_cover (h2.trans hlen) h32
  obtain ⟨rects', left', g1', g2'⟩ := mergeMask_greedy (h2.trans hlen) h32
  rw [g1] at g1'
  cases g1'
  refine ⟨rects, left, ?_, g2.trans h2, greedyRun_congr g2' _ h3⟩
  simp only [sliceQuads, h1, g1]

theorem sweepFrom_of_runs (dims : UVec3) (f : IVec3 → Bool) {norm : Nat} (hn : norm < 3)
    (h32 : dims.get (tanAxis norm) * dims.get (biTanAxis norm) < 2 ^ 32)
    (rs : Nat → List Rect) (n : Nat)
    (hrs : ∀ s, s < n → GreedyRun (dims.get (tanAxis norm)) (dims.get (biTanAxis norm))
      (fun u v => maskBit f norm s u v) (rs s))
    {m : Mask} (hlen : m.length = dims.get (tanAxis norm) * dims.get (biTanAxis norm)) :
    ∃ left, sweepFrom dims f norm (List.range n) m =
      some ((List.range n).flatMap (fun s => (rs s).map (mkQuad norm s)), left) := by
  have key := foldlM_range_inv
    (fun (acc : List quad_t × Mask) slice =>
      match sliceQuads dims f norm slice acc.2 with
      | none => none
      | some (qs, m) => some (acc.1 ++ qs, m))
    (fun i acc => acc.2.length = m.length ∧
      acc.1 = (List.range i).flatMap (fun s => (rs s).map (mkQuad norm s)))
    n ([], m) ⟨rfl, rfl⟩
    (by
      rintro i ⟨qs, m1⟩ hi ⟨hl, hq⟩
      simp only at hl hq
      obtain ⟨rects, left, h1, h2, h3⟩ := sliceQuads_run dims f hn i (hl.trans hlen) h32
      have he : rects = rs i := greedyRun_unique h3 _ (hrs i hi)
      refine ⟨(qs ++ rects.map (mkQuad norm i), left), ?_, h2.trans hl, ?_⟩
      · simp only [h1]
      · simp only [hq, he, List.range_succ, List.flatMap_append, List.flatMap_singleton])
  obtain ⟨⟨qs, left⟩, h1, _, hq⟩ := key
  simp only at hq
  subst hq
  exact ⟨left, h1⟩

theorem sweep_of_runs (dims : UVec3) (f : IVec3 → Bool) {norm : Nat} (hn : norm < 3)
    (h32 : dims.get (tanAxis norm) * dims.get (biTanAxis norm) < 2 ^ 32)
    (rs : Nat → List Rect)
    (hrs : ∀ s, s ≤ dims.get norm →
      GreedyRun (dims.get (tanAxis norm)) (dims.get (biTanAxis norm))
        (fun u v => maskBit f norm s u v) (rs s)) :
    sweep dims f norm =
      some ((sliceRange dims norm).flatMap (fun s => (rs s).map (mkQuad norm s))) := by
  have hlen : (newMask dims norm).length
      = dims.get (tanAxis norm) * dims.get (biTanAxis norm) := by
    rw [newMask, List.length_replicate, Nat.mod_eq_of_lt h32]
  obtain ⟨left, h1⟩ := sweepFrom_of_runs dims f hn h32 rs (dims.get norm + 1)
    (fun s hs => hrs s (by omega)) hlen
  rw [sweep, sliceRange, h1]
  rfl

theorem flatMap_range_ends {α : Type} (F : Nat → List α) {n : Nat} (hn : 1 ≤ n)
    (hmid : ∀ s, 0 < s → s < n → F s = []) :
    (List.range (n + 1)).flatMap F = F 0 ++ F n := by
  have hpre : ∀ k, 1 ≤ k → k ≤ n → (List.range k).flatMap F = F 0 := by
    intro k
    induction k with
    | zero => intro h; omega
    | succ k ih =>
      intro _ hk
      rw [List.range_succ, List.flatMap_append, List.flatMap_singleton]
      by_cases h0 : k = 0
      · subst h0
        simp
      · rw [ih (by omega) (by omega), hmid k (by omega) (by omega), List.append_nil]
  rw [List.range_succ, List.flatMap_append, List.flatMap_singleton, hpre n hn (le_refl _)]

theorem greedyRun_full {W H : Nat} {g : Nat → Nat → Bool} (hW : 1 ≤ W) (hH : 1 ≤ H)
    (hg : ∀ u v, u < W → v < H → g u v = true) : GreedyRun W H g [⟨0, 0, W, H⟩] := by
  refine GreedyRun.step g _ _ ?_ (GreedyRun.done _ ?_)
  · refine ⟨?_, hW, hH, ?_, ?_, ?_, ?_, ?_⟩
    · intro u v _ _ h
      simp only at h
      omega
    · simp only [zero_add, le_refl]
    · simp only [zero_add, le_refl]
    · intro l k hl hk
      simp only [zero_add] at hl hk ⊢
      exact hg k l hk hl
    · intro h
      simp only [zero_add] at h
      omega
    · intro h
      simp only [zero_add] at h
      omega
  · intro u v hu hv
    simp only [clearGrid, Rect.covers, Bool.and_eq_false_imp, Bool.not_eq_eq_eq_not,
      Bool.not_true, decide_eq_false_iff_not, not_and, not_lt, zero_add]
    simp only [Nat.zero_le, true_and, forall_const]
    intro _
    simp [hu, hv]

/-! ## The fully solid box -/

theorem outside_site (dims : UVec3) {norm : Nat} (hn : norm < 3) (s u v : Int) :
    OutsideVolume dims (site norm s u v) ↔
      (s < 0 ∨ (dims.get norm : Int) ≤ s ∨ u < 0 ∨ (dims.get (tanAxis norm) : Int) ≤ u ∨
        v < 0 ∨ (dims.get (biTanAxis norm) : Int) ≤ v) := by
  obtain rfl | rfl | rfl : norm = 0 ∨ norm = 1 ∨ norm = 2 := by omega
  all_goals
    simp only [OutsideVolume, site, UVec3.get, tanAxis, biTanAxis, Nat.reduceAdd,
      Nat.reduceMod]
    try omega

theorem solid_site {dims : UVec3} {f : IVec3 → Bool}
    (hf : ∀ p, f p = true ↔ ¬ OutsideVolume dims p) {norm : Nat} (hn : norm < 3) (s : Int)
    {u v : Nat} (hu : u < dims.get (tanAxis norm)) (hv : v < dims.get (biTanAxis norm)) :
    f (site norm s u v) = decide (0 ≤ s ∧ s < dims.get norm) := by
  rw [Bool.eq_iff_iff, hf, outside_site dims hn, decide_eq_true_iff]
  omega

theorem dims_get_pos {dims : UVec3} (hpos : 0 < dims.x ∧ 0 < dims.y ∧ 0 < dims.z) (i : Nat) :
    1 ≤ dims.get i := by
  unfold UVec3.get
  split
  · exact hpos.1
  · exact hpos.2.1
  · exact hpos.2.2

theorem sweep_solid (dims : UVec3) (f : IVec3 → Bool) (hc : CoordsFit dims)
    (hpos : 0 < dims.x ∧ 0 < dims.y ∧ 0 < dims.z)
    (hf : ∀ p, f p = true ↔ ¬ OutsideVolume dims p) {norm : Nat} (hn : norm < 3)
    (h32 : dims.get (tanAxis norm) * dims.get (biTanAxis norm) < 2 ^ 32) :
    sweep dims f norm = some [wholeFace dims norm 0, wholeFace dims norm (dims.get norm)] := by
  have b1 := coordsFit_get hc norm
  have b2 := coordsFit_get hc (tanAxis norm)
  have b3 := coordsFit_get hc (biTanAxis norm)
  have p1 := dims_get_pos hpos norm
  have p2 := dims_get_pos hpos (tanAxis norm)
  have p3 := dims_get_pos hpos (biTanAxis norm)
  have hbit : ∀ s u v, s ≤ dims.get norm → u < dims.get (tanAxis norm) →
      v < dims.get (biTanAxis norm) →
      maskBit f norm s u v = decide (s = 0 ∨ s = dims.get norm) := by
    intro s u v hs hu hv
    rw [maskBit_eq f hn (by omega) (by omega) (by omega), solid_site hf hn _ hu hv,
      solid_site hf hn _ hu hv]
    by_cases h0 : s = 0 ∨ s = dims.get norm
    · rw [decide_eq_true h0]
      by_cases h1 : s = 0
      · rw [decide_eq_true (by omega), decide_eq_false (by omega)]
        rfl
      · rw [decide_eq_false (by omega), decide_eq_true (by omega)]
        rfl
    · rw [decide_eq_false h0, decide_eq_true (by omega), decide_eq_true (by omega)]
      rfl
  have hruns : ∀ s, s ≤ dims.get norm →
      GreedyRun (dims.get (tanAxis norm)) (dims.get (biTanAxis norm))
        (fun u v => maskBit f norm s u v)
        (if s = 0 ∨ s = dims.get norm
          then [⟨0, 0, dims.get (tanAxis norm), dims.get (biTanAxis norm)⟩] else []) := by
    intro s hs
    by_cases h0 : s = 0 ∨ s = dims.get norm
    · rw [if_pos h0]
      apply greedyRun_full p2 p3
      intro u v hu hv
      simp only [hbit s u v hs hu hv, decide_eq_true h0]
    · rw [if_neg h0]
      apply GreedyRun.done
      intro u v hu hv
      simp only [hbit s u v hs hu hv, decide_eq_false h0]
  rw [sweep_of_runs dims f hn h32 _ hruns, sliceRange, flatMap_range_ends _ p1]
  · simp only [true_or, or_true, if_true, List.map_cons, List.map_nil, List.singleton_append]
    rw [mkQuad_eq hn (by omega) (by simp only [zero_add]; omega)
      (by simp only [zero_add]; omega),
      mkQuad_eq hn b1 (by simp only [zero_add]; omega) (by simp only [zero_add]; omega)]
    simp only [wholeFace, zero_add, Nat.cast_zero]
  · intro s hs1 hs2
    have : ¬ (s = 0 ∨ s = dims.get norm) := by omega
    simp only [if_neg this, List.map_nil]

/-- C19, amended (fully solid box). For every `dims` with all three dimensions
positive and below `2 ^ 31` whose three mask sizes are below `2 ^ 32`, and the
oracle that is `true` exactly on the cells of `[0, dims)`, `greedy_remesher`
returns exactly six quads: for each axis `norm`, in this order, the whole face
at slice `0` and the whole face at slice `dims[norm]`, each anchored at in-plane
`(0, 0)` with width `dims[tan]` and height `dims[biTan]`; no quad lies at an
interior slice. -/
theorem greedy_remesher_solid_box (dims : UVec3) (map_fn : IVec3 → Bool)
    (hc : CoordsFit dims) (hm : MaskFits dims)
    (hpos : 0 < dims.x ∧ 0 < dims.y ∧ 0 < dims.z)
    (hf : ∀ p, map_fn p = true ↔ ¬ OutsideVolume dims p) :
    greedy_remesher dims map_fn = some (solidBoxQuads dims) := by
  rw [greedy_remesher_eq,
    sweep_solid dims map_fn hc hpos hf (by omega : 0 < 3) (maskFits_get hm (by omega)),
    sweep_solid dims map_fn hc hpos hf (by omega : 1 < 3) (maskFits_get hm (by omega)),
    sweep_solid dims map_fn hc hpos hf (by omega : 2 < 3) (maskFits_get hm (by omega))]
  rfl

theorem solidBox_iff (dims : UVec3) (p : IVec3) :
    solidBox dims p = true ↔ ¬ OutsideVolume dims p := by
  simp only [solidBox, decide_eq_true_iff, OutsideVolume]
  omega

/-- Witness of C19 on the solid 2 x 3 x 1 box. -/
theorem greedy_remesher_solid_box_witness :
    CoordsFit ⟨2, 3, 1⟩ ∧ MaskFits ⟨2, 3, 1⟩ ∧
      greedy_remesher ⟨2, 3, 1⟩ (solidBox ⟨2, 3, 1⟩) = some (solidBoxQuads ⟨2, 3, 1⟩) :=
  ⟨⟨by decide, by decide, by decide⟩, ⟨by decide, by decide, by decide⟩,
    greedy_remesher_solid_box ⟨2, 3, 1⟩ (solidBox ⟨2, 3, 1⟩)
      ⟨by decide, by decide, by decide⟩ ⟨by decide, by decide, by decide⟩
      ⟨by decide, by decide, by decide⟩ (solidBox_iff ⟨2, 3, 1⟩)⟩

/-- Counterexample to C19 as stated for every positive `dims`. For `dims =
(65536, 65536, 1)` and the solid oracle, the mask of the sweep along axis `2`
has `65536 * 65536 mod 2 ^ 32 = 0` cells and no quad list is returned. For
`dims = (2 ^ 31, 1, 1)` the cap slice `2 ^ 31` of the sweep along axis `0` is
stored in an `int`, so no output quad has `x`-coordinate `2 ^ 31` and the
result is not the list of the six whole faces. -/
theorem solid_box_fails_outside_32_bits :
    greedy_remesher ⟨65536, 65536, 1⟩ (solidBox ⟨65536, 65536, 1⟩) = none ∧
      greedy_remesher ⟨2 ^ 31, 1, 1⟩ (solidBox ⟨2 ^ 31, 1, 1⟩) ≠
        some (solidBoxQuads ⟨2 ^ 31, 1, 1⟩) := by
  constructor
  · exact greedy_none_of_overflow _ _ (by decide : 2 < 3) (by decide)
  · obtain ⟨faces, h1, h2, _, _⟩ := greedy_spec ⟨2 ^ 31, 1, 1⟩ (solidBox ⟨2 ^ 31, 1, 1⟩)
      ⟨by decide, by decide, by decide⟩
    rw [h1]
    intro hcon
    have hmem : wholeFace ⟨2 ^ 31, 1, 1⟩ 0 (2 ^ 31) ∈ faces.map Face.quad := by
      rw [Option.some.inj hcon]
      simp only [solidBoxQuads, List.mem_cons, true_or, or_true]
    obtain ⟨t, ht, hq⟩ := List.mem_map.mp hmem
    have hlt := mkQuad_a_x_lt (h2 t ht).1 t.slice t.rect
    rw [Face.quad] at hq
    rw [hq] at hlt
    exact absurd hlt (by decide)

/-! ## Every mask access is in bounds -/

theorem inBounds_of_lt {W H u v : Nat} (h32 : W * H < 2 ^ 32) (hu : u < W) (hv : v < H) :
    InBounds W H u v := by
  refine ⟨hu, hv, to_index_eq h32 hu hv, ?_⟩
  rw [to_index_eq h32 hu hv]
  exact idx_lt hu hv

theorem readAt_eq {W H u v : Nat} (h32 : W * H < 2 ^ 32) (hu : u < W) (hv : v < H)
    (mask : Mask) : readAt mask W H u v = maskGet mask (to_index u v W) := by
  rw [readAt, if_pos (inBounds_of_lt h32 hu hv)]

theorem writeAt_eq {W H u v : Nat} (h32 : W * H < 2 ^ 32) (hu : u < W) (hv : v < H)
    (mask : Mask) (b : Bool) : writeAt mask W H u v b = maskSet mask (to_index u v W) b := by
  rw [writeAt, if_pos (inBounds_of_lt h32 hu hv)]

theorem growWidthChecked_eq {W H : Nat} (h32 : W * H < 2 ^ 32) (mask : Mask) (x : Nat)
    {y : Nat} (hy : y < H) (fuel : Nat) :
    ∀ width, growWidthChecked mask W H x y fuel width = growWidth mask W x y fuel width := by
  induction fuel with
  | zero => intro width; rfl
  | succ fuel ih =>
    intro width
    unfold growWidthChecked growWidth
    by_cases hlt : x + width < W
    · rw [if_pos hlt, if_pos hlt, readAt_eq h32 hlt hy, ih]
    · rw [if_neg hlt, if_neg hlt]

theorem growWidth_le {mask : Mask} {W x y : Nat} (fuel : Nat) :
    ∀ width w, growWidth mask W x y fuel width = some w → x + width ≤ W → x + w ≤ W := by
  induction fuel with
  | zero => intro width w h; cases h
  | succ fuel ih =>
    intro width w h hle
    unfold growWidth at h
    by_cases hlt : x + width < W
    · rw [if_pos hlt] at h
      cases hg : maskGet mask (to_index (x + width) y W) with
      | none => rw [hg] at h; cases h
      | some b =>
        rw [hg] at h
        cases b with
        | true => exact ih (width + 1) w h (by omega)
        | false =>
          cases h
          exact hle
    · rw [if_neg hlt] at h
      cases h
      exact hle

theorem rowSetChecked_eq {W H : Nat} (h32 : W * H < 2 ^ 32) (mask : Mask) {row : Nat}
    (hrow : row < H) (n : Nat) :
    ∀ k, k + n ≤ W → rowSetChecked mask W H row n k = rowSet mask W row n k := by
  induction n with
  | zero => intro k _; rfl
  | succ n ih =>
    intro k hk
    unfold rowSetChecked rowSet
    rw [readAt_eq h32 (by omega : k < W) hrow, ih (k + 1) (by omega)]

theorem growHeightChecked_eq {W H : Nat} (h32 : W * H < 2 ^ 32) (mask : Mask)
    {x width : Nat} (y : Nat) (hxw : x + width ≤ W) (fuel : Nat) :
    ∀ height, growHeightChecked mask W H x y width fuel height =
      growHeight mask W H x y width fuel height := by
  induction fuel with
  | zero => intro height; rfl
  | succ fuel ih =>
    intro height
    unfold growHeightChecked growHeight
    by_cases hlt : y + height < H
    · rw [if_pos hlt, if_pos hlt, rowSetChecked_eq h32 mask hlt width x hxw, ih]
    · rw [if_neg hlt, if_neg hlt]

theorem growHeight_le {mask : Mask} {W H x y width : Nat} (fuel : Nat) :
    ∀ height h, growHeight mask W H x y width fuel height = some h → y + height ≤ H →
      y + h ≤ H := by
  induction fuel with
  | zero => intro height h hg; cases hg
  | succ fuel ih =>
    intro height h hg hle
    unfold growHeight at hg
    by_cases hlt : y + height < H
    · rw [if_pos hlt] at hg
      cases hr : rowSet mask W (y + height) width x with
      | none => rw [hr] at hg; cases hg
      | some b =>
        rw [hr] at hg
        cases b with
        | true => exact ih (height + 1) h hg (by omega)
        | false =>
          cases hg
          exact hle
    · rw [if_neg hlt] at hg
      cases hg
      exact hle

theorem clearRectChecked_eq {W H : Nat} (h32 : W * H < 2 ^ 32) (mask : Mask)
    {x y width height : Nat} (hxw : x + width ≤ W) (hyh : y + height ≤ H) :
    clearRectChecked mask W H x y width height = clearRect mask W x y width height := by
  unfold clearRectChecked clearRect
  apply foldlM_range_congr
  intro l m hl
  apply foldlM_range_congr
  intro k m' hk
  exact writeAt_eq h32 (by omega) (by omega) m' false

theorem scanRowChecked_eq {W H y : Nat} (h32 : W * H < 2 ^ 32) (hy : y < H) (fuel : Nat) :
    ∀ x (m : Mask), scanRowChecked W H y fuel x m = scanRow W H y fuel x m := by
  induction fuel with
  | zero => intro x m; rfl
  | succ fuel ih =>
    intro x m
    unfold scanRowChecked scanRow
    by_cases hx : x < W
    · rw [if_pos hx, if_pos hx, readAt_eq h32 hx hy]
      cases hg : maskGet m (to_index x y W) with
      | none => rfl
      | some b =>
        cases b with
        | false => exact ih (x + 1) m
        | true =>
          simp only
          rw [growWidthChecked_eq h32 m x hy]
          cases hw : growWidth m W x y W 1 with
          | none => rfl
          | some width =>
            have hxw : x + width ≤ W := growWidth_le W 1 width hw (by omega)
            simp only
            rw [growHeightChecked_eq h32 m y hxw]
            cases hh : growHeight m W H x y width H 1 with
            | none => rfl
            | some height =>
              have hyh : y + height ≤ H := growHeight_le H 1 height hh (by omega)
              simp only
              rw [clearRectChecked_eq h32 m hxw hyh]
              cases clearRect m W x y width height with
              | none => rfl
              | some mask1 =>
                simp only
                rw [ih]
    · rw [if_neg hx, if_neg hx]

theorem mergeMaskChecked_eq {W H : Nat} (h32 : W * H < 2 ^ 32) (mask : Mask) :
    mergeMaskChecked W H mask = mergeMask W H mask := by
  unfold mergeMaskChecked mergeMask
  apply foldlM_range_congr
  intro y acc hy
  rw [scanRowChecked_eq h32 hy]

theorem fillMaskChecked_eq (dims : UVec3) (f : IVec3 → Bool) {norm : Nat} (hn : norm < 3)
    (h32 : dims.get (tanAxis norm) * dims.get (biTanAxis norm) < 2 ^ 32) (slice : Nat)
    (mask : Mask) :
    fillMaskChecked dims f norm slice mask = fillMask dims f norm slice mask := by
  unfold fillMaskChecked fillMask
  apply foldlM_range_congr
  intro v m hv
  apply foldlM_range_congr
  intro u m' hu
  obtain ⟨hu32, hv32⟩ := lt_of_idx h32 hu hv
  have e1 : (cursorAt norm slice u v).get (tanAxis norm) = u := by
    rw [cursorAt_get_tan hn, Nat.mod_eq_of_lt hu32]
  have e2 : (cursorAt norm slice u v).get (biTanAxis norm) = v := by
    rw [cursorAt_get_biTan hn, Nat.mod_eq_of_lt hv32]
  simp only [e1, e2]
  exact writeAt_eq h32 hu hv m' _

theorem sliceQuadsChecked_eq (dims : UVec3) (f : IVec3 → Bool) {norm : Nat} (hn : norm < 3)
    (h32 : dims.get (tanAxis norm) * dims.get (biTanAxis norm) < 2 ^ 32) (slice : Nat)
    (mask : Mask) :
    sliceQuadsChecked dims f norm slice mask = sliceQuads dims f norm slice mask := by
  unfold sliceQuadsChecked sliceQuads
  rw [fillMaskChecked_eq dims f hn h32]
  cases fillMask dims f norm slice mask with
  | none => rfl
  | some filled =>
    simp only
    rw [mergeMaskChecked_eq h32]

theorem sweepChecked_eq (dims : UVec3) (f : IVec3 → Bool) {norm : Nat} (hn : norm < 3)
    (h32 : dims.get (tanAxis norm) * dims.get (biTanAxis norm) < 2 ^ 32) :
    sweepChecked dims f norm = sweep dims f norm := by
  have hfun : (fun (acc : List quad_t × Mask) slice =>
      match sliceQuadsChecked dims f norm slice acc.2 with
      | none => none
      | some (qs, m) => some (acc.1 ++ qs, m)) =
      (fun (acc : List quad_t × Mask) slice =>
      match sliceQuads dims f norm slice acc.2 with
      | none => none
      | some (qs, m) => some (acc.1 ++ qs, m)) := by
    funext acc slice
    rw [sliceQuadsChecked_eq dims f hn h32]
  unfold sweepChecked sweep sweepFromChecked sweepFrom
  rw [hfun]

theorem greedy_remesher_checked_eq (dims : UVec3) (f : IVec3 → Bool) (hm : MaskFits dims) :
    greedy_remesher_checked dims f = greedy_remesher dims f := by
  have hr : List.range 3 = [0, 1, 2] := by decide
  simp only [greedy_remesher_checked, greedy_remesher, hr, List.foldlM_cons, List.foldlM_nil,
    sweepChecked_eq dims f (by omega : 0 < 3) (maskFits_get hm (by omega)),
    sweepChecked_eq dims f (by omega : 1 < 3) (maskFits_get hm (by omega)),
    sweepChecked_eq dims f (by omega : 2 < 3) (maskFits_get hm (by omega))]

/-- C17 (mask indexing is in bounds without overflow). For every `dims` such
that `dims[tan] * dims[biTan] < 2 ^ 32` for each of the three axis pairings and
every oracle, the run in which every mask read and write of the mask fill, the
width growth, the height growth and the clearing is checked to use an index
`to_index(u, v, dims[tan])` with `u < dims[tan]`, `v < dims[biTan]`, equal to the
unwrapped `v * dims[tan] + u` and below the mask size, returns a list, the same
list as `greedy_remesher`: no check fails. For such `(u, v)` the 32-bit index
is `v * dims[tan] + u`, it is below the size `dims[tan] * dims[biTan]` of the
allocated mask, and distinct pairs get distinct indices. -/
theorem mask_indexing_in_bounds (dims : UVec3) (map_fn : IVec3 → Bool) (hm : MaskFits dims) :
    (∃ quads, greedy_remesher_checked dims map_fn = some quads ∧
        greedy_remesher dims map_fn = some quads) ∧
      ∀ norm, norm < 3 → ∀ u v, u < dims.get (tanAxis norm) → v < dims.get (biTanAxis norm) →
        to_index u v (dims.get (tanAxis norm)) = v * dims.get (tanAxis norm) + u ∧
        to_index u v (dims.get (tanAxis norm)) <
          dims.get (tanAxis norm) * dims.get (biTanAxis norm) ∧
        (newMask dims norm).length = dims.get (tanAxis norm) * dims.get (biTanAxis norm) ∧
        ∀ u' v', u' < dims.get (tanAxis norm) → v' < dims.get (biTanAxis norm) →
          to_index u' v' (dims.get (tanAxis norm)) = to_index u v (dims.get (tanAxis norm)) →
          u' = u ∧ v' = v := by
  constructor
  · obtain ⟨faces, h1, _⟩ := greedy_spec dims map_fn hm
    exact ⟨_, (greedy_remesher_checked_eq dims map_fn hm).trans h1, h1⟩
  · intro norm hn u v hu hv
    have h32 := maskFits_get hm hn
    obtain ⟨_, _, e1, e2⟩ := inBounds_of_lt h32 hu hv
    refine ⟨e1, e2, ?_, ?_⟩
    · rw [newMask, List.length_replicate, Nat.mod_eq_of_lt h32]
    · intro u' v' hu' hv' he
      rw [to_index_eq h32 hu hv, to_index_eq h32 hu' hv'] at he
      exact idx_inj hu' hu he

/-- Witness of C17 on a 2 x 3 x 1 volume. -/
theorem mask_indexing_in_bounds_witness :
    MaskFits ⟨2, 3, 1⟩ ∧
      (∃ quads,
        greedy_remesher_checked ⟨2, 3, 1⟩ (fun p => decide (p = ⟨1, 2, 0⟩)) = some quads ∧
        greedy_remesher ⟨2, 3, 1⟩ (fun p => decide (p = ⟨1, 2, 0⟩)) = some quads) :=
  ⟨⟨by decide, by decide, by decide⟩,
    (mask_indexing_in_bounds ⟨2, 3, 1⟩ (fun p => decide (p = ⟨1, 2, 0⟩))
      ⟨by decide, by decide, by decide⟩).1⟩

end GreedyRemesher
